import Mathlib

set_option linter.unusedVariables false

/-!
Verification development for the dcrd address index
(`blockchain/indexers/addrindex.go`).

The heart of the file is a shallow embedding of the per-address
level-based storage engine: `dbPutAddrIndexEntry` (insert cascade),
`dbFetchAddrIndexEntries` (windowed ordered read) and
`dbRemoveAddrIndexEntries` (delete and rebalance), together with the
entry codec, the block indexer's address-to-transaction map
construction, and the in-memory unconfirmed-transaction mirror.

For a fixed address, the database bucket is modelled as a list of
byte-lists indexed by level; the empty list stands for an absent key
(the code never stores an empty value: inserts always write at least
one 16-byte entry and the delete path removes keys instead of storing
empty values, so this identification is exact on every state the
functions produce).  Bytes are `Nat`s; machine-integer overflow is made
explicit with `% 2 ^ 32` where the Go code adds `uint32` values.
-/

namespace Addrindex

/-! ### Constants from the source -/

/-- Size in bytes of one serialized address-index entry (`txEntrySize`). -/
def txEntrySize : Nat := 16

/-- Maximum number of entries stored in level 0 (`level0MaxEntries`). -/
def level0MaxEntries : Nat := 8

/-! ### Entry codec -/

/-- Big-endian serialization of a `uint32` into four bytes.

Modelled from the spec: the `byteOrder` value used by
`serializeAddrIndexEntry` lives in a file outside `src/`; the spec
fixes the persisted layout as big-endian.  The argument is reduced
`% 2 ^ 32` first, reflecting the Go conversions to `uint32`. -/
def putUint32 (n : Nat) : List Nat :=
  [n % 2 ^ 32 / 2 ^ 24, n % 2 ^ 32 / 2 ^ 16 % 2 ^ 8, n % 2 ^ 32 / 2 ^ 8 % 2 ^ 8, n % 2 ^ 32 % 2 ^ 8]

/-- Big-endian decoding of four bytes into a `uint32` (the matching
`byteOrder.Uint32`). -/
def uint32BE (bs : List Nat) : Nat :=
  bs.getD 0 0 * 2 ^ 24 + bs.getD 1 0 * 2 ^ 16 + bs.getD 2 0 * 2 ^ 8 + bs.getD 3 0

/-- The serialized form of one address index entry:
`<block id><start offset><tx length><block index>`, four big-endian
`uint32` fields (`serializeAddrIndexEntry`). -/
def serializeAddrIndexEntry (blockID txStart txLen blockIndex : Nat) : List Nat :=
  putUint32 blockID ++ putUint32 txStart ++ putUint32 txLen ++ putUint32 blockIndex

/-- Errors produced by the address index code paths modelled here.
`errDeserialize` is the deserialization sentinel, `dbErr` stands for an
error returned by the database (for example by the block-hash lookup
callback), `corruption` is `makeDbErr(database.ErrCorruption, ...)` and
`assertError` is `AssertError`. -/
inductive AddrIdxErr where
  | errDeserialize (msg : String)
  | dbErr (msg : String)
  | corruption (msg : String)
  | assertError (msg : String)
  deriving DecidableEq, Repr

/-- The `isDeserializeErr` test used by the fetch path to decide whether
to wrap an error as database corruption. -/
def isDeserializeErr : AddrIdxErr → Bool
  | .errDeserialize _ => true
  | _ => false

/-- A decoded address index entry: the block hash resolved through the
caller-supplied callback plus the block region and block index
(`TxIndexEntry` with its embedded `BlockRegion`).  The block hash is
abstracted to a `Nat` since its structure is external to this file. -/
structure TxIndexEntry where
  blockHash : Nat
  offset : Nat
  len : Nat
  blockIndex : Nat
  deriving DecidableEq, Repr

/-- The decoder `deserializeAddrIndexEntry`: fails with the
"unexpected end of data" deserialization error when fewer than
`txEntrySize` bytes are available, otherwise resolves the 4-byte block
ID through `fetchBlockHash` (propagating its error unchanged) and reads
the three remaining big-endian fields. -/
def deserializeAddrIndexEntry (serialized : List Nat)
    (fetchBlockHash : List Nat → Except AddrIdxErr Nat) : Except AddrIdxErr TxIndexEntry :=
  if serialized.length < txEntrySize then
    .error (.errDeserialize "unexpected end of data")
  else
    match fetchBlockHash (serialized.take 4) with
    | .error e => .error e
    | .ok hash =>
        .ok { blockHash := hash
              offset := uint32BE ((serialized.drop 4).take 4)
              len := uint32BE ((serialized.drop 8).take 4)
              blockIndex := uint32BE ((serialized.drop 12).take 4) }

/-! ### The per-address bucket

`keyForLevel addrKey level` only varies in its final byte for a fixed
address, so the bucket contents relevant to one address form a map from
levels to values.  `AddrLevels` is that map: index `l` holds the bytes
stored under the level-`l` key, with `[]` for an absent key.  The
representation is kept canonical (no trailing `[]` slots), which makes
state equality plain list equality. -/

abbrev AddrLevels := List (List Nat)

/-- The bytes the bucket returns for level `l` (`bucket.Get`); `[]`
means the key is absent. -/
def getLevel (s : AddrLevels) (l : Nat) : List Nat := s.getD l []

/-- Store `v` at level `l`, padding with absent slots as required. -/
def setLevelRaw : AddrLevels → Nat → List Nat → AddrLevels
  | [], 0, v => [v]
  | [], l + 1, v => [] :: setLevelRaw [] l v
  | _ :: t, 0, v => v :: t
  | h :: t, l + 1, v => h :: setLevelRaw t l v

/-- Drop trailing absent slots so that each bucket state has a unique
representative. -/
def trimLevels : AddrLevels → AddrLevels
  | [] => []
  | h :: t =>
      match trimLevels t with
      | [] => if h = [] then [] else [h]
      | t' => h :: t'

/-- `bucket.Put` for a level key (and, with `v = []`, `bucket.Delete`). -/
def setLevel (s : AddrLevels) (l : Nat) (v : List Nat) : AddrLevels :=
  trimLevels (setLevelRaw s l v)

@[simp] theorem getLevel_nil (l : Nat) : getLevel [] l = [] := by
  cases l <;> rfl

theorem getLevel_cons (h : List Nat) (t : AddrLevels) (l : Nat) :
    getLevel (h :: t) l = if l = 0 then h else getLevel t (l - 1) := by
  cases l <;> rfl

@[simp] theorem getLevel_cons_zero (h : List Nat) (t : AddrLevels) :
    getLevel (h :: t) 0 = h := rfl

@[simp] theorem getLevel_cons_succ (h : List Nat) (t : AddrLevels) (l : Nat) :
    getLevel (h :: t) (l + 1) = getLevel t l := rfl

theorem getLevel_eq_nil_of_le {s : AddrLevels} {l : Nat} (h : s.length ≤ l) :
    getLevel s l = [] :=
  List.getD_eq_default _ _ h

theorem getLevel_ne_nil_lt {s : AddrLevels} {l : Nat} (h : getLevel s l ≠ []) :
    l < s.length := by
  by_contra hlt
  exact h (List.getD_eq_default _ _ (Nat.le_of_not_lt hlt))

@[simp] theorem getLevel_trimLevels (s : AddrLevels) (l : Nat) :
    getLevel (trimLevels s) l = getLevel s l := by
  induction s generalizing l with
  | nil => rfl
  | cons h t ih =>
      rw [trimLevels]
      cases ht : trimLevels t with
      | nil =>
          by_cases hh : h = []
          · simp only [if_pos hh]
            cases l with
            | zero => simp [hh]
            | succ l => rw [getLevel_cons_succ, ← ih l, ht, getLevel_nil, getLevel_nil]
          · simp only [if_neg hh]
            cases l with
            | zero => rfl
            | succ l => rw [getLevel_cons_succ, getLevel_cons_succ, ← ih l, ht]
      | cons h' t' =>
          cases l with
          | zero => rfl
          | succ l => rw [getLevel_cons_succ, getLevel_cons_succ, ← ih l, ht]

theorem getLevel_setLevelRaw (s : AddrLevels) (l : Nat) (v : List Nat) (k : Nat) :
    getLevel (setLevelRaw s l v) k = if k = l then v else getLevel s k := by
  induction s generalizing l k with
  | nil =>
      induction l generalizing k with
      | zero => cases k <;> simp [setLevelRaw]
      | succ l ih =>
          cases k with
          | zero => simp [setLevelRaw]
          | succ k => simpa [setLevelRaw] using ih k
  | cons h t iht =>
      cases l with
      | zero => cases k <;> simp [setLevelRaw]
      | succ l =>
          cases k with
          | zero => simp [setLevelRaw]
          | succ k => simpa [setLevelRaw] using iht l k

@[simp] theorem getLevel_setLevel (s : AddrLevels) (l : Nat) (v : List Nat) (k : Nat) :
    getLevel (setLevel s l v) k = if k = l then v else getLevel s k := by
  rw [setLevel, getLevel_trimLevels, getLevel_setLevelRaw]

/-- A state is in canonical representation when it carries no trailing
absent slot. -/
def Trimmed (s : AddrLevels) : Prop := trimLevels s = s

theorem trimLevels_trimLevels (s : AddrLevels) : trimLevels (trimLevels s) = trimLevels s := by
  induction s with
  | nil => rfl
  | cons h t ih =>
      rw [trimLevels]
      cases ht : trimLevels t with
      | nil =>
          by_cases hh : h = []
          · simp [hh, trimLevels]
          · simp [hh, trimLevels]
      | cons h' t' =>
          rw [trimLevels, ← ht, ih, ht]

theorem trimmed_setLevel (s : AddrLevels) (l : Nat) (v : List Nat) :
    Trimmed (setLevel s l v) := trimLevels_trimLevels _

theorem trimmed_nil : Trimmed ([] : AddrLevels) := rfl

theorem trimLevels_eq_nil_of_forall {s : AddrLevels} (h : ∀ l, getLevel s l = []) :
    trimLevels s = [] := by
  induction s with
  | nil => rfl
  | cons x xs ih =>
      rw [trimLevels, ih fun l => h (l + 1)]
      have := h 0
      simp only [getLevel_cons_zero] at this
      simp [this]

theorem trimmed_cons_tail {h : List Nat} {t : AddrLevels} (ht : Trimmed (h :: t)) :
    Trimmed t := by
  unfold Trimmed trimLevels at ht
  revert ht
  cases htt : trimLevels t with
  | nil =>
      by_cases hh : h = []
      · simp only [if_pos hh]
        intro ht; exact absurd ht.symm (List.cons_ne_nil _ _)
      · simp only [if_neg hh]
        intro ht
        have := (List.cons.injEq _ _ _ _).mp ht
        show trimLevels t = t
        rw [← this.2]
        rfl
  | cons a b =>
      intro ht
      have := (List.cons.injEq _ _ _ _).mp ht
      show trimLevels t = t
      rw [htt, this.2]

/-- Two canonical-representation states that agree at every level are
equal. -/
theorem trimmed_ext {s t : AddrLevels} (hs : Trimmed s) (ht : Trimmed t)
    (h : ∀ l, getLevel s l = getLevel t l) : s = t := by
  induction s generalizing t with
  | nil =>
      cases t with
      | nil => rfl
      | cons th tt =>
          exfalso
          have hall : ∀ l, getLevel (th :: tt) l = [] := fun l => by
            rw [← h l, getLevel_nil]
          have := trimLevels_eq_nil_of_forall hall
          rw [ht] at this
          exact absurd this (List.cons_ne_nil _ _)
  | cons sh st ih =>
      cases t with
      | nil =>
          exfalso
          have hall : ∀ l, getLevel (sh :: st) l = [] := fun l => by
            rw [h l, getLevel_nil]
          have := trimLevels_eq_nil_of_forall hall
          rw [hs] at this
          exact absurd this (List.cons_ne_nil _ _)
      | cons th tt =>
          have h0 := h 0
          simp only [getLevel_cons_zero] at h0
          subst h0
          have := ih (trimmed_cons_tail hs) (trimmed_cons_tail ht) fun l => by
            have := h (l + 1)
            simpa using this
          rw [this]

/-! ### Insert — `dbPutAddrIndexEntry` -/

/-- The trailing copy loop of the insert cascade: for `mergeLevel` from
`m` down to `1`, copy the bytes stored at `mergeLevel - 1` into
`mergeLevel` (reads happen before any write to a lower level, exactly
as in the source, which reads the bucket and writes only levels above the
one read). -/
def mergeDown (s : AddrLevels) : Nat → AddrLevels
  | 0 => s
  | m + 1 => mergeDown (setLevel s (m + 1) (getLevel s m)) m

/-- The cascade loop of `dbPutAddrIndexEntry`: starting at `curLevel`
(with `maxLevelBytes = level0MaxEntries * txEntrySize * 2 ^ curLevel`,
the quantity the source maintains by doubling), walk upward past full
levels, write the merged data into the first non-full level, copy every
lower level up one and finally store the new entry alone in level 0. -/
def putCascade (s : AddrLevels) (newData : List Nat) (curLevel : Nat)
    (prevLevelData : List Nat) : AddrLevels :=
  if h : (getLevel s curLevel).length = level0MaxEntries * txEntrySize * 2 ^ curLevel then
    putCascade s newData (curLevel + 1) (getLevel s curLevel)
  else
    setLevel
      (mergeDown (setLevel s curLevel (getLevel s curLevel ++ prevLevelData)) (curLevel - 1))
      0 newData
termination_by s.length - curLevel
decreasing_by
  have hne : getLevel s curLevel ≠ [] := by
    intro hnil
    rw [hnil] at h
    simp only [List.length_nil, level0MaxEntries, txEntrySize] at h
    have : 0 < 2 ^ curLevel := Nat.pos_pow_of_pos _ (by omega)
    omega
  have := getLevel_ne_nil_lt hne
  omega

/-- The insert operation `dbPutAddrIndexEntry` for one address: append
the serialized entry to level 0 when it fits, otherwise run the
cascade. -/
def dbPutAddrIndexEntry (s : AddrLevels) (blockID txStart txLen blockIndex : Nat) :
    AddrLevels :=
  if (getLevel s 0).length + (serializeAddrIndexEntry blockID txStart txLen blockIndex).length ≤
      level0MaxEntries * txEntrySize then
    setLevel s 0 (getLevel s 0 ++ serializeAddrIndexEntry blockID txStart txLen blockIndex)
  else
    putCascade s (serializeAddrIndexEntry blockID txStart txLen blockIndex) 1 (getLevel s 0)

/-! ### Fetch — `dbFetchAddrIndexEntries` -/

/-- The level-accumulation loop of `dbFetchAddrIndexEntries`: while the
reverse flag is unset, or fewer than `threshold` bytes (the source's
`int(numToSkip+numRequested)*txEntrySize`) have been gathered, load the
next level and prepend it (higher levels hold older entries), stopping
at the first absent level. -/
def fetchLevels (s : AddrLevels) (reverse : Bool) (threshold : Nat) (level : Nat)
    (serialized : List Nat) : List Nat :=
  if !reverse || serialized.length < threshold then
    if h : getLevel s level = [] then serialized
    else fetchLevels s reverse threshold (level + 1) (getLevel s level ++ serialized)
  else serialized
termination_by s.length - level
decreasing_by
  have := getLevel_ne_nil_lt h
  omega

/-- The decode loop of `dbFetchAddrIndexEntries`: read `numToLoad`
entries from the accumulated bytes at the offsets selected by the
reverse flag, stopping at the first error. -/
def fetchDecode (serialized : List Nat) (numEntries numToSkip numToLoad : Nat)
    (reverse : Bool) (fetchBlockHash : List Nat → Except AddrIdxErr Nat) :
    Except AddrIdxErr (List TxIndexEntry) :=
  (List.range numToLoad).mapM fun i =>
    let offset := (if reverse then numEntries - numToSkip - i - 1 else numToSkip + i) *
      txEntrySize
    deserializeAddrIndexEntry (serialized.drop offset) fetchBlockHash

/-- The fetch operation `dbFetchAddrIndexEntries` for one address.
`numToSkip` and `numRequested` are `uint32` values; their sum is
computed in `uint32`, hence the explicit `% 2 ^ 32`.  Deserialization
failures are wrapped as database corruption errors; callback errors
pass through unchanged. -/
def dbFetchAddrIndexEntries (s : AddrLevels) (numToSkip numRequested : Nat)
    (reverse : Bool) (fetchBlockHash : List Nat → Except AddrIdxErr Nat) :
    Except AddrIdxErr (List TxIndexEntry × Nat) :=
  let serialized := fetchLevels s reverse ((numToSkip + numRequested) % 2 ^ 32 * txEntrySize) 0 []
  let numEntries := serialized.length / txEntrySize
  if numEntries ≤ numToSkip then .ok ([], numEntries)
  else if numRequested = 0 then .ok ([], numToSkip)
  else
    let numToLoad := min (numEntries - numToSkip) numRequested
    match fetchDecode serialized numEntries numToSkip numToLoad reverse fetchBlockHash with
    | .ok results => .ok (results, numToSkip)
    | .error e =>
        .error (if isDeserializeErr e then
          .corruption "failed to deserialized address index" else e)

/-! ### Delete — `dbRemoveAddrIndexEntries` -/

/-- The loop body of `minEntriesToReachLevel`: starting from
`maxEntriesForLevel = level0MaxEntries` and `minRequired = 1`, add the
per-level maximum and double it once for each level. -/
def minEntriesLoop (maxEntries minRequired : Nat) : Nat → Nat
  | 0 => minRequired
  | n + 1 => minEntriesLoop (maxEntries * 2) (minRequired + maxEntries) n

/-- Minimum number of entries required to reach the given level
(`minEntriesToReachLevel`). -/
def minEntriesToReachLevel (level : Nat) : Nat :=
  minEntriesLoop level0MaxEntries 1 level

/-- Maximum number of entries allowed at the given level
(`maxEntriesForLevel`, whose doubling loop computes
`level0MaxEntries * 2 ^ level`). -/
def maxEntriesForLevel (level : Nat) : Nat :=
  level0MaxEntries * 2 ^ level

/-- The scratch map of pending updates used by the delete path
(`pendingUpdates`), kept as an association list whose most recent
binding wins; a bound `[]` marks a key to delete. -/
abbrev Pending := List (Nat × List Nat)

/-- Lookup in the pending-updates map. -/
def pget (p : Pending) (l : Nat) : Option (List Nat) :=
  (p.find? fun e => e.1 == l).map (·.2)

/-- Lookup defaulting to `nil` data, matching Go's
`len(pendingUpdates[level])` reads on possibly-missing keys. -/
def pgetD (p : Pending) (l : Nat) : List Nat :=
  (pget p l).getD []

/-- Map assignment `pendingUpdates[level] = data`. -/
def pset (p : Pending) (l : Nat) (v : List Nat) : Pending :=
  (l, v) :: p

/-- The `applyPending` closure: write every pending binding to the
bucket, deleting keys whose data is empty.  The Go map iteration order
is irrelevant because keys are distinct; here the bindings are applied
oldest-first so that the latest binding for a key prevails. -/
def applyPending (s : AddrLevels) (p : Pending) : AddrLevels :=
  p.foldr (fun e acc => setLevel acc e.1 e.2) s

@[simp] theorem pget_nil (l : Nat) : pget [] l = none := rfl

theorem pget_pset (p : Pending) (l : Nat) (v : List Nat) (k : Nat) :
    pget (pset p l v) k = if k = l then some v else pget p k := by
  by_cases h : k = l
  · subst h
    unfold pget pset
    rw [List.find?_cons_of_pos _ (by simp)]
    simp
  · unfold pget pset
    rw [List.find?_cons_of_neg _ (by simp [Ne.symm h])]
    simp [h, pget]

theorem pget_cons (e : Nat × List Nat) (rest : Pending) (l : Nat) :
    pget (e :: rest) l = if l = e.1 then some e.2 else pget rest l := by
  have := pget_pset rest e.1 e.2 l
  simpa [pset] using this

theorem getLevel_applyPending (s : AddrLevels) (p : Pending) (l : Nat) :
    getLevel (applyPending s p) l =
      match pget p l with
      | some v => v
      | none => getLevel s l := by
  induction p with
  | nil => rfl
  | cons e rest ih =>
      show getLevel (setLevel (applyPending s rest) e.1 e.2) l = _
      rw [getLevel_setLevel, pget_cons]
      by_cases h : l = e.1
      · simp [h]
      · simp only [if_neg h, ih]

theorem trimmed_applyPending (s : AddrLevels) (p : Pending) (hs : Trimmed s) :
    Trimmed (applyPending s p) := by
  cases p with
  | nil => exact hs
  | cons e rest =>
      show Trimmed (setLevel (applyPending s rest) e.1 e.2)
      exact trimmed_setLevel _ _ _

/-- Phase A of `dbRemoveAddrIndexEntries`: walk levels upward removing
whole levels (and trimming the final one) until the requested count is
gone; fail with the assertion error when a level is absent while
entries remain to delete.  Returns the pending updates and the highest
loaded level.  The function is only invoked with `numRemaining > 0`,
mirroring the loop condition. -/
def removePhaseA (s : AddrLevels) (level : Nat) (numRemaining : Nat) (p : Pending) :
    Except AddrIdxErr (Pending × Nat) :=
  if h : getLevel s level = [] then
    .error (.assertError "dbRemoveAddrIndexEntries not enough entries to delete")
  else if (getLevel s level).length / txEntrySize ≤ numRemaining then
    if h2 : 0 < numRemaining - (getLevel s level).length / txEntrySize then
      removePhaseA s (level + 1) (numRemaining - (getLevel s level).length / txEntrySize)
        (pset (pset p level (getLevel s level)) level [])
    else .ok (pset (pset p level (getLevel s level)) level [], level)
  else
    .ok (pset (pset p level (getLevel s level)) level
      ((getLevel s level).take ((getLevel s level).length - numRemaining * txEntrySize)), level)
termination_by (numRemaining, s.length - level)
decreasing_by
  have hlt := getLevel_ne_nil_lt h
  simp only [txEntrySize] at *
  by_cases hE : 0 < (getLevel s level).length / 16
  · exact Prod.Lex.left _ _ (by omega)
  · have h1 : numRemaining - (getLevel s level).length / 16 ≤ numRemaining := by
      omega
    have h2 : s.length - (level + 1) < s.length - level := by omega
    exact Prod.Lex.right' _ h1 h2

/-- Phase C of `dbRemoveAddrIndexEntries`: squash the surviving data of
the highest loaded level into the lowest legal levels, walking the
given level downward to level 1.  Returns the updated pending map, the
remaining carry destined for level 0 and the lowest level cleared (or
the incoming `lowestEmptyLevel` when none was cleared).  The source's
`numEntries-curLevelMaxEntries >= minPrevRequired` comparison on `int`s
is written additively to avoid natural-number truncation. -/
def removePhaseC (p : Pending) (curLevelData : List Nat) (curLevelMaxEntries : Nat)
    (lowestEmptyLevel : Nat) : Nat → Pending × List Nat × Nat
  | 0 => (p, curLevelData, lowestEmptyLevel)
  | level + 1 =>
      let numEntries := curLevelData.length / txEntrySize
      let prevLevelMaxEntries := curLevelMaxEntries / 2
      let minPrevRequired := minEntriesToReachLevel level
      if numEntries < prevLevelMaxEntries + minPrevRequired then
        removePhaseC (pset p (level + 1) []) curLevelData prevLevelMaxEntries (level + 1) level
      else
        let offset := (if curLevelMaxEntries + minPrevRequired ≤ numEntries then
          curLevelMaxEntries else prevLevelMaxEntries) * txEntrySize
        removePhaseC (pset p (level + 1) (curLevelData.take offset))
          (curLevelData.drop offset) prevLevelMaxEntries lowestEmptyLevel level

/-- The inner backfill loop of phase D: iteratively halve the cursor's
data, writing the first half at the cursor level and pushing the rest
down, until the lowest empty level is reached. -/
def backfillSplit (p : Pending) (levelData : List Nat) (curLevelMaxEntries : Nat)
    (lowestEmptyLevel : Nat) (level : Nat) : Pending :=
  if lowestEmptyLevel < level then
    let offset := curLevelMaxEntries / 2 * txEntrySize
    let p2 := pset (pset p level (levelData.take offset)) (level - 1) (levelData.drop offset)
    backfillSplit p2 (levelData.drop offset) (curLevelMaxEntries / 2) lowestEmptyLevel (level - 1)
  else p
termination_by level

/-- Phase D of `dbRemoveAddrIndexEntries`: while the highest loaded
level is empty, pull the next stored level down (dropping a half-full
level one slot first) and backfill the empty levels below it by
halving. -/
def removePhaseD (s : AddrLevels) (p : Pending) (highestLoadedLevel : Nat)
    (lowestEmptyLevel : Nat) : Pending :=
  if pgetD p highestLoadedLevel = [] then
    if h : getLevel s (highestLoadedLevel + 1) = [] then p
    else
      removePhaseD s
        (backfillSplit
          (if (getLevel s (highestLoadedLevel + 1)).length / txEntrySize ≠
              maxEntriesForLevel (highestLoadedLevel + 1) then
            pset (pset (pset p (highestLoadedLevel + 1)
                (getLevel s (highestLoadedLevel + 1)))
              (highestLoadedLevel + 1) [])
              (highestLoadedLevel + 1 - 1) (getLevel s (highestLoadedLevel + 1))
          else pset p (highestLoadedLevel + 1) (getLevel s (highestLoadedLevel + 1)))
          (getLevel s (highestLoadedLevel + 1))
          (if (getLevel s (highestLoadedLevel + 1)).length / txEntrySize ≠
              maxEntriesForLevel (highestLoadedLevel + 1) then
            maxEntriesForLevel (highestLoadedLevel + 1) / 2
          else maxEntriesForLevel (highestLoadedLevel + 1))
          lowestEmptyLevel
          (if (getLevel s (highestLoadedLevel + 1)).length / txEntrySize ≠
              maxEntriesForLevel (highestLoadedLevel + 1) then
            highestLoadedLevel + 1 - 1
          else highestLoadedLevel + 1))
        (highestLoadedLevel + 1) (highestLoadedLevel + 1)
  else p
termination_by s.length - highestLoadedLevel
decreasing_by
  have := getLevel_ne_nil_lt h
  omega

/-- The delete operation `dbRemoveAddrIndexEntries` for one address:
no-op for non-positive counts, otherwise phase A (bottom-up removal),
the level-0 short circuit, phase C (squash downward), phase D
(backfill from above) and the final flush of pending updates. -/
def dbRemoveAddrIndexEntries (s : AddrLevels) (count : Int) :
    Except AddrIdxErr AddrLevels :=
  if count ≤ 0 then .ok s
  else
    match removePhaseA s 0 count.toNat [] with
    | .error e => .error e
    | .ok (p, highestLoadedLevel) =>
        if pgetD p 0 ≠ [] then .ok (applyPending s p)
        else
          let r := removePhaseC p (pgetD p highestLoadedLevel)
            (maxEntriesForLevel highestLoadedLevel) 255 highestLoadedLevel
          let p1 := pset r.1 0 r.2.1
          let lowestEmptyLevel := if r.2.1 = [] then 0 else r.2.2
          .ok (applyPending s (removePhaseD s p1 highestLoadedLevel lowestEmptyLevel))

/-! ### Derived views of a bucket state -/

/-- The logical byte sequence of an address: levels concatenated
highest first (higher levels hold older entries). -/
def flattenLevels (s : AddrLevels) : List Nat := s.reverse.flatten

/-- The number of whole entries stored at one level. -/
def entriesAtLevel (s : AddrLevels) (l : Nat) : Nat :=
  (getLevel s l).length / txEntrySize

/-- The total number of whole entries stored for the address. -/
def totalEntries (s : AddrLevels) : Nat :=
  (flattenLevels s).length / txEntrySize

/-! ### Canonical layouts

The layouts `dbPutAddrIndexEntry` and `dbRemoveAddrIndexEntries`
actually produce: level 0 holds between 1 and 8 entries, every higher
populated level holds exactly half or exactly all of its capacity
`8 * 2 ^ L`, and the populated levels are contiguous from level 0. -/

/-- Per-level entry counts above level 0 are half-full or full, listed
from level `l` upward. -/
def validDigits : Nat → List Nat → Bool
  | _, [] => true
  | l, d :: ds => (d == 4 * 2 ^ l || d == 8 * 2 ^ l) && validDigits (l + 1) ds

/-- A legal per-level entry-count profile `[c₀, c₁, …]` (level 0
first): an empty address, or 1–8 entries at level 0 with half-full or
full levels above. -/
def validCounts : List Nat → Bool
  | [] => true
  | c0 :: ds => decide (1 ≤ c0) && decide (c0 ≤ 8) && validDigits 1 ds

/-- Slice a sequence of serialized entries (oldest first) into level
values according to a count profile: level 0 receives the newest `c₀`
entries, and the remaining prefix is sliced recursively for the levels
above. -/
def canonLevels (counts : List Nat) (es : List (List Nat)) : AddrLevels :=
  match counts with
  | [] => []
  | c :: rest => (es.drop (es.length - c)).flatten :: canonLevels rest (es.take (es.length - c))

/-- A bucket state reachable by the insert and delete operations: some
legal count profile slicing some sequence of 16-byte entries. -/
def IsCanonical (s : AddrLevels) : Prop :=
  ∃ cs es, validCounts cs = true ∧ (∀ e ∈ es, e.length = txEntrySize) ∧
    cs.sum = es.length ∧ s = canonLevels cs es

/-- The effect of one insert cascade on the counts above level 0:
leading full levels become half-full and the first non-full level
becomes full (a fresh half-full top level when every level was
full). -/
def incDigits : Nat → List Nat → List Nat
  | l, [] => [4 * 2 ^ l]
  | l, d :: ds => if d = 8 * 2 ^ l then 4 * 2 ^ l :: incDigits (l + 1) ds else 8 * 2 ^ l :: ds

/-- The slice of a list between two positions (ascending order,
half-open). -/
def seg (es : List (List Nat)) (a b : Nat) : List (List Nat) :=
  (es.take b).drop a

/-! ### Operation sequences over one address -/

/-- One mutating operation on the bucket entries of a single address. -/
inductive AddrOp where
  | putOp (blockID txStart txLen blockIndex : Nat)
  | removeOp (count : Int)
  deriving DecidableEq, Repr

/-- Apply one operation. -/
def applyOp (s : AddrLevels) : AddrOp → Except AddrIdxErr AddrLevels
  | .putOp blockID txStart txLen blockIndex =>
      .ok (dbPutAddrIndexEntry s blockID txStart txLen blockIndex)
  | .removeOp count => dbRemoveAddrIndexEntries s count

/-- Run a sequence of operations, stopping at the first error. -/
def runOps (s : AddrLevels) : List AddrOp → Except AddrIdxErr AddrLevels
  | [] => .ok s
  | op :: rest =>
      match applyOp s op with
      | .ok s2 => runOps s2 rest
      | .error e => .error e

/-- Validity of an operation sequence starting from `n` stored entries:
every remove count is at most the number of entries stored at that
point (non-positive counts remove nothing). -/
def validSeq (n : Nat) : List AddrOp → Bool
  | [] => true
  | .putOp _ _ _ _ :: rest => validSeq (n + 1) rest
  | .removeOp c :: rest => decide (c.toNat ≤ n) && validSeq (n - c.toNat) rest

/-- Apply a batch of inserts (each a `(blockID, txStart, txLen,
blockIndex)` tuple) in order. -/
def applyPuts (s : AddrLevels) (args : List (Nat × Nat × Nat × Nat)) : AddrLevels :=
  args.foldl (fun s a => dbPutAddrIndexEntry s a.1 a.2.1 a.2.2.1 a.2.2.2) s

/-- The serialized entry for one insert tuple. -/
def serTuple (a : Nat × Nat × Nat × Nat) : List Nat :=
  serializeAddrIndexEntry a.1 a.2.1 a.2.2.1 a.2.2.2

/-! ### Level invariants, as claimed and as held -/

/-- The spec's stated level invariants: level 0 at most 8 entries;
every level `L ≥ 1` empty, half-full or full; and every level strictly
below a populated level `L ≥ 1` exactly full. -/
def SpecLevelInv (s : AddrLevels) : Prop :=
  entriesAtLevel s 0 ≤ 8 ∧
  (∀ L, 1 ≤ L → entriesAtLevel s L = 0 ∨ entriesAtLevel s L = 4 * 2 ^ L ∨
    entriesAtLevel s L = 8 * 2 ^ L) ∧
  (∀ L, 1 ≤ L → 0 < entriesAtLevel s L → ∀ K, K < L → entriesAtLevel s K = 8 * 2 ^ K)

/-- The level invariants the code actually maintains: level 0 at most
8 entries; every level `L ≥ 1` empty, half-full or full; and below a
populated level every intermediate level holds at least its half
`4 * 2 ^ K` (rather than exactly its maximum) while level 0 holds at
least one entry. -/
def LevelInv (s : AddrLevels) : Prop :=
  entriesAtLevel s 0 ≤ 8 ∧
  (∀ L, 1 ≤ L → entriesAtLevel s L = 0 ∨ entriesAtLevel s L = 4 * 2 ^ L ∨
    entriesAtLevel s L = 8 * 2 ^ L) ∧
  (∀ L, 1 ≤ L → 0 < entriesAtLevel s L →
    (∀ K, 1 ≤ K → K < L → 4 * 2 ^ K ≤ entriesAtLevel s K) ∧ 1 ≤ entriesAtLevel s 0)

/-! ### Fetch helpers -/

/-- Well-formedness of a state for fetching: every represented level is
present (no gap) and holds a whole number of entries. -/
def fetchWF (s : AddrLevels) : Bool :=
  (List.range s.length).all fun l =>
    !(getLevel s l == []) && (getLevel s l).length % txEntrySize == 0

/-- Lift a total block-hash oracle into the fetch callback shape. -/
def okHash (f : List Nat → Nat) : List Nat → Except AddrIdxErr Nat :=
  fun bs => .ok (f bs)

/-- The entry decoded at entry offset `j` of a logical byte sequence,
under a total block-hash oracle. -/
def entryAt (bs : List Nat) (f : List Nat → Nat) (j : Nat) : TxIndexEntry :=
  { blockHash := f ((bs.drop (j * txEntrySize)).take 4)
    offset := uint32BE ((bs.drop (j * txEntrySize + 4)).take 4)
    len := uint32BE ((bs.drop (j * txEntrySize + 8)).take 4)
    blockIndex := uint32BE ((bs.drop (j * txEntrySize + 12)).take 4) }

/-- The decoded form of an entry freshly serialized from the given
fields, under a total block-hash oracle. -/
def expectedEntry (f : List Nat → Nat) (blockID txStart txLen blockIndex : Nat) :
    TxIndexEntry :=
  { blockHash := f (putUint32 blockID)
    offset := txStart % 2 ^ 32
    len := txLen % 2 ^ 32
    blockIndex := blockIndex % 2 ^ 32 }

/-- The decoded form of one insert tuple under a total block-hash
oracle. -/
def decTuple (f : List Nat → Nat) (a : Nat × Nat × Nat × Nat) : TxIndexEntry :=
  expectedEntry f a.1 a.2.1 a.2.2.1 a.2.2.2

/-! ### Block indexer (`indexPkScript` / `indexBlock`)

Script classification (`txscript.ExtractPkScriptAddrs`), the
ticket-commitment extraction (`stake.AddrFromSStxPkScrCommitment`) and
`addrToKey` live outside `src/`; they are abstracted by an `extract`
oracle that yields the address keys produced for one script (the empty
list covers extraction errors, scripts without addresses and
unsupported address types).  The stake-type predicates (`IsSSGen`,
`IsTreasuryBase`, `IsTSpend`, `IsSStx`) are likewise external and appear
as fields of the transaction model; `PrevScripter` resolution appears
as the pre-resolved `inScripts` (with `none` for a missing entry, which
the source logs and skips). -/

/-- A transaction as the block indexer sees it. -/
structure ModelTx (κ : Type) where
  inScripts : List (Option (Nat × List Nat))
  outScripts : List (Nat × List Nat)
  isSSGen : Bool
  isTreasuryBase : Bool
  isTSpend : Bool
  isSStx : Bool

/-- A block as the block indexer sees it: the regular and stake
transaction trees. -/
structure ModelBlock (κ : Type) where
  regularTxns : List (ModelTx κ)
  stakeTxns : List (ModelTx κ)

/-- The body of `indexPkScript`: extract the address keys for the
script and append `txIdx` to each key's list unless it already equals
that list's most recent element. -/
def indexPkScript {κ : Type} [DecidableEq κ]
    (extract : Nat → List Nat → Bool → Bool → List κ) (data : κ → List Nat)
    (scriptVersion : Nat) (pkScript : List Nat) (txIdx : Nat) (isSStx : Bool)
    (isTreasuryEnabled : Bool) : κ → List Nat :=
  (extract scriptVersion pkScript isSStx isTreasuryEnabled).foldl
    (fun d addrKey =>
      let indexedTxns := d addrKey
      if 0 < indexedTxns.length ∧ indexedTxns.getLast? = some txIdx then d
      else fun k => if k = addrKey then indexedTxns ++ [txIdx] else d k)
    data

/-- The regular-tree loop body of `indexBlock`: inputs are skipped for
the coinbase (ordinal 0) and for unresolved previous outputs; every
output script is indexed. -/
def indexRegularTx {κ : Type} [DecidableEq κ]
    (extract : Nat → List Nat → Bool → Bool → List κ) (isTreasuryEnabled : Bool)
    (data : κ → List Nat) (txIdx : Nat) (tx : ModelTx κ) : κ → List Nat :=
  let d1 :=
    if txIdx ≠ 0 then
      tx.inScripts.foldl
        (fun d sc =>
          match sc with
          | none => d
          | some sc => indexPkScript extract d sc.1 sc.2 txIdx false isTreasuryEnabled)
        data
    else data
  tx.outScripts.foldl
    (fun d sc => indexPkScript extract d sc.1 sc.2 txIdx false isTreasuryEnabled) d1

/-- The stake-tree loop body of `indexBlock`: skip the stakebase input
of votes, skip all inputs of treasury bases and treasury spends, and
index every output with the ticket-purchase flag. -/
def indexStakeTx {κ : Type} [DecidableEq κ]
    (extract : Nat → List Nat → Bool → Bool → List κ) (isTreasuryEnabled : Bool)
    (data : κ → List Nat) (thisTxOffset : Nat) (tx : ModelTx κ) : κ → List Nat :=
  let isSSGen := tx.isSSGen
  let isTreasuryBase := isTreasuryEnabled && (!isSSGen && tx.isTreasuryBase)
  let isTSpend := isTreasuryEnabled && (!isTreasuryBase && tx.isTSpend)
  let d1 :=
    tx.inScripts.enum.foldl
      (fun d pr =>
        if isSSGen && pr.1 == 0 then d
        else if isTreasuryBase || isTSpend then d
        else
          match pr.2 with
          | none => d
          | some sc => indexPkScript extract d sc.1 sc.2 thisTxOffset false isTreasuryEnabled)
      data
  tx.outScripts.foldl
    (fun d sc => indexPkScript extract d sc.1 sc.2 thisTxOffset tx.isSStx isTreasuryEnabled) d1

/-- `indexBlock`: walk the regular transactions (ordinals `0, 1, …`)
and then the stake transactions (ordinals offset by the regular count),
accumulating the per-address transaction-ordinal lists. -/
def indexBlock {κ : Type} [DecidableEq κ]
    (extract : Nat → List Nat → Bool → Bool → List κ) (isTreasuryEnabled : Bool)
    (data : κ → List Nat) (block : ModelBlock κ) : κ → List Nat :=
  let d1 := block.regularTxns.enum.foldl
    (fun d pr => indexRegularTx extract isTreasuryEnabled d pr.1 pr.2) data
  block.stakeTxns.enum.foldl
    (fun d pr =>
      indexStakeTx extract isTreasuryEnabled d (pr.1 + block.regularTxns.length) pr.2) d1

/-! ### Unconfirmed mirror

The two in-memory maps of `AddrIndex`: `txnsByAddr` (address key to the
set of unconfirmed transaction hashes involving it, `none` when the
address has no entry) and `addrsByTx` (transaction hash to the involved
address keys, the empty list when absent).  The inner Go maps are
modelled as duplicate-free lists; only key membership matters to the
claims.  All operations run under the single `unconfirmedLock`, so the
sequential model is exact. -/

structure MirrorState (κ η : Type) where
  txnsByAddr : κ → Option (List η)
  addrsByTx : η → List κ

/-- The mirror as created by `NewAddrIndex`: both maps empty. -/
def emptyMirror {κ η : Type} : MirrorState κ η :=
  { txnsByAddr := fun _ => none, addrsByTx := fun _ => [] }

/-- The loop body of `indexUnconfirmedAddresses` for one address key:
add the transaction to the address's entry (creating it as needed) and
the address to the transaction's entry. -/
def addKeyTx {κ η : Type} [DecidableEq κ] [DecidableEq η] (st : MirrorState κ η)
    (addrKey : κ) (txHash : η) : MirrorState κ η :=
  let inner := (st.txnsByAddr addrKey).getD []
  let inner2 := if txHash ∈ inner then inner else txHash :: inner
  { txnsByAddr := fun k => if k = addrKey then some inner2 else st.txnsByAddr k
    addrsByTx := fun hh =>
      if hh = txHash then
        (if addrKey ∈ st.addrsByTx txHash then st.addrsByTx txHash
         else addrKey :: st.addrsByTx txHash)
      else st.addrsByTx hh }

/-- `indexUnconfirmedAddresses`: insert every extracted address key for
the transaction (the script-extraction pipeline is external, so the
key list is taken as given). -/
def indexUnconfirmedAddresses {κ η : Type} [DecidableEq κ] [DecidableEq η]
    (st : MirrorState κ η) (addrs : List κ) (txHash : η) : MirrorState κ η :=
  addrs.foldl (fun st a => addKeyTx st a txHash) st

/-- `AddUnconfirmedTx`: one `indexUnconfirmedAddresses` call per
referenced input script and per output script; the per-script key lists
are taken as given since script resolution and extraction are
external. -/
def addUnconfirmedTx {κ η : Type} [DecidableEq κ] [DecidableEq η]
    (st : MirrorState κ η) (txHash : η) (scriptAddrs : List (List κ)) : MirrorState κ η :=
  scriptAddrs.foldl (fun st addrs => indexUnconfirmedAddresses st addrs txHash) st

/-- One iteration of the removal loop in `RemoveUnconfirmedTx`: delete
the hash from the address's inner map and drop the address entry when
it becomes empty. -/
def removeTxForAddr {κ η : Type} [DecidableEq κ] [DecidableEq η] (txHash : η)
    (st : MirrorState κ η) (addrKey : κ) : MirrorState κ η :=
  { st with
    txnsByAddr := fun k =>
      if k = addrKey then
        match st.txnsByAddr addrKey with
        | none => none
        | some l =>
            let l2 := l.filter fun x => x ≠ txHash
            if l2 = [] then none else some l2
      else st.txnsByAddr k }

/-- `RemoveUnconfirmedTx`: for every address key recorded for the hash,
remove the hash from that address's entry, dropping the entry when it
becomes empty; finally drop the hash's own entry. -/
def removeUnconfirmedTx {κ η : Type} [DecidableEq κ] [DecidableEq η]
    (st : MirrorState κ η) (txHash : η) : MirrorState κ η :=
  let st2 := (st.addrsByTx txHash).foldl (removeTxForAddr txHash) st
  { st2 with addrsByTx := fun hh => if hh = txHash then [] else st2.addrsByTx hh }

/-- One mirror operation. -/
inductive MirrorOp (κ η : Type) where
  | add (txHash : η) (scriptAddrs : List (List κ))
  | remove (txHash : η)

/-- Run a sequence of mirror operations. -/
def runMirrorOps {κ η : Type} [DecidableEq κ] [DecidableEq η] (st : MirrorState κ η) :
    List (MirrorOp κ η) → MirrorState κ η
  | [] => st
  | .add txHash scriptAddrs :: rest => runMirrorOps (addUnconfirmedTx st txHash scriptAddrs) rest
  | .remove txHash :: rest => runMirrorOps (removeUnconfirmedTx st txHash) rest

/-- Mutual consistency of the two mirror maps: a hash appears under an
address in `txnsByAddr` exactly when that address appears under the
hash in `addrsByTx`, and no `txnsByAddr` entry is an empty map. -/
def MirrorInv {κ η : Type} (st : MirrorState κ η) : Prop :=
  (∀ a h, (∃ l, st.txnsByAddr a = some l ∧ h ∈ l) ↔ a ∈ st.addrsByTx h) ∧
  (∀ a, st.txnsByAddr a ≠ some [])

/-- Induction invariant for the per-block indexer: every per-address
ordinal list strictly increases and stays at most the given bound. -/
def IdxBounded {κ : Type} (B : Nat) (d : κ → List Nat) : Prop :=
  ∀ k, (d k).Chain' (· < ·) ∧ ∀ x ∈ d k, x ≤ B

/-- The effect of one removal-loop iteration on an inner entry. -/
def filterTx {η : Type} [DecidableEq η] (txHash : η) : Option (List η) → Option (List η)
  | none => none
  | some l =>
      let l2 := l.filter fun x => x ≠ txHash
      if l2 = [] then none else some l2

/-! ## Toolkit: segments of entry sequences -/

theorem seg_eq_nil (es : List (List Nat)) {a b : Nat} (h : b ≤ a) : seg es a b = [] := by
  apply List.drop_eq_nil_of_le
  calc (es.take b).length ≤ b := by simp
  _ ≤ a := h

theorem seg_whole (es : List (List Nat)) : seg es 0 es.length = es := by
  simp [seg]

theorem seg_append_right (es zs : List (List Nat)) {a b : Nat} (h : b ≤ es.length) :
    seg (es ++ zs) a b = seg es a b := by
  simp [seg, List.take_append_of_le_length h]

theorem take_eq_take_append_seg (es : List (List Nat)) {c b : Nat} (h2 : c ≤ b) :
    es.take b = es.take c ++ seg es c b := by
  conv_lhs => rw [← List.take_append_drop c (es.take b)]
  rw [List.take_take, Nat.min_eq_left h2, seg]

theorem seg_split (es : List (List Nat)) {a c b : Nat} (h1 : a ≤ c) (h2 : c ≤ b)
    (h3 : c ≤ es.length) : seg es a b = seg es a c ++ seg es c b := by
  rw [seg, take_eq_take_append_seg es h2,
    List.drop_append_of_le_length (by simp; omega)]
  rfl

theorem length_seg (es : List (List Nat)) {a b : Nat} (hb : b ≤ es.length) :
    (seg es a b).length = b - a := by
  simp [seg]
  omega

theorem mem_seg {es : List (List Nat)} {a b : Nat} {e : List Nat} (h : e ∈ seg es a b) :
    e ∈ es :=
  List.mem_of_mem_take (List.mem_of_mem_drop h)

theorem flatten_length_all16 {es : List (List Nat)}
    (h16 : ∀ e ∈ es, e.length = txEntrySize) :
    es.flatten.length = txEntrySize * es.length := by
  induction es with
  | nil => simp
  | cons e rest ih =>
      rw [List.flatten_cons, List.length_append, h16 e (by simp),
        ih fun x hx => h16 x (by simp [hx]), List.length_cons]
      ring

theorem length_flatten_seg {es : List (List Nat)}
    (h16 : ∀ e ∈ es, e.length = txEntrySize) {a b : Nat} (hb : b ≤ es.length) :
    ((seg es a b).flatten).length = txEntrySize * (b - a) := by
  rw [flatten_length_all16 fun e he => h16 e (mem_seg he), length_seg es hb]

theorem sum_drop_le (xs : List Nat) (n : Nat) : (xs.drop n).sum ≤ xs.sum := by
  have := List.sum_take_add_sum_drop xs n
  omega

theorem sum_drop_succ_le (xs : List Nat) (n : Nat) :
    (xs.drop (n + 1)).sum ≤ (xs.drop n).sum := by
  have : xs.drop (n + 1) = (xs.drop n).drop 1 := by
    rw [List.drop_drop]
  rw [this]
  exact sum_drop_le _ _

theorem sum_drop_get (xs : List Nat) (l : Nat) (hl : l < xs.length) :
    (xs.drop l).sum = xs.get ⟨l, hl⟩ + (xs.drop (l + 1)).sum := by
  induction xs generalizing l with
  | nil => simp at hl
  | cons x rest ih =>
      cases l with
      | zero => simp
      | succ l => simpa using ih l (by simpa using hl)

theorem sum_drop_eq_zero (xs : List Nat) {l : Nat} (hl : xs.length ≤ l) :
    (xs.drop l).sum = 0 := by
  rw [List.drop_eq_nil_of_le hl, List.sum_nil]

/-! ## The canonical slicing, pointwise -/

theorem getLevel_canonLevels (cs : List Nat) (es : List (List Nat))
    (hsum : cs.sum = es.length) (l : Nat) :
    getLevel (canonLevels cs es) l =
      (seg es ((cs.drop (l + 1)).sum) ((cs.drop l).sum)).flatten := by
  induction cs generalizing es l with
  | nil =>
      have : es = [] := List.length_eq_zero.mp (by simpa using hsum.symm)
      subst this
      simp [canonLevels, seg]
  | cons c rest ih =>
      have hce : c + rest.sum = es.length := by simpa using hsum
      cases l with
      | zero =>
          show (es.drop (es.length - c)).flatten = _
          congr 1
          show es.drop (es.length - c) = (es.take ((c :: rest).sum)).drop (rest.sum)
          rw [List.sum_cons, hce, List.take_length]
          congr 1
          omega
      | succ l =>
          show getLevel (canonLevels rest (es.take (es.length - c))) l = _
          have hlen : rest.sum = (es.take (es.length - c)).length := by
            simp
            omega
          rw [ih (es.take (es.length - c)) hlen l]
          show ((((es.take (es.length - c))).take ((rest.drop l).sum)).drop
            ((rest.drop (l + 1)).sum)).flatten = _
          rw [List.take_take, Nat.min_eq_left (by
            have := sum_drop_le rest l
            omega)]
          rfl

theorem getLevel_canonLevels_ge (cs : List Nat) (es : List (List Nat)) {l : Nat}
    (hl : cs.length ≤ l) : getLevel (canonLevels cs es) l = [] := by
  induction cs generalizing es l with
  | nil => simp [canonLevels]
  | cons c rest ih =>
      cases l with
      | zero => simp at hl
      | succ l =>
          show getLevel (canonLevels rest (es.take (es.length - c))) l = []
          exact ih _ (by simpa using hl)

theorem length_getLevel_canonLevels (cs : List Nat) (es : List (List Nat))
    (h16 : ∀ e ∈ es, e.length = txEntrySize) (hsum : cs.sum = es.length)
    {l : Nat} (hl : l < cs.length) :
    (getLevel (canonLevels cs es) l).length = txEntrySize * cs.get ⟨l, hl⟩ := by
  rw [getLevel_canonLevels cs es hsum l,
    length_flatten_seg h16 (by rw [← hsum]; exact sum_drop_le cs l)]
  have := sum_drop_get cs l hl
  congr 1
  omega

/-! ## Facts about legal count profiles -/

theorem validDigits_get {k : Nat} {ds : List Nat} (hv : validDigits k ds = true)
    (i : Nat) (hi : i < ds.length) :
    ds.get ⟨i, hi⟩ = 4 * 2 ^ (k + i) ∨ ds.get ⟨i, hi⟩ = 8 * 2 ^ (k + i) := by
  induction ds generalizing k i with
  | nil => simp at hi
  | cons d rest ih =>
      rw [validDigits, Bool.and_eq_true, Bool.or_eq_true] at hv
      cases i with
      | zero => simpa using hv.1.imp (by simp +arith) (by simp +arith)
      | succ i =>
          have := ih hv.2 i (by simpa using hi)
          simpa [Nat.add_assoc, Nat.add_comm 1 i] using this

theorem validDigits_pos {k : Nat} {ds : List Nat} (hv : validDigits k ds = true) :
    ∀ x ∈ ds, 0 < x := by
  induction ds generalizing k with
  | nil => simp
  | cons d rest ih =>
      rw [validDigits, Bool.and_eq_true, Bool.or_eq_true] at hv
      intro x hx
      rcases List.mem_cons.mp hx with rfl | hx
      · rcases hv.1 with h | h
        · rw [eq_of_beq h]; positivity
        · rw [eq_of_beq h]; positivity
      · exact ih hv.2 x hx

theorem validCounts_pos {cs : List Nat} (hv : validCounts cs = true) :
    ∀ x ∈ cs, 0 < x := by
  cases cs with
  | nil => simp
  | cons c rest =>
      rw [validCounts, Bool.and_eq_true, Bool.and_eq_true] at hv
      intro x hx
      rcases List.mem_cons.mp hx with rfl | hx
      · have := of_decide_eq_true hv.1.1
        omega
      · exact validDigits_pos hv.2 x hx

theorem trimmed_canonLevels (cs : List Nat) (es : List (List Nat))
    (hpos : ∀ x ∈ cs, 0 < x) (h16 : ∀ e ∈ es, e.length = txEntrySize)
    (hsum : cs.sum = es.length) : Trimmed (canonLevels cs es) := by
  induction cs generalizing es with
  | nil => exact trimmed_nil
  | cons c rest ih =>
      have hce : c + rest.sum = es.length := by simpa using hsum
      have hv : (es.drop (es.length - c)).flatten ≠ [] := by
        intro hcon
        have : ((es.drop (es.length - c)).flatten).length = 0 := by rw [hcon]; rfl
        rw [flatten_length_all16 fun e he => h16 e (List.mem_of_mem_drop he)] at this
        have hc := hpos c (by simp)
        simp [txEntrySize] at this
        omega
      have htail := ih (es.take (es.length - c)) (fun x hx => hpos x (by simp [hx]))
        (fun e he => h16 e (List.mem_of_mem_take he)) (by simp; omega)
      show Trimmed ((es.drop (es.length - c)).flatten :: canonLevels rest (es.take (es.length - c)))
      unfold Trimmed trimLevels
      cases hc : canonLevels rest (es.take (es.length - c)) with
      | nil =>
          simp only [hc] at htail ⊢
          simp [trimLevels, hv]
      | cons x xs =>
          rw [hc] at htail
          unfold Trimmed at htail
          rw [htail]

/-! ## The insert cascade on canonical states -/

theorem length_serializeAddrIndexEntry (blockID txStart txLen blockIndex : Nat) :
    (serializeAddrIndexEntry blockID txStart txLen blockIndex).length = txEntrySize := rfl

theorem getLevel_mergeDown (s : AddrLevels) (m : Nat) (l : Nat) :
    getLevel (mergeDown s m) l =
      if 1 ≤ l ∧ l ≤ m then getLevel s (l - 1) else getLevel s l := by
  induction m generalizing s with
  | zero =>
      rw [mergeDown, if_neg (by omega)]
  | succ m ih =>
      show getLevel (mergeDown (setLevel s (m + 1) (getLevel s m)) m) l = _
      rw [ih]
      by_cases h1 : 1 ≤ l ∧ l ≤ m
      · rw [if_pos h1, getLevel_setLevel, if_neg (by omega), if_pos (by omega)]
      · rw [if_neg h1, getLevel_setLevel]
        by_cases h2 : l = m + 1
        · rw [if_pos h2, if_pos (by omega), h2]
          simp
        · rw [if_neg h2, if_neg (by omega)]

theorem putCascade_spec (s : AddrLevels) (e : List Nat) (k j : Nat)
    (hk : 1 ≤ k) (hkj : k ≤ j)
    (hfull : ∀ l, k ≤ l → l < j →
      (getLevel s l).length = level0MaxEntries * txEntrySize * 2 ^ l)
    (hnot : (getLevel s j).length ≠ level0MaxEntries * txEntrySize * 2 ^ j) :
    putCascade s e k (getLevel s (k - 1)) =
      setLevel (mergeDown (setLevel s j (getLevel s j ++ getLevel s (j - 1))) (j - 1))
        0 e := by
  obtain ⟨n, rfl⟩ : ∃ n, j = k + n := ⟨j - k, by omega⟩
  induction n generalizing k with
  | zero =>
      rw [putCascade, dif_neg (by simpa using hnot)]
      simp
  | succ n ih =>
      rw [putCascade, dif_pos (hfull k (le_refl _) (by omega))]
      have hshift : k + (n + 1) = (k + 1) + n := by omega
      rw [hshift] at hfull hnot ⊢
      have := ih (k + 1) (by omega) (by omega)
        (fun l hl1 hl2 => hfull l (by omega) hl2) hnot
      simpa using this

theorem incDigits_spec (ds : List Nat) (k : Nat) (hv : validDigits k ds = true) :
    ∃ m, m ≤ ds.length ∧
      validDigits k (incDigits k ds) = true ∧
      (∀ i, i < m → ds[i]? = some (8 * 2 ^ (k + i))) ∧
      (ds[m]? = some (4 * 2 ^ (k + m)) ∨ m = ds.length) ∧
      (∀ i, i ≤ m → ((incDigits k ds).drop i).sum = (ds.drop i).sum + 4 * 2 ^ (k + i)) ∧
      (∀ i, m < i → ((incDigits k ds).drop i).sum = (ds.drop i).sum) := by
  induction ds generalizing k with
  | nil =>
      refine ⟨0, le_refl _, by simp [incDigits, validDigits], by simp, by simp, ?_, ?_⟩
      · intro i hi
        have : i = 0 := by omega
        subst this
        simp [incDigits]
      · intro i hi
        rcases i with _ | i
        · omega
        · simp [incDigits]
  | cons d rest ih =>
      rw [validDigits, Bool.and_eq_true, Bool.or_eq_true] at hv
      rcases hv with ⟨hd, hrest⟩
      by_cases hfull : d = 8 * 2 ^ k
      · obtain ⟨m, hm, hvalid, hget, hdis, hsumle, hsumgt⟩ := ih (k + 1) hrest
        refine ⟨m + 1, by simpa using Nat.succ_le_succ hm, ?_, ?_, ?_, ?_, ?_⟩
        · rw [incDigits, if_pos hfull, validDigits]
          simp only [hvalid, Bool.and_true]
          simp
        · intro i hi
          cases i with
          | zero => simp [hfull]
          | succ i =>
              have := hget i (by omega)
              simpa [Nat.add_assoc, Nat.add_comm 1 i] using this
        · rcases hdis with h | h
          · left
            simpa [Nat.add_assoc, Nat.add_comm 1 m] using h
          · right
            simp [h]
        · intro i hi
          cases i with
          | zero =>
              have h0 := hsumle 0 (by omega)
              rw [incDigits, if_pos hfull]
              simp only [List.drop_zero] at h0 ⊢
              rw [List.sum_cons, List.sum_cons, h0, hfull]
              ring
          | succ i =>
              have hstep := hsumle i (by omega)
              rw [incDigits, if_pos hfull]
              show ((incDigits (k + 1) rest).drop i).sum = _
              rw [hstep]
              show _ = (rest.drop i).sum + 4 * 2 ^ (k + (i + 1))
              congr 1
              ring
        · intro i hi
          cases i with
          | zero => omega
          | succ i =>
              have hstep := hsumgt i (by omega)
              rw [incDigits, if_pos hfull]
              exact hstep
      · have hhalf : d = 4 * 2 ^ k := by
          rcases hd with h | h
          · exact eq_of_beq h
          · exact absurd (eq_of_beq h) hfull
        refine ⟨0, by simp, ?_, by simp, ?_, ?_, ?_⟩
        · rw [incDigits, if_neg hfull, validDigits]
          simp only [hrest, Bool.and_true]
          simp
        · left
          simp [hhalf]
        · intro i hi
          have : i = 0 := by omega
          subst this
          rw [incDigits, if_neg hfull]
          simp only [List.drop_zero, List.sum_cons, hhalf]
          ring
        · intro i hi
          rcases i with _ | i
          · omega
          · rw [incDigits, if_neg hfull]
            rfl

theorem put_canon (cs : List Nat) (es : List (List Nat)) (hv : validCounts cs = true)
    (h16 : ∀ x ∈ es, x.length = txEntrySize) (hsum : cs.sum = es.length)
    (blockID txStart txLen blockIndex : Nat) :
    ∃ cs2, validCounts cs2 = true ∧ cs2.sum = es.length + 1 ∧
      dbPutAddrIndexEntry (canonLevels cs es) blockID txStart txLen blockIndex =
        canonLevels cs2 (es ++ [serializeAddrIndexEntry blockID txStart txLen blockIndex]) := by
  obtain ⟨e, he, hel⟩ : ∃ x, x = serializeAddrIndexEntry blockID txStart txLen blockIndex ∧
      x.length = txEntrySize :=
    ⟨_, rfl, length_serializeAddrIndexEntry blockID txStart txLen blockIndex⟩
  rw [← he]
  have hene : e ≠ [] := by
    intro hc
    rw [hc] at hel
    simp [txEntrySize] at hel
  have h16x : ∀ x ∈ es ++ [e], x.length = txEntrySize := by
    intro x hx
    rcases List.mem_append.mp hx with h | h
    · exact h16 x h
    · simp only [List.mem_singleton] at h
      subst h
      exact hel
  cases cs with
  | nil =>
      have hes : es = [] := List.length_eq_zero.mp (by simpa using hsum.symm)
      subst hes
      refine ⟨[1], by decide, by simp, ?_⟩
      show dbPutAddrIndexEntry [] blockID txStart txLen blockIndex = canonLevels [1] [e]
      simp only [dbPutAddrIndexEntry, ← he]
      rw [if_pos (by rw [hel]; simp [txEntrySize, level0MaxEntries])]
      show setLevel [] 0 ([] ++ e) = canonLevels [1] [e]
      rw [List.nil_append]
      show trimLevels [e] = canonLevels [1] [e]
      simp [trimLevels, hene, canonLevels]
  | cons c0 ds =>
      rw [validCounts, Bool.and_eq_true, Bool.and_eq_true] at hv
      obtain ⟨⟨hc1, hc8⟩, hds⟩ := hv
      replace hc1 : 1 ≤ c0 := of_decide_eq_true hc1
      replace hc8 : c0 ≤ 8 := of_decide_eq_true hc8
      have hN : c0 + ds.sum = es.length := by simpa using hsum
      have hlev0 : (getLevel (canonLevels (c0 :: ds) es) 0).length = txEntrySize * c0 := by
        have := length_getLevel_canonLevels (c0 :: ds) es h16 hsum (l := 0) (by simp)
        simpa using this
      by_cases hfast : c0 < 8
      · -- fast path: the new entry fits in level 0
        have hsum2 : ((c0 + 1) :: ds).sum = (es ++ [e]).length := by
          simp
          omega
        have hvalid2 : validCounts ((c0 + 1) :: ds) = true := by
          rw [validCounts, hds]
          simp
          omega
        refine ⟨(c0 + 1) :: ds, hvalid2, by simpa using hsum2, ?_⟩
        simp only [dbPutAddrIndexEntry, ← he]
        rw [if_pos (by rw [hlev0, hel]; simp only [txEntrySize, level0MaxEntries]; omega)]
        apply trimmed_ext (trimmed_setLevel _ _ _)
          (trimmed_canonLevels _ _ (validCounts_pos hvalid2) h16x hsum2)
        intro l
        rw [getLevel_setLevel]
        by_cases hl0 : l = 0
        · subst hl0
          rw [if_pos rfl, getLevel_canonLevels _ _ hsum 0,
            getLevel_canonLevels _ _ hsum2 0]
          simp only [List.drop_succ_cons, List.drop_zero, List.sum_cons]
          have hds_le : ds.sum ≤ es.length := by omega
          rw [seg_split (es ++ [e]) (a := ds.sum) (c := es.length) (b := c0 + 1 + ds.sum)
            hds_le (by omega) (by simp),
            seg_append_right es [e] (le_refl _), List.flatten_append]
          congr 1
          · congr 1
            show seg es ds.sum (c0 + ds.sum) = seg es ds.sum es.length
            rw [hN]
          · rw [seg, List.take_of_length_le (by simp; omega),
              List.drop_append_of_le_length (le_refl _), List.drop_length,
              List.nil_append]
            simp
        · rw [if_neg hl0]
          obtain ⟨l1, rfl⟩ : ∃ l1, l = l1 + 1 := ⟨l - 1, by omega⟩
          rw [getLevel_canonLevels _ _ hsum (l1 + 1),
            getLevel_canonLevels _ _ hsum2 (l1 + 1)]
          simp only [List.drop_succ_cons]
          rw [seg_append_right es [e]
            (by rw [← hN]; have := sum_drop_le ds l1; omega)]
      · -- cascade path: level 0 is full
        have hc0 : c0 = 8 := by omega
        subst hc0
        obtain ⟨m, hm, hvalid2, hget, hdis, hsumle, hsumgt⟩ := incDigits_spec ds 1 hds
        have hsum20 : (incDigits 1 ds).sum = ds.sum + 8 := by
          have h0 := hsumle 0 (by omega)
          simpa using h0
        have hsum2 : (1 :: incDigits 1 ds).sum = (es ++ [e]).length := by
          simp [hsum20]
          omega
        have hvalid2x : validCounts (1 :: incDigits 1 ds) = true := by
          rw [validCounts, hvalid2]
          simp
        refine ⟨1 :: incDigits 1 ds, hvalid2x, by simpa using hsum2, ?_⟩
        -- the suffix-sum correspondences between old and new profiles
        have E1 : ∀ l, 1 ≤ l → l ≤ m + 1 →
            ((1 :: incDigits 1 ds).drop l).sum = ((8 :: ds).drop (l - 1)).sum := by
          intro l h1 h2
          obtain ⟨l1, rfl⟩ : ∃ l1, l = l1 + 1 := ⟨l - 1, by omega⟩
          show ((incDigits 1 ds).drop l1).sum = ((8 :: ds).drop l1).sum
          cases l1 with
          | zero =>
              have h0 := hsumle 0 (by omega)
              simp only [List.drop_zero] at h0 ⊢
              rw [h0, List.sum_cons]
              norm_num
              omega
          | succ l2 =>
              have h1 := hsumle (l2 + 1) (by omega)
              rw [List.drop_succ_cons, h1]
              have hgl := hget l2 (by omega)
              obtain ⟨hlt, hval⟩ := List.getElem?_eq_some_iff.mp hgl
              have hsplit := sum_drop_get ds l2 hlt
              rw [hsplit]
              have : ds.get ⟨l2, hlt⟩ = 8 * 2 ^ (1 + l2) := by simpa using hval
              rw [this]
              ring_nf
        have E2 : ∀ l, m + 2 ≤ l →
            ((1 :: incDigits 1 ds).drop l).sum = ((8 :: ds).drop l).sum := by
          intro l hl
          obtain ⟨l1, rfl⟩ : ∃ l1, l = l1 + 1 := ⟨l - 1, by omega⟩
          show ((incDigits 1 ds).drop l1).sum = (ds.drop l1).sum
          exact hsumgt l1 (by omega)
        -- the cascade walks exactly the full levels 1 .. m
        have hfull : ∀ l, 1 ≤ l → l < m + 1 →
            (getLevel (canonLevels (8 :: ds) es) l).length =
              level0MaxEntries * txEntrySize * 2 ^ l := by
          intro l h1 h2
          obtain ⟨l1, rfl⟩ : ∃ l1, l = l1 + 1 := ⟨l - 1, by omega⟩
          have hgl := hget l1 (by omega)
          obtain ⟨hlt, hval⟩ := List.getElem?_eq_some_iff.mp hgl
          have hlen := length_getLevel_canonLevels (8 :: ds) es h16 hsum
            (l := l1 + 1) (by simp; omega)
          rw [hlen]
          have : (8 :: ds).get ⟨l1 + 1, by simp; omega⟩ = 8 * 2 ^ (1 + l1) := by
            simpa using hval
          rw [this]
          simp only [level0MaxEntries, txEntrySize]
          ring_nf
        have hnotfull : (getLevel (canonLevels (8 :: ds) es) (m + 1)).length ≠
            level0MaxEntries * txEntrySize * 2 ^ (m + 1) := by
          rcases hdis with h | h
          · obtain ⟨hlt, hval⟩ := List.getElem?_eq_some_iff.mp h
            have hlen := length_getLevel_canonLevels (8 :: ds) es h16 hsum
              (l := m + 1) (by simp; omega)
            rw [hlen]
            have : (8 :: ds).get ⟨m + 1, by simp; omega⟩ = 4 * 2 ^ (1 + m) := by
              simpa using hval
            rw [this]
            simp only [level0MaxEntries, txEntrySize]
            have hp : 0 < 2 ^ (1 + m) := Nat.pos_pow_of_pos _ (by omega)
            have : (2 : Nat) ^ (m + 1) = 2 ^ (1 + m) := by ring_nf
            rw [this]
            omega
          · rw [getLevel_canonLevels_ge _ _ (by simp [h])]
            have hp : 0 < level0MaxEntries * txEntrySize * 2 ^ (m + 1) := by
              simp only [level0MaxEntries, txEntrySize]
              positivity
            simp only [List.length_nil]
            omega
        simp only [dbPutAddrIndexEntry, ← he]
        rw [if_neg (by rw [hlev0, hel]; simp [txEntrySize, level0MaxEntries])]
        have hspec := putCascade_spec (canonLevels (8 :: ds) es) e 1 (m + 1)
          (by omega) (by omega) hfull hnotfull
        simp only [Nat.add_sub_cancel] at hspec
        rw [show getLevel (canonLevels (8 :: ds) es) 0 =
          getLevel (canonLevels (8 :: ds) es) (1 - 1) from rfl, hspec]
        apply trimmed_ext (trimmed_setLevel _ _ _)
          (trimmed_canonLevels _ _ (validCounts_pos hvalid2x) h16x hsum2)
        intro l
        rw [getLevel_setLevel]
        have hbound : ∀ k, ((8 :: ds).drop k).sum ≤ es.length := by
          intro k
          rw [← hsum]
          exact sum_drop_le _ _
        by_cases hl0 : l = 0
        · subst hl0
          rw [if_pos rfl, getLevel_canonLevels _ _ hsum2 0]
          simp only [List.drop_succ_cons, List.drop_zero]
          have hE1 := E1 1 (by omega) (by omega)
          simp only [show (1 : Nat) - 1 = 0 from rfl, List.drop_succ_cons,
            List.drop_zero] at hE1
          rw [hE1, hsum, hsum2]
          rw [seg, List.take_length,
            List.drop_append_of_le_length (le_refl _), List.drop_length,
            List.nil_append]
          simp
        · rw [if_neg hl0, getLevel_mergeDown]
          rw [getLevel_canonLevels _ _ hsum2 l]
          by_cases hrange : 1 ≤ l ∧ l ≤ m
          · rw [if_pos hrange, getLevel_setLevel, if_neg (by omega),
              getLevel_canonLevels _ _ hsum (l - 1)]
            have e1 := E1 l (by omega) (by omega)
            have e2 := E1 (l + 1) (by omega) (by omega)
            rw [e1, e2]
            have : l + 1 - 1 = l := by omega
            rw [this]
            have : l - 1 + 1 = l := by omega
            rw [this]
            rw [seg_append_right es [e] (hbound _)]
          · by_cases hlj : l = m + 1
            · subst hlj
              rw [if_neg hrange, getLevel_setLevel, if_pos rfl,
                getLevel_canonLevels _ _ hsum (m + 1),
                getLevel_canonLevels _ _ hsum m]
              have e1 := E1 (m + 1) (by omega) (by omega)
              have e2 := E2 (m + 2) (by omega)
              rw [e1, e2]
              have hstep : m + 1 - 1 = m := by omega
              rw [hstep]
              rw [seg_append_right es [e] (hbound _)]
              have hmono1 : ((8 :: ds).drop (m + 2)).sum ≤ ((8 :: ds).drop (m + 1)).sum :=
                sum_drop_succ_le _ _
              have hmono2 : ((8 :: ds).drop (m + 1)).sum ≤ ((8 :: ds).drop m).sum :=
                sum_drop_succ_le _ _
              rw [seg_split es (a := ((8 :: ds).drop (m + 2)).sum)
                (c := ((8 :: ds).drop (m + 1)).sum) (b := ((8 :: ds).drop m).sum)
                hmono1 hmono2 (hbound _), List.flatten_append]
            · have hgt : m + 1 < l := by omega
              rw [if_neg hrange, getLevel_setLevel, if_neg hlj,
                getLevel_canonLevels _ _ hsum l]
              have e1 := E2 l (by omega)
              have e2 := E2 (l + 1) (by omega)
              rw [e1, e2]
              rw [seg_append_right es [e] (hbound _)]

theorem puts_canon (args : List (Nat × Nat × Nat × Nat)) :
    ∀ (cs : List Nat) (es : List (List Nat)), validCounts cs = true →
    (∀ x ∈ es, x.length = txEntrySize) → cs.sum = es.length →
    ∃ cs2, validCounts cs2 = true ∧ cs2.sum = es.length + args.length ∧
      applyPuts (canonLevels cs es) args = canonLevels cs2 (es ++ args.map serTuple) := by
  induction args with
  | nil =>
      intro cs es hv h16 hsum
      exact ⟨cs, hv, by simp [hsum], by simp [applyPuts]⟩
  | cons a rest ih =>
      intro cs es hv h16 hsum
      obtain ⟨cs1, hv1, hsum1, heq1⟩ := put_canon cs es hv h16 hsum a.1 a.2.1 a.2.2.1 a.2.2.2
      have h16x : ∀ x ∈ es ++ [serTuple a], x.length = txEntrySize := by
        intro x hx
        rcases List.mem_append.mp hx with h | h
        · exact h16 x h
        · simp only [List.mem_singleton] at h
          subst h
          exact length_serializeAddrIndexEntry ..
      obtain ⟨cs2, hv2, hsum2, heq2⟩ := ih cs1 (es ++ [serTuple a]) hv1 h16x
        (by simpa using hsum1)
      refine ⟨cs2, hv2, ?_, ?_⟩
      · simp at hsum2 ⊢
        omega
      · show applyPuts (canonLevels cs es) (a :: rest) = _
        unfold applyPuts
        rw [List.foldl_cons]
        have : dbPutAddrIndexEntry (canonLevels cs es) a.1 a.2.1 a.2.2.1 a.2.2.2 =
            canonLevels cs1 (es ++ [serTuple a]) := heq1
        rw [this]
        show applyPuts (canonLevels cs1 (es ++ [serTuple a])) rest = _
        rw [heq2]
        simp

/-! ## Uniqueness of legal count profiles -/

theorem validDigits_sum_dvd {k : Nat} {ds : List Nat} (hv : validDigits k ds = true) :
    2 ^ (k + 2) ∣ ds.sum := by
  induction ds generalizing k with
  | nil => simp
  | cons d rest ih =>
      rw [validDigits, Bool.and_eq_true, Bool.or_eq_true] at hv
      have htail : 2 ^ (k + 2) ∣ rest.sum :=
        dvd_trans (pow_dvd_pow 2 (by omega)) (ih hv.2)
      rw [List.sum_cons]
      apply Nat.dvd_add _ htail
      rcases hv.1 with h | h
      · rw [eq_of_beq h, show (4 : Nat) * 2 ^ k = 2 ^ (k + 2) by ring]
      · rw [eq_of_beq h, show (8 : Nat) * 2 ^ k = 2 * 2 ^ (k + 2) by ring]
        exact Dvd.intro 2 (by ring)

theorem validDigits_unique {k : Nat} {ds1 ds2 : List Nat} (h1 : validDigits k ds1 = true)
    (h2 : validDigits k ds2 = true) (hs : ds1.sum = ds2.sum) : ds1 = ds2 := by
  induction ds1 generalizing ds2 k with
  | nil =>
      cases ds2 with
      | nil => rfl
      | cons d rest =>
          exfalso
          have hd := validDigits_pos h2 d (by simp)
          simp only [List.sum_nil, List.sum_cons] at hs
          omega
  | cons d1 rest1 ih =>
      cases ds2 with
      | nil =>
          exfalso
          have hd := validDigits_pos h1 d1 (by simp)
          simp only [List.sum_nil, List.sum_cons] at hs
          omega
      | cons d2 rest2 =>
          rw [validDigits, Bool.and_eq_true, Bool.or_eq_true] at h1 h2
          obtain ⟨hd1, hr1⟩ := h1
          obtain ⟨hd2, hr2⟩ := h2
          obtain ⟨x, hx⟩ := validDigits_sum_dvd hr1
          obtain ⟨y, hy⟩ := validDigits_sum_dvd hr2
          simp only [List.sum_cons] at hs
          have hp : 0 < 2 ^ k := Nat.pos_pow_of_pos _ (by omega)
          have hdd : d1 = d2 := by
            rcases hd1 with ha | ha <;> rcases hd2 with hb | hb
            · rw [eq_of_beq ha, eq_of_beq hb]
            · exfalso
              rw [eq_of_beq ha] at hs
              rw [eq_of_beq hb] at hs
              rw [hx, hy, show (2 : Nat) ^ (k + 1 + 2) = 8 * 2 ^ k by ring] at hs
              have key : (4 * 2 ^ k) * (1 + 2 * x) = (4 * 2 ^ k) * (2 + 2 * y) := by
                calc (4 * 2 ^ k) * (1 + 2 * x) = 4 * 2 ^ k + 8 * 2 ^ k * x := by ring
                _ = 8 * 2 ^ k + 8 * 2 ^ k * y := hs
                _ = (4 * 2 ^ k) * (2 + 2 * y) := by ring
              have := Nat.eq_of_mul_eq_mul_left (by positivity) key
              omega
            · exfalso
              rw [eq_of_beq ha] at hs
              rw [eq_of_beq hb] at hs
              rw [hx, hy, show (2 : Nat) ^ (k + 1 + 2) = 8 * 2 ^ k by ring] at hs
              have key : (4 * 2 ^ k) * (2 + 2 * x) = (4 * 2 ^ k) * (1 + 2 * y) := by
                calc (4 * 2 ^ k) * (2 + 2 * x) = 8 * 2 ^ k + 8 * 2 ^ k * x := by ring
                _ = 4 * 2 ^ k + 8 * 2 ^ k * y := hs
                _ = (4 * 2 ^ k) * (1 + 2 * y) := by ring
              have := Nat.eq_of_mul_eq_mul_left (by positivity) key
              omega
            · rw [eq_of_beq ha, eq_of_beq hb]
          subst hdd
          have hrs : rest1.sum = rest2.sum := by omega
          rw [ih hr1 hr2 hrs]

theorem validCounts_unique {cs1 cs2 : List Nat} (h1 : validCounts cs1 = true)
    (h2 : validCounts cs2 = true) (hs : cs1.sum = cs2.sum) : cs1 = cs2 := by
  cases cs1 with
  | nil =>
      cases cs2 with
      | nil => rfl
      | cons c2 rest2 =>
          exfalso
          have := validCounts_pos h2 c2 (by simp)
          simp only [List.sum_nil, List.sum_cons] at hs
          omega
  | cons c1 rest1 =>
      cases cs2 with
      | nil =>
          exfalso
          have := validCounts_pos h1 c1 (by simp)
          simp only [List.sum_nil, List.sum_cons] at hs
          omega
      | cons c2 rest2 =>
          rw [validCounts, Bool.and_eq_true, Bool.and_eq_true] at h1 h2
          obtain ⟨⟨ha1, ha2⟩, hr1⟩ := h1
          obtain ⟨⟨hb1, hb2⟩, hr2⟩ := h2
          replace ha1 := of_decide_eq_true ha1
          replace ha2 := of_decide_eq_true ha2
          replace hb1 := of_decide_eq_true hb1
          replace hb2 := of_decide_eq_true hb2
          obtain ⟨x, hx⟩ := validDigits_sum_dvd hr1
          obtain ⟨y, hy⟩ := validDigits_sum_dvd hr2
          simp only [List.sum_cons] at hs
          rw [hx, hy] at hs
          have h8 : (2 : Nat) ^ (1 + 2) = 8 := by norm_num
          rw [h8] at hs
          have hcc : c1 = c2 := by omega
          subst hcc
          have hrs : rest1.sum = rest2.sum := by omega
          rw [validDigits_unique hr1 hr2 hrs]

/-! ## Structure of canonical states -/

theorem canonLevels_length (cs : List Nat) (es : List (List Nat)) :
    (canonLevels cs es).length = cs.length := by
  induction cs generalizing es with
  | nil => rfl
  | cons c rest ih =>
      show ((es.drop (es.length - c)).flatten :: canonLevels rest (es.take (es.length - c))).length = _
      simp [ih]

theorem flattenLevels_canonLevels (cs : List Nat) (es : List (List Nat))
    (hsum : cs.sum = es.length) : flattenLevels (canonLevels cs es) = es.flatten := by
  induction cs generalizing es with
  | nil =>
      have : es = [] := List.length_eq_zero.mp (by simpa using hsum.symm)
      subst this
      rfl
  | cons c rest ih =>
      show flattenLevels ((es.drop (es.length - c)).flatten ::
        canonLevels rest (es.take (es.length - c))) = _
      unfold flattenLevels
      rw [List.reverse_cons, List.flatten_append]
      have hce : c + rest.sum = es.length := by simpa using hsum
      have := ih (es.take (es.length - c)) (by simp; omega)
      unfold flattenLevels at this
      rw [this]
      simp only [List.flatten_cons, List.flatten_nil, List.append_nil]
      rw [← List.flatten_append, List.take_append_drop]

theorem fetchWF_getLevel_ne {s : AddrLevels} (h : fetchWF s = true) {l : Nat}
    (hl : l < s.length) : getLevel s l ≠ [] := by
  rw [fetchWF, List.all_eq_true] at h
  have := h l (List.mem_range.mpr hl)
  rw [Bool.and_eq_true, Bool.not_eq_eq_eq_not] at this
  intro hc
  have := this.1
  rw [hc] at this
  simp at this

theorem fetchWF_dvd {s : AddrLevels} (h : fetchWF s = true) {l : Nat}
    (hl : l < s.length) : (getLevel s l).length % txEntrySize = 0 := by
  rw [fetchWF, List.all_eq_true] at h
  have := (h l (List.mem_range.mpr hl))
  rw [Bool.and_eq_true] at this
  exact of_decide_eq_true (by simpa using this.2)

theorem fetchWF_canonLevels (cs : List Nat) (es : List (List Nat))
    (hv : validCounts cs = true) (h16 : ∀ x ∈ es, x.length = txEntrySize)
    (hsum : cs.sum = es.length) : fetchWF (canonLevels cs es) = true := by
  rw [fetchWF, List.all_eq_true]
  intro l hl
  rw [List.mem_range, canonLevels_length] at hl
  have hlen := length_getLevel_canonLevels cs es h16 hsum hl
  have hpos : 0 < cs.get ⟨l, hl⟩ := validCounts_pos hv _ (List.get_mem cs l hl)
  rw [Bool.and_eq_true]
  constructor
  · rw [Bool.not_eq_eq_eq_not]
    simp only [Bool.not_true]
    rw [beq_eq_false_iff_ne]
    intro hc
    rw [hc] at hlen
    simp only [List.length_nil] at hlen
    simp only [txEntrySize] at hlen
    omega
  · rw [beq_iff_eq, hlen, Nat.mul_mod_right]

/-! ## The fetch path -/

theorem fetchLevels_false (s : AddrLevels) (hWF : fetchWF s = true) (thr : Nat) :
    ∀ n l acc, s.length ≤ l + n →
      fetchLevels s false thr l acc = ((s.drop l).reverse).flatten ++ acc := by
  intro n
  induction n with
  | zero =>
      intro l acc hl
      rw [fetchLevels, if_pos (by simp), dif_pos (getLevel_eq_nil_of_le (by omega))]
      rw [List.drop_eq_nil_of_le (by omega)]
      simp
  | succ n ih =>
      intro l acc hl
      by_cases hlen : l < s.length
      · rw [fetchLevels, if_pos (by simp), dif_neg (fetchWF_getLevel_ne hWF hlen)]
        rw [ih (l + 1) (getLevel s l ++ acc) (by omega)]
        rw [List.drop_eq_getElem_cons hlen, List.reverse_cons, List.flatten_append]
        simp only [List.flatten_cons, List.flatten_nil, List.append_nil, List.append_assoc]
        rw [show getLevel s l = s[l] from List.getD_eq_getElem s [] hlen]
      · rw [fetchLevels, if_pos (by simp), dif_pos (getLevel_eq_nil_of_le (by omega))]
        rw [List.drop_eq_nil_of_le (by omega)]
        simp

theorem fetchLevels_true (s : AddrLevels) (hWF : fetchWF s = true) (thr : Nat) :
    ∀ n l, s.length ≤ l + n → l ≤ s.length →
      ∃ k, k ≤ s.length ∧
        fetchLevels s true thr l (((s.take l).reverse).flatten) =
          ((s.take k).reverse).flatten ∧
        (thr ≤ (((s.take k).reverse).flatten).length ∨ k = s.length) := by
  intro n
  induction n with
  | zero =>
      intro l hl hls
      have hleq : l = s.length := by omega
      subst hleq
      refine ⟨s.length, le_refl _, ?_, Or.inr rfl⟩
      rw [fetchLevels]
      by_cases hc : (((s.take s.length).reverse).flatten).length < thr
      · rw [if_pos (by simp only [Bool.not_true, Bool.false_or, decide_eq_true_eq]; exact hc),
          dif_pos (getLevel_eq_nil_of_le (by omega))]
      · rw [if_neg (by simp only [Bool.not_true, Bool.false_or, decide_eq_true_eq]; exact hc)]
  | succ n ih =>
      intro l hl hls
      rw [fetchLevels]
      by_cases hc : (((s.take l).reverse).flatten).length < thr
      · rw [if_pos (by simp only [Bool.not_true, Bool.false_or, decide_eq_true_eq]; exact hc)]
        by_cases hlen : l < s.length
        · rw [dif_neg (fetchWF_getLevel_ne hWF hlen)]
          have hstep : getLevel s l ++ ((s.take l).reverse).flatten =
              ((s.take (l + 1)).reverse).flatten := by
            rw [List.take_succ, List.reverse_append, List.flatten_append]
            rw [show getLevel s l = s[l] from List.getD_eq_getElem s [] hlen]
            rw [List.getElem?_eq_getElem hlen]
            simp
          rw [hstep]
          obtain ⟨k, hk2, hk3, hk4⟩ := ih (l + 1) (by omega) (by omega)
          exact ⟨k, hk2, hk3, hk4⟩
        · rw [dif_pos (getLevel_eq_nil_of_le (by omega))]
          refine ⟨s.length, le_refl _, ?_, Or.inr rfl⟩
          have : l = s.length := by omega
          rw [this]
      · rw [if_neg (by simp only [Bool.not_true, Bool.false_or, decide_eq_true_eq]; exact hc)]
        exact ⟨l, hls, rfl, Or.inl (by omega)⟩

theorem flattenLevels_split (s : AddrLevels) (k : Nat) :
    flattenLevels s = ((s.drop k).reverse).flatten ++ ((s.take k).reverse).flatten := by
  unfold flattenLevels
  conv_lhs => rw [← List.take_append_drop k s]
  rw [List.reverse_append, List.flatten_append]

theorem fetchWF_mem_dvd {s : AddrLevels} (hWF : fetchWF s = true) :
    ∀ x ∈ s, x.length % txEntrySize = 0 := by
  intro x hx
  obtain ⟨i, hi, hEq⟩ := List.mem_iff_getElem.mp hx
  have := fetchWF_dvd hWF hi
  rw [show getLevel s i = s[i] from List.getD_eq_getElem s [] hi] at this
  rw [← hEq]
  exact this

theorem flatten_length_mod {s2 : List (List Nat)}
    (h : ∀ x ∈ s2, x.length % txEntrySize = 0) :
    (s2.flatten).length % txEntrySize = 0 := by
  induction s2 with
  | nil => simp
  | cons x rest ih =>
      rw [List.flatten_cons, List.length_append, Nat.add_mod, h x (by simp),
        ih fun y hy => h y (by simp [hy])]
      simp

theorem deser_ok (bs : List Nat) (j : Nat) (f : List Nat → Nat)
    (hlen : (j + 1) * txEntrySize ≤ bs.length) :
    deserializeAddrIndexEntry (bs.drop (j * txEntrySize)) (okHash f) =
      .ok (entryAt bs f j) := by
  rw [deserializeAddrIndexEntry, if_neg (by simp [txEntrySize] at hlen ⊢; omega)]
  simp only [okHash]
  rw [List.drop_drop, List.drop_drop, List.drop_drop]
  rfl

theorem mapM_ok (g : Nat → Except AddrIdxErr TxIndexEntry) (h : Nat → TxIndexEntry) :
    ∀ xs : List Nat, (∀ i ∈ xs, g i = .ok (h i)) → xs.mapM g = .ok (xs.map h) := by
  intro xs
  induction xs with
  | nil => intro _; rfl
  | cons x rest ih =>
      intro hall
      rw [List.mapM_cons, hall x (by simp), ih fun i hi => hall i (by simp [hi])]
      rfl

theorem fetch_spec (s : AddrLevels) (skip want : Nat) (rev : Bool) (f : List Nat → Nat)
    (hWF : fetchWF s = true) (hover : rev = true → skip + want < 2 ^ 32) :
    dbFetchAddrIndexEntries s skip want rev (okHash f) =
      if totalEntries s ≤ skip then .ok ([], totalEntries s)
      else if want = 0 then .ok ([], skip)
      else .ok ((List.range (min (totalEntries s - skip) want)).map fun i =>
        entryAt (flattenLevels s) f
          (if rev then totalEntries s - skip - i - 1 else skip + i), skip) := by
  have hBdvd : (flattenLevels s).length % txEntrySize = 0 := by
    unfold flattenLevels
    exact flatten_length_mod fun x hx =>
      fetchWF_mem_dvd hWF x (List.mem_reverse.mp hx)
  have hB16 : (flattenLevels s).length = txEntrySize * totalEntries s := by
    rw [totalEntries]
    simp only [txEntrySize] at hBdvd ⊢
    omega
  unfold totalEntries at hB16 ⊢
  cases rev with
  | false =>
      have hser : fetchLevels s false ((skip + want) % 2 ^ 32 * txEntrySize) 0 [] =
          flattenLevels s := by
        rw [fetchLevels_false s hWF _ s.length 0 [] (by omega)]
        simp [flattenLevels]
      simp only [dbFetchAddrIndexEntries]
      rw [hser]
      by_cases h1 : (flattenLevels s).length / txEntrySize ≤ skip
      · rw [if_pos h1, if_pos h1]
      · rw [if_neg h1, if_neg h1]
        by_cases h2 : want = 0
        · rw [if_pos h2, if_pos h2]
        · rw [if_neg h2, if_neg h2]
          have hdecode : fetchDecode (flattenLevels s)
              ((flattenLevels s).length / txEntrySize) skip
              (min ((flattenLevels s).length / txEntrySize - skip) want) false (okHash f) =
              .ok ((List.range (min ((flattenLevels s).length / txEntrySize - skip) want)).map
                fun i => entryAt (flattenLevels s) f (skip + i)) := by
            rw [fetchDecode]
            apply mapM_ok
            intro i hi
            rw [List.mem_range] at hi
            have hbound : (skip + i + 1) * txEntrySize ≤ (flattenLevels s).length := by
              rw [hB16]
              have h2 : skip + i + 1 ≤ (flattenLevels s).length / txEntrySize := by omega
              exact le_trans (Nat.mul_le_mul_right _ h2) (le_of_eq (Nat.mul_comm _ _))
            exact deser_ok (flattenLevels s) (skip + i) f hbound
          rw [hdecode]
          simp
  | true =>
      have hthr : (skip + want) % 2 ^ 32 = skip + want := Nat.mod_eq_of_lt (hover rfl)
      obtain ⟨k, hk, hser, hguar⟩ := fetchLevels_true s hWF
        ((skip + want) % 2 ^ 32 * txEntrySize) s.length 0 (by omega) (by omega)
      simp only [List.take_zero, List.reverse_nil, List.flatten_nil] at hser
      have hRdvd : (((s.take k).reverse).flatten).length % txEntrySize = 0 :=
        flatten_length_mod fun x hx =>
          fetchWF_mem_dvd hWF x (List.mem_of_mem_take (List.mem_reverse.mp hx))
      have hsplit := flattenLevels_split s k
      have hR16 : (((s.take k).reverse).flatten).length =
          txEntrySize * ((((s.take k).reverse).flatten).length / txEntrySize) := by
        simp only [txEntrySize] at hRdvd ⊢
        omega
      have hRle : (((s.take k).reverse).flatten).length ≤ (flattenLevels s).length := by
        rw [hsplit]
        simp
      have hNN : (((s.take k).reverse).flatten).length / txEntrySize ≤
          (flattenLevels s).length / txEntrySize := by
        exact Nat.div_le_div_right hRle
      have hguar2 : skip + want ≤ (((s.take k).reverse).flatten).length / txEntrySize ∨
          (((s.take k).reverse).flatten).length / txEntrySize =
            (flattenLevels s).length / txEntrySize := by
        rcases hguar with h | h
        · left
          rw [hthr] at h
          simp only [txEntrySize] at h hR16 ⊢
          omega
        · right
          subst h
          rw [List.take_length]
          rfl
      have hReq : ∀ y, (((s.take k).reverse).flatten).drop y =
          (flattenLevels s).drop
            ((flattenLevels s).length - (((s.take k).reverse).flatten).length + y) := by
        intro y
        have hplen : (((s.drop k).reverse).flatten).length =
            (flattenLevels s).length - (((s.take k).reverse).flatten).length := by
          rw [hsplit]
          simp
        rw [← hplen]
        conv_rhs => rw [hsplit]
        rw [← List.drop_drop, List.drop_left]
      simp only [dbFetchAddrIndexEntries]
      rw [hser]
      by_cases h1 : (flattenLevels s).length / txEntrySize ≤ skip
      · rw [if_pos h1]
        have hN2 : (((s.take k).reverse).flatten).length / txEntrySize =
            (flattenLevels s).length / txEntrySize := by
          rcases hguar2 with h | h
          · omega
          · exact h
        rw [if_pos (by omega), hN2]
      · rw [if_neg h1]
        by_cases h2 : want = 0
        · subst h2
          rw [if_pos rfl]
          by_cases h3 : (((s.take k).reverse).flatten).length / txEntrySize ≤ skip
          · rw [if_pos h3]
            have : (((s.take k).reverse).flatten).length / txEntrySize = skip := by
              rcases hguar2 with h | h
              · omega
              · omega
            rw [this]
            simp
          · rw [if_neg h3]
            simp
        · rw [if_neg h2]
          have h3 : ¬ ((((s.take k).reverse).flatten).length / txEntrySize ≤ skip) := by
            rcases hguar2 with h | h
            · omega
            · omega
          rw [if_neg h3]
          have hload : min ((((s.take k).reverse).flatten).length / txEntrySize - skip) want =
              min ((flattenLevels s).length / txEntrySize - skip) want := by
            rcases hguar2 with h | h
            · omega
            · omega
          have hdecode : fetchDecode (((s.take k).reverse).flatten)
              ((((s.take k).reverse).flatten).length / txEntrySize) skip
              (min ((((s.take k).reverse).flatten).length / txEntrySize - skip) want) true
              (okHash f) =
              .ok ((List.range (min ((flattenLevels s).length / txEntrySize - skip) want)).map
                fun i => entryAt (flattenLevels s) f
                  ((flattenLevels s).length / txEntrySize - skip - i - 1)) := by
            rw [fetchDecode, hload]
            apply mapM_ok
            intro i hi
            rw [List.mem_range] at hi
            have hlt : skip + i + 1 ≤ (((s.take k).reverse).flatten).length / txEntrySize := by
              rcases hguar2 with h | h
              · omega
              · omega
            have harith : (flattenLevels s).length - (((s.take k).reverse).flatten).length +
                ((((s.take k).reverse).flatten).length / txEntrySize - skip - i - 1) *
                  txEntrySize =
                ((flattenLevels s).length / txEntrySize - skip - i - 1) * txEntrySize := by
              simp only [txEntrySize] at hB16 hR16 hlt hNN ⊢
              omega
            simp only []
            rw [if_pos trivial, hReq, harith]
            apply deser_ok
            have hle : (flattenLevels s).length / txEntrySize - skip - i - 1 + 1 ≤
                (flattenLevels s).length / txEntrySize := by omega
            calc ((flattenLevels s).length / txEntrySize - skip - i - 1 + 1) * txEntrySize
                ≤ ((flattenLevels s).length / txEntrySize) * txEntrySize :=
                  Nat.mul_le_mul_right _ hle
              _ = txEntrySize * ((flattenLevels s).length / txEntrySize) := Nat.mul_comm _ _
              _ = (flattenLevels s).length := hB16.symm
          rw [hdecode, if_neg h2]
          simp

/-! ## The delete path: arithmetic and list helpers -/

theorem minEntriesLoop_closed :
    ∀ (n mE mR : Nat), minEntriesLoop mE mR n = mR + mE * (2 ^ n - 1) := by
  intro n
  induction n with
  | zero => intro mE mR; simp [minEntriesLoop]
  | succ n ih =>
      intro mE mR
      rw [minEntriesLoop, ih]
      obtain ⟨k, hk⟩ : ∃ k, 2 ^ n = k + 1 :=
        ⟨2 ^ n - 1, by have := Nat.pos_pow_of_pos n (show 0 < 2 by omega); omega⟩
      rw [pow_succ, hk]
      have h1 : k + 1 - 1 = k := rfl
      have h2 : (k + 1) * 2 - 1 = 2 * k + 1 := by omega
      rw [h1, h2]
      ring

theorem minEntriesToReachLevel_eq (v : Nat) :
    minEntriesToReachLevel v = 8 * 2 ^ v - 7 := by
  rw [minEntriesToReachLevel, minEntriesLoop_closed]
  have := Nat.pos_pow_of_pos v (show 0 < 2 by omega)
  simp only [level0MaxEntries]
  omega

theorem flatten_take_entries {es : List (List Nat)}
    (h16 : ∀ e ∈ es, e.length = txEntrySize) :
    ∀ k, es.flatten.take (k * txEntrySize) = (es.take k).flatten := by
  induction es with
  | nil => simp
  | cons e rest ih =>
      intro k
      cases k with
      | zero => simp
      | succ k =>
          rw [List.flatten_cons, List.take_append_eq_append_take]
          have he : e.length = txEntrySize := h16 e (by simp)
          have h1 : (k + 1) * txEntrySize = txEntrySize + k * txEntrySize := by ring
          rw [h1, he, List.take_all_of_le (by omega),
            Nat.add_sub_cancel_left,
            ih (fun x hx => h16 x (by simp [hx])) k]
          rfl

theorem flatten_drop_entries {es : List (List Nat)}
    (h16 : ∀ e ∈ es, e.length = txEntrySize) :
    ∀ k, es.flatten.drop (k * txEntrySize) = (es.drop k).flatten := by
  induction es with
  | nil => simp
  | cons e rest ih =>
      intro k
      cases k with
      | zero => simp
      | succ k =>
          rw [List.flatten_cons, List.drop_append_eq_append_drop]
          have he : e.length = txEntrySize := h16 e (by simp)
          have h1 : (k + 1) * txEntrySize = txEntrySize + k * txEntrySize := by ring
          rw [h1, he, List.drop_eq_nil_of_le (by omega),
            Nat.add_sub_cancel_left,
            ih (fun x hx => h16 x (by simp [hx])) k]
          rfl

theorem seg_take (es : List (List Nat)) {a M : Nat} (k : Nat) (h : a + k ≤ M) :
    (seg es a M).take k = seg es a (a + k) := by
  rw [seg, seg, List.take_drop, List.take_take, Nat.min_eq_left h]

theorem seg_drop (es : List (List Nat)) (a M k : Nat) :
    (seg es a M).drop k = seg es (a + k) M := by
  rw [seg, seg, List.drop_drop]

theorem seg_take_left (es : List (List Nat)) {a b M : Nat} (h : b ≤ M) :
    seg (es.take M) a b = seg es a b := by
  rw [seg, seg, List.take_take, Nat.min_eq_left h]

theorem validDigits_join {k : Nat} {ds ys : List Nat} (h1 : validDigits k ds = true)
    (h2 : validDigits (k + ds.length) ys = true) : validDigits k (ds ++ ys) = true := by
  induction ds generalizing k with
  | nil => simpa using h2
  | cons d rest ih =>
      rw [List.cons_append, validDigits, Bool.and_eq_true]
      rw [validDigits, Bool.and_eq_true] at h1
      refine ⟨h1.1, ih h1.2 ?_⟩
      have harith : k + 1 + rest.length = k + (d :: rest).length := by simp; omega
      rw [harith]
      exact h2

theorem validCounts_join {cs ys : List Nat} (h1 : validCounts cs = true) (hne : cs ≠ [])
    (h2 : validDigits cs.length ys = true) : validCounts (cs ++ ys) = true := by
  cases cs with
  | nil => exact absurd rfl hne
  | cons c ds =>
      rw [List.cons_append, validCounts, Bool.and_eq_true]
      rw [validCounts, Bool.and_eq_true] at h1
      refine ⟨h1.1, validDigits_join h1.2 ?_⟩
      have harith : 1 + ds.length = (c :: ds).length := by simp; omega
      rw [harith]
      exact h2

theorem validDigits_single {k d : Nat} (h : d = 4 * 2 ^ k ∨ d = 8 * 2 ^ k) :
    validDigits k [d] = true := by
  rcases h with h | h <;> simp [validDigits, h]

theorem validDigits_drop_tail {k : Nat} {ds : List Nat} (hv : validDigits k ds = true) :
    ∀ i, validDigits (k + i) (ds.drop i) = true := by
  induction ds generalizing k with
  | nil => intro i; simp [validDigits]
  | cons d rest ih =>
      intro i
      cases i with
      | zero => simpa using hv
      | succ i =>
          rw [validDigits, Bool.and_eq_true] at hv
          have := ih hv.2 i
          rw [List.drop_succ_cons]
          have harith : k + 1 + i = k + (i + 1) := by omega
          rw [← harith]
          exact this

theorem sum_halves (n : Nat) : ∀ a : Nat,
    (((List.range' a n).map fun t => 4 * 2 ^ t).sum) + 4 * 2 ^ a = 4 * 2 ^ (a + n) := by
  induction n with
  | zero => intro a; simp
  | succ n ih =>
      intro a
      rw [List.range'_succ, List.map_cons, List.sum_cons]
      have h1 := ih (a + 1)
      have hp : (2 : Nat) ^ (a + 1) = 2 * 2 ^ a := by rw [pow_succ]; ring
      have hq : (2 : Nat) ^ (a + (n + 1)) = 2 ^ (a + 1 + n) := by
        congr 1
        omega
      rw [hq]
      omega

theorem validDigits_halves : ∀ (n a : Nat),
    validDigits a ((List.range' a n).map fun t => 4 * 2 ^ t) = true := by
  intro n
  induction n with
  | zero => intro a; simp [validDigits]
  | succ n ih =>
      intro a
      rw [List.range'_succ, List.map_cons, validDigits, Bool.and_eq_true]
      exact ⟨by simp, ih (a + 1)⟩

theorem halves_drop : ∀ (n a t : Nat), t ≤ n →
    ((List.range' a n).map fun u => 4 * 2 ^ u).drop t =
      (List.range' (a + t) (n - t)).map fun u => 4 * 2 ^ u := by
  intro n
  induction n with
  | zero =>
      intro a t ht
      have : t = 0 := by omega
      subst this
      simp
  | succ n ih =>
      intro a t ht
      cases t with
      | zero => simp
      | succ t =>
          rw [List.range'_succ, List.map_cons, List.drop_succ_cons, ih (a + 1) t (by omega),
            show a + 1 + t = a + (t + 1) by omega, show n - t = n + 1 - (t + 1) by omega]

theorem sum_drop_le_of_le (xs : List Nat) {a b : Nat} (h : a ≤ b) :
    (xs.drop b).sum ≤ (xs.drop a).sum := by
  obtain ⟨k, hk⟩ : ∃ k, b = a + k := ⟨b - a, by omega⟩
  subst hk
  rw [← List.drop_drop]
  exact sum_drop_le _ _

theorem exists_boundary (cs : List Nat) (M : Nat) (hM : M < cs.sum) :
    ∃ j, j < cs.length ∧ (cs.drop (j + 1)).sum ≤ M ∧ M < (cs.drop j).sum := by
  induction cs with
  | nil => simp at hM
  | cons c rest ih =>
      by_cases h : rest.sum ≤ M
      · exact ⟨0, by simp, by simpa using h, by simpa using hM⟩
      · obtain ⟨j, hj1, hj2, hj3⟩ := ih (by omega)
        exact ⟨j + 1, by simpa using hj1, hj2, hj3⟩

/-! ## Phase A of the delete path on canonical states -/

theorem removePhaseA_ok (cs : List Nat) (es : List (List Nat))
    (hv : validCounts cs = true) (h16 : ∀ e ∈ es, e.length = txEntrySize)
    (hsum : cs.sum = es.length) (M : Nat) :
    ∀ (n level : Nat) (p : Pending), level + n < cs.length →
    (cs.drop (level + n + 1)).sum ≤ M → M < (cs.drop (level + n)).sum →
    ∃ pA, removePhaseA (canonLevels cs es) level ((cs.drop level).sum - M) p =
        .ok (pA, level + n) ∧
      ∀ l, pget pA l =
        if level ≤ l ∧ l < level + n then some []
        else if l = level + n then some ((seg es ((cs.drop (level + n + 1)).sum) M).flatten)
        else pget p l := by
  intro n
  induction n with
  | zero =>
      intro level p hlev hlo hhi
      simp only [Nat.add_zero] at hlev hlo hhi ⊢
      have hAB := sum_drop_get cs level hlev
      have hcpos : 0 < cs.get ⟨level, hlev⟩ := validCounts_pos hv _ (List.get_mem cs level hlev)
      have hBle : (cs.drop level).sum ≤ es.length := hsum ▸ sum_drop_le cs level
      have hdata := getLevel_canonLevels cs es hsum level
      have hdlen : ((seg es ((cs.drop (level + 1)).sum) ((cs.drop level).sum)).flatten).length =
          txEntrySize * ((cs.drop level).sum - (cs.drop (level + 1)).sum) :=
        length_flatten_seg h16 hBle
      have hne : (seg es ((cs.drop (level + 1)).sum) ((cs.drop level).sum)).flatten ≠ [] := by
        intro hc
        rw [hc] at hdlen
        simp only [List.length_nil, txEntrySize] at hdlen
        omega
      have hnum : ((seg es ((cs.drop (level + 1)).sum) ((cs.drop level).sum)).flatten).length /
          txEntrySize = (cs.drop level).sum - (cs.drop (level + 1)).sum := by
        rw [hdlen]
        exact Nat.mul_div_cancel_left _ (by simp [txEntrySize])
      by_cases hMA : (cs.drop (level + 1)).sum = M
      · refine ⟨pset (pset p level ((seg es ((cs.drop (level + 1)).sum)
          ((cs.drop level).sum)).flatten)) level [], ?_, ?_⟩
        · rw [removePhaseA, hdata, dif_neg hne, hnum, if_pos (by omega), dif_neg (by omega)]
        · intro l
          rw [pget_pset, pget_pset]
          by_cases hl : l = level
          · rw [if_pos hl, if_neg (by omega), if_pos hl]
            rw [hMA, seg_eq_nil es (le_refl M)]
            rfl
          · rw [if_neg hl, if_neg hl, if_neg (by omega), if_neg hl]
      · refine ⟨pset (pset p level ((seg es ((cs.drop (level + 1)).sum)
          ((cs.drop level).sum)).flatten)) level ((seg es ((cs.drop (level + 1)).sum) M).flatten),
          ?_, ?_⟩
        · rw [removePhaseA, hdata, dif_neg hne, hnum, if_neg (by omega)]
          have htake : ((seg es ((cs.drop (level + 1)).sum) ((cs.drop level).sum)).flatten).length -
              ((cs.drop level).sum - M) * txEntrySize =
              (M - (cs.drop (level + 1)).sum) * txEntrySize := by
            rw [hdlen]
            simp only [txEntrySize]
            omega
          rw [htake, flatten_take_entries (fun e he => h16 e (mem_seg he)),
            seg_take es _ (by omega),
            show (cs.drop (level + 1)).sum + (M - (cs.drop (level + 1)).sum) = M by omega]
        · intro l
          rw [pget_pset, pget_pset]
          by_cases hl : l = level
          · rw [if_pos hl, if_neg (by omega), if_pos hl]
          · rw [if_neg hl, if_neg hl, if_neg (by omega), if_neg hl]
  | succ n ih =>
      intro level p hlev hlo hhi
      have hlevlt : level < cs.length := by omega
      have hAB := sum_drop_get cs level hlevlt
      have hcpos : 0 < cs.get ⟨level, hlevlt⟩ := validCounts_pos hv _ (List.get_mem cs level hlevlt)
      have hBle : (cs.drop level).sum ≤ es.length := hsum ▸ sum_drop_le cs level
      have hmono : (cs.drop (level + n + 1)).sum ≤ (cs.drop (level + 1)).sum :=
        sum_drop_le_of_le cs (by omega)
      have hmono2 : (cs.drop (level + (n + 1))).sum ≤ (cs.drop (level + 1)).sum :=
        sum_drop_le_of_le cs (by omega)
      have hdata := getLevel_canonLevels cs es hsum level
      have hdlen : ((seg es ((cs.drop (level + 1)).sum) ((cs.drop level).sum)).flatten).length =
          txEntrySize * ((cs.drop level).sum - (cs.drop (level + 1)).sum) :=
        length_flatten_seg h16 hBle
      have hne : (seg es ((cs.drop (level + 1)).sum) ((cs.drop level).sum)).flatten ≠ [] := by
        intro hc
        rw [hc] at hdlen
        simp only [List.length_nil, txEntrySize] at hdlen
        omega
      have hnum : ((seg es ((cs.drop (level + 1)).sum) ((cs.drop level).sum)).flatten).length /
          txEntrySize = (cs.drop level).sum - (cs.drop (level + 1)).sum := by
        rw [hdlen]
        exact Nat.mul_div_cancel_left _ (by simp [txEntrySize])
      obtain ⟨pA, hrun, hform⟩ := ih (level + 1)
        (pset (pset p level ((seg es ((cs.drop (level + 1)).sum)
          ((cs.drop level).sum)).flatten)) level [])
        (by omega) (by rw [show level + 1 + n + 1 = level + (n + 1) + 1 by omega]; exact hlo)
        (by rw [show level + 1 + n = level + (n + 1) by omega]; exact hhi)
      refine ⟨pA, ?_, ?_⟩
      · rw [removePhaseA, hdata, dif_neg hne, hnum, if_pos (by omega), dif_pos (by omega)]
        rw [show (cs.drop level).sum - M - ((cs.drop level).sum - (cs.drop (level + 1)).sum) =
          (cs.drop (level + 1)).sum - M by omega]
        rw [hrun]
        rw [show level + 1 + n = level + (n + 1) by omega]
      · intro l
        rw [hform l, pget_pset, pget_pset]
        by_cases h1 : level + 1 ≤ l ∧ l < level + 1 + n
        · rw [if_pos h1, if_pos (by omega)]
        · rw [if_neg h1]
          by_cases h2 : l = level + 1 + n
          · rw [if_pos h2, if_neg (by omega),
              if_pos (by omega : l = level + (n + 1)),
              show level + 1 + n + 1 = level + (n + 1) + 1 by omega]
          · rw [if_neg h2]
            by_cases h3 : l = level
            · rw [if_pos h3, if_pos (by omega)]
            · rw [if_neg h3, if_neg h3, if_neg (by omega), if_neg (by omega)]

theorem removePhaseA_err (cs : List Nat) (es : List (List Nat))
    (hv : validCounts cs = true) (h16 : ∀ e ∈ es, e.length = txEntrySize)
    (hsum : cs.sum = es.length) :
    ∀ (fuel level : Nat) (p : Pending) (numRem : Nat), cs.length ≤ level + fuel →
    (cs.drop level).sum < numRem →
    removePhaseA (canonLevels cs es) level numRem p =
      .error (.assertError "dbRemoveAddrIndexEntries not enough entries to delete") := by
  intro fuel
  induction fuel with
  | zero =>
      intro level p numRem hlen hbig
      rw [removePhaseA, dif_pos (getLevel_canonLevels_ge cs es (by omega))]
  | succ fuel ih =>
      intro level p numRem hlen hbig
      by_cases hlev : level < cs.length
      · have hAB := sum_drop_get cs level hlev
        have hcpos : 0 < cs.get ⟨level, hlev⟩ := validCounts_pos hv _ (List.get_mem cs level hlev)
        have hBle : (cs.drop level).sum ≤ es.length := hsum ▸ sum_drop_le cs level
        have hdata := getLevel_canonLevels cs es hsum level
        have hdlen : ((seg es ((cs.drop (level + 1)).sum) ((cs.drop level).sum)).flatten).length =
            txEntrySize * ((cs.drop level).sum - (cs.drop (level + 1)).sum) :=
          length_flatten_seg h16 hBle
        have hne : (seg es ((cs.drop (level + 1)).sum) ((cs.drop level).sum)).flatten ≠ [] := by
          intro hc
          rw [hc] at hdlen
          simp only [List.length_nil, txEntrySize] at hdlen
          omega
        have hnum : ((seg es ((cs.drop (level + 1)).sum) ((cs.drop level).sum)).flatten).length /
            txEntrySize = (cs.drop level).sum - (cs.drop (level + 1)).sum := by
          rw [hdlen]
          exact Nat.mul_div_cancel_left _ (by simp [txEntrySize])
        rw [removePhaseA, hdata, dif_neg hne, hnum, if_pos (by omega), dif_pos (by omega)]
        exact ih (level + 1) _ _ (by omega) (by omega)
      · rw [removePhaseA, dif_pos (getLevel_canonLevels_ge cs es (by omega))]

/-! ## Phase C of the delete path -/

theorem removePhaseC_base (p : Pending) (curLevelData : List Nat) (curMax L0E : Nat) :
    removePhaseC p curLevelData curMax L0E 0 = (p, curLevelData, L0E) := rfl

theorem removePhaseC_succ (p : Pending) (curLevelData : List Nat) (curMax L0E v : Nat) :
    removePhaseC p curLevelData curMax L0E (v + 1) =
      if curLevelData.length / txEntrySize < curMax / 2 + minEntriesToReachLevel v then
        removePhaseC (pset p (v + 1) []) curLevelData (curMax / 2) (v + 1) v
      else
        removePhaseC (pset p (v + 1) (curLevelData.take
            ((if curMax + minEntriesToReachLevel v ≤ curLevelData.length / txEntrySize then
              curMax else curMax / 2) * txEntrySize)))
          (curLevelData.drop
            ((if curMax + minEntriesToReachLevel v ≤ curLevelData.length / txEntrySize then
              curMax else curMax / 2) * txEntrySize))
          (curMax / 2) L0E v := rfl

theorem removePhaseC_spec (es : List (List Nat)) (h16 : ∀ e ∈ es, e.length = txEntrySize)
    (M : Nat) (hM : M ≤ es.length) :
    ∀ (v a : Nat) (p : Pending) (L0E : Nat), a ≤ M → M - a < 16 * 2 ^ v - 7 →
    ∃ cs2, validCounts cs2 = true ∧ cs2.sum + a = M ∧ cs2.length ≤ v + 1 ∧
      (8 * 2 ^ v - 7 ≤ M - a → cs2.length = v + 1) ∧
      (removePhaseC p ((seg es a M).flatten) (8 * 2 ^ v) L0E v).2.1 =
        (seg es (a + (cs2.drop 1).sum) M).flatten ∧
      (a ≠ M → (removePhaseC p ((seg es a M).flatten) (8 * 2 ^ v) L0E v).2.2 =
        if cs2.length = v + 1 then L0E else cs2.length) ∧
      (∀ l, pget (removePhaseC p ((seg es a M).flatten) (8 * 2 ^ v) L0E v).1 l =
        if 1 ≤ l ∧ l < cs2.length then
          some ((seg es (a + (cs2.drop (l + 1)).sum) (a + (cs2.drop l).sum)).flatten)
        else if 1 ≤ l ∧ l ≤ v then some []
        else pget p l) := by
  intro v
  induction v with
  | zero =>
      intro a p L0E ha hn
      simp only [pow_zero] at hn
      rw [removePhaseC_base]
      by_cases haM : a = M
      · refine ⟨[], rfl, by simpa using haM, by simp, ?_, by simp, ?_, ?_⟩
        · intro h
          exfalso
          simp only [pow_zero] at h
          omega
        · intro h
          exact absurd haM h
        · intro l
          rw [if_neg (by simp only [List.length_nil]; omega), if_neg (by omega)]
      · refine ⟨[M - a], ?_, ?_, by simp, ?_, by simp, ?_, ?_⟩
        · simp only [validCounts, validDigits, Bool.and_eq_true, decide_eq_true_eq]
          exact ⟨⟨by omega, by omega⟩, trivial⟩
        · simp only [List.sum_cons, List.sum_nil]
          omega
        · intro _
          simp
        · intro _
          simp
        · intro l
          rw [if_neg (by simp only [List.length_singleton]; omega), if_neg (by omega)]
  | succ v ih =>
      intro a p L0E ha hn
      have hT : 0 < 2 ^ v := Nat.pos_pow_of_pos v (by omega)
      have hpow : (2 : Nat) ^ (v + 1) = 2 * 2 ^ v := by rw [pow_succ]; ring
      have hlen : ((seg es a M).flatten).length = txEntrySize * (M - a) :=
        length_flatten_seg h16 hM
      have hnum : ((seg es a M).flatten).length / txEntrySize = M - a := by
        rw [hlen]
        exact Nat.mul_div_cancel_left _ (by simp [txEntrySize])
      have hprev : 8 * 2 ^ (v + 1) / 2 = 8 * 2 ^ v := by omega
      by_cases hclear : M - a < 16 * 2 ^ v - 7
      · -- not enough entries to keep this level: clear it and move everything up
        have hstep : removePhaseC p ((seg es a M).flatten) (8 * 2 ^ (v + 1)) L0E (v + 1) =
            removePhaseC (pset p (v + 1) []) ((seg es a M).flatten) (8 * 2 ^ v) (v + 1) v := by
          rw [removePhaseC_succ,
            if_pos (by rw [hnum, minEntriesToReachLevel_eq]; omega), hprev]
        obtain ⟨cs2, hval, hsum2, hlen2, hreach2, hrem2, hle2, hpget2⟩ :=
          ih a (pset p (v + 1) []) (v + 1) ha (by omega)
        refine ⟨cs2, hval, hsum2, by omega, ?_, ?_, ?_, ?_⟩
        · intro h
          exfalso
          omega
        · rw [hstep]
          exact hrem2
        · intro haM
          rw [hstep, if_neg (by omega)]
          by_cases hL : cs2.length = v + 1
          · rw [hle2 haM, if_pos hL, hL]
          · rw [hle2 haM, if_neg hL]
        · intro l
          rw [hstep, hpget2 l]
          by_cases c1 : 1 ≤ l ∧ l < cs2.length
          · rw [if_pos c1, if_pos c1]
          · rw [if_neg c1, if_neg c1]
            by_cases c2 : 1 ≤ l ∧ l ≤ v
            · rw [if_pos c2, if_pos (by omega)]
            · rw [if_neg c2]
              by_cases c3 : 1 ≤ l ∧ l ≤ v + 1
              · rw [if_pos c3, pget_pset, if_pos (by omega)]
              · rw [if_neg c3, pget_pset, if_neg (by omega)]
      · -- keep this level: assign it a full or half load
        have main : ∀ t : Nat,
            removePhaseC p ((seg es a M).flatten) (8 * 2 ^ (v + 1)) L0E (v + 1) =
              removePhaseC (pset p (v + 1) ((seg es a (a + t)).flatten))
                ((seg es (a + t) M).flatten) (8 * 2 ^ v) L0E v →
            (t = 4 * 2 ^ (v + 1) ∨ t = 8 * 2 ^ (v + 1)) →
            t ≤ M - a → M - (a + t) < 16 * 2 ^ v - 7 → 8 * 2 ^ v - 7 ≤ M - (a + t) →
            ∃ cs2, validCounts cs2 = true ∧ cs2.sum + a = M ∧ cs2.length ≤ v + 1 + 1 ∧
              (8 * 2 ^ (v + 1) - 7 ≤ M - a → cs2.length = v + 1 + 1) ∧
              (removePhaseC p ((seg es a M).flatten) (8 * 2 ^ (v + 1)) L0E (v + 1)).2.1 =
                (seg es (a + (cs2.drop 1).sum) M).flatten ∧
              (a ≠ M → (removePhaseC p ((seg es a M).flatten) (8 * 2 ^ (v + 1)) L0E
                  (v + 1)).2.2 =
                if cs2.length = v + 1 + 1 then L0E else cs2.length) ∧
              (∀ l, pget (removePhaseC p ((seg es a M).flatten) (8 * 2 ^ (v + 1)) L0E
                  (v + 1)).1 l =
                if 1 ≤ l ∧ l < cs2.length then
                  some ((seg es (a + (cs2.drop (l + 1)).sum) (a + (cs2.drop l).sum)).flatten)
                else if 1 ≤ l ∧ l ≤ v + 1 then some []
                else pget p l) := by
          intro t hstep htval htle hlt hge
          obtain ⟨cs2, hval, hsum2, hlen2, hreach2, hrem2, hle2, hpget2⟩ :=
            ih (a + t) (pset p (v + 1) ((seg es a (a + t)).flatten)) L0E (by omega) hlt
          have hlenf : cs2.length = v + 1 := hreach2 hge
          have hcsne : cs2 ≠ [] := by
            intro hc
            rw [hc] at hlenf
            simp at hlenf
          refine ⟨cs2 ++ [t], ?_, ?_, ?_, ?_, ?_, ?_, ?_⟩
          · refine validCounts_join hval hcsne ?_
            rw [hlenf]
            exact validDigits_single htval
          · rw [List.sum_append]
            simp only [List.sum_cons, List.sum_nil]
            omega
          · simp [hlenf]
          · intro _
            simp [hlenf]
          · have hidx : a + (((cs2 ++ [t]).drop 1).sum) = a + t + ((cs2.drop 1).sum) := by
              rw [List.drop_append_of_le_length (by omega), List.sum_append]
              simp only [List.sum_cons, List.sum_nil]
              omega
            rw [hstep, hrem2, hidx]
          · intro haM
            rw [hstep, hle2 (by omega), if_pos hlenf,
              if_pos (by simp [hlenf])]
          · intro l
            rw [hstep, hpget2 l]
            by_cases c1 : 1 ≤ l ∧ l < cs2.length
            · rw [if_pos c1, if_pos (by simp only [List.length_append,
                List.length_singleton]; omega)]
              have hd1 : (cs2 ++ [t]).drop (l + 1) = cs2.drop (l + 1) ++ [t] :=
                List.drop_append_of_le_length (by omega)
              have hd2 : (cs2 ++ [t]).drop l = cs2.drop l ++ [t] :=
                List.drop_append_of_le_length (by omega)
              rw [hd1, hd2, List.sum_append, List.sum_append]
              rw [show a + ((cs2.drop (l + 1)).sum + ([t] : List Nat).sum) =
                  a + t + (cs2.drop (l + 1)).sum by
                    simp only [List.sum_cons, List.sum_nil]; omega,
                show a + ((cs2.drop l).sum + ([t] : List Nat).sum) =
                  a + t + (cs2.drop l).sum by
                    simp only [List.sum_cons, List.sum_nil]; omega]
            · by_cases c2 : l = v + 1
              · subst c2
                rw [if_neg c1, if_neg (by omega), pget_pset, if_pos rfl,
                  if_pos (by simp only [List.length_append, List.length_singleton]; omega)]
                have hd1 : (cs2 ++ [t]).drop (v + 1 + 1) = [] := by
                  apply List.drop_eq_nil_of_le
                  simp [hlenf]
                have hd2 : (cs2 ++ [t]).drop (v + 1) = [t] := by
                  rw [← hlenf, List.drop_left]
                rw [hd1, hd2]
                simp
              · rw [if_neg c1, if_neg (by omega), pget_pset, if_neg c2,
                  if_neg (by simp only [List.length_append, List.length_singleton]; omega),
                  if_neg (by omega)]
        by_cases hfull : 24 * 2 ^ v - 7 ≤ M - a
        · -- the level takes a full load
          have htake : ((seg es a M).flatten).take (8 * 2 ^ (v + 1) * txEntrySize) =
              (seg es a (a + 8 * 2 ^ (v + 1))).flatten := by
            rw [flatten_take_entries (fun e he => h16 e (mem_seg he)),
              seg_take es _ (by omega)]
          have hdrop : ((seg es a M).flatten).drop (8 * 2 ^ (v + 1) * txEntrySize) =
              (seg es (a + 8 * 2 ^ (v + 1)) M).flatten := by
            rw [flatten_drop_entries (fun e he => h16 e (mem_seg he)), seg_drop]
          have hstep : removePhaseC p ((seg es a M).flatten) (8 * 2 ^ (v + 1)) L0E (v + 1) =
              removePhaseC (pset p (v + 1) ((seg es a (a + 8 * 2 ^ (v + 1))).flatten))
                ((seg es (a + 8 * 2 ^ (v + 1)) M).flatten) (8 * 2 ^ v) L0E v := by
            rw [removePhaseC_succ,
              if_neg (by rw [hnum, minEntriesToReachLevel_eq, hprev]; omega),
              if_pos (by rw [hnum, minEntriesToReachLevel_eq]; omega),
              htake, hdrop, hprev]
          exact main (8 * 2 ^ (v + 1)) hstep (Or.inr rfl) (by omega) (by omega) (by omega)
        · -- the level takes a half load
          have htake : ((seg es a M).flatten).take (8 * 2 ^ v * txEntrySize) =
              (seg es a (a + 8 * 2 ^ v)).flatten := by
            rw [flatten_take_entries (fun e he => h16 e (mem_seg he)),
              seg_take es _ (by omega)]
          have hdrop : ((seg es a M).flatten).drop (8 * 2 ^ v * txEntrySize) =
              (seg es (a + 8 * 2 ^ v) M).flatten := by
            rw [flatten_drop_entries (fun e he => h16 e (mem_seg he)), seg_drop]
          have hstep : removePhaseC p ((seg es a M).flatten) (8 * 2 ^ (v + 1)) L0E (v + 1) =
              removePhaseC (pset p (v + 1) ((seg es a (a + 8 * 2 ^ v)).flatten))
                ((seg es (a + 8 * 2 ^ v) M).flatten) (8 * 2 ^ v) L0E v := by
            rw [removePhaseC_succ,
              if_neg (by rw [hnum, minEntriesToReachLevel_eq, hprev]; omega),
              if_neg (by rw [hnum, minEntriesToReachLevel_eq]; omega),
              hprev, htake, hdrop]
          exact main (8 * 2 ^ v) hstep
            (Or.inl (by rw [hpow]; ring)) (by omega) (by omega) (by omega)
/-! ## The backfill split loop of phase D -/

theorem backfillSplit_spec (es : List (List Nat))
    (h16 : ∀ e ∈ es, e.length = txEntrySize) :
    ∀ (n LE : Nat) (p : Pending) (x y : Nat), y ≤ es.length →
    x + 8 * 2 ^ (LE + n) = y →
    ∀ l, pget (backfillSplit p ((seg es x y).flatten) (8 * 2 ^ (LE + n)) LE (LE + n)) l =
      if LE < l ∧ l ≤ LE + n then some ((seg es (y - 8 * 2 ^ l) (y - 4 * 2 ^ l)).flatten)
      else if l = LE ∧ 0 < n then some ((seg es (y - 8 * 2 ^ LE) y).flatten)
      else pget p l := by
  intro n
  induction n with
  | zero =>
      intro LE p x y hy hx l
      rw [backfillSplit, if_neg (by omega), if_neg (by omega), if_neg (by omega)]
  | succ n ih =>
      intro LE p x y hy hx l
      have hp2 : (2 : Nat) ^ (LE + (n + 1)) = 2 * 2 ^ (LE + n) := by
        rw [show LE + (n + 1) = (LE + n) + 1 from rfl, pow_succ]
        ring
      have hT : 0 < 2 ^ (LE + n) := Nat.pos_pow_of_pos _ (by omega)
      have hhalf : 8 * 2 ^ (LE + (n + 1)) / 2 = 8 * 2 ^ (LE + n) := by omega
      have htake : ((seg es x y).flatten).take (8 * 2 ^ (LE + n) * txEntrySize) =
          (seg es x (x + 8 * 2 ^ (LE + n))).flatten := by
        rw [flatten_take_entries (fun e he => h16 e (mem_seg he)),
          seg_take es _ (by omega)]
      have hdrop : ((seg es x y).flatten).drop (8 * 2 ^ (LE + n) * txEntrySize) =
          (seg es (x + 8 * 2 ^ (LE + n)) y).flatten := by
        rw [flatten_drop_entries (fun e he => h16 e (mem_seg he)), seg_drop]
      have hunfold : backfillSplit p ((seg es x y).flatten) (8 * 2 ^ (LE + (n + 1))) LE
          (LE + (n + 1)) =
          backfillSplit
            (pset (pset p (LE + (n + 1)) ((seg es x (x + 8 * 2 ^ (LE + n))).flatten))
              (LE + n) ((seg es (x + 8 * 2 ^ (LE + n)) y).flatten))
            ((seg es (x + 8 * 2 ^ (LE + n)) y).flatten) (8 * 2 ^ (LE + n)) LE (LE + n) := by
        rw [backfillSplit, if_pos (by omega), hhalf]
        have e1 : LE + (n + 1) - 1 = LE + n := by omega
        simp only [e1, htake, hdrop]
      rw [hunfold, ih LE _ (x + 8 * 2 ^ (LE + n)) y hy (by omega) l]
      by_cases cA : LE < l ∧ l ≤ LE + n
      · rw [if_pos cA, if_pos (by omega)]
      · rw [if_neg cA]
        by_cases cB : l = LE + (n + 1)
        · subst cB
          rw [if_neg (by omega), pget_pset, if_neg (by omega), pget_pset, if_pos rfl,
            if_pos (by omega)]
          have i1 : y - 8 * 2 ^ (LE + (n + 1)) = x := by omega
          have i2 : y - 4 * 2 ^ (LE + (n + 1)) = x + 8 * 2 ^ (LE + n) := by omega
          rw [i1, i2]
        · by_cases cC : l = LE
          · subst cC
            by_cases cn : 0 < n
            · rw [if_pos ⟨rfl, cn⟩, if_neg (by omega), if_pos ⟨rfl, by omega⟩]
            · have hn0 : n = 0 := by omega
              subst hn0
              rw [if_neg (by omega), pget_pset, if_pos (by omega), if_neg (by omega),
                if_pos ⟨rfl, by omega⟩]
              have i3 : x + 8 * 2 ^ (l + 0) = y - 8 * 2 ^ l := by
                have hz : (2 : Nat) ^ (l + 0) = 2 ^ l := by rw [Nat.add_zero]
                omega
              rw [i3]
          · rw [if_neg (by omega), pget_pset, if_neg (by omega), pget_pset,
              if_neg (by omega), if_neg (by omega), if_neg (by omega)]
/-! ## The profile produced by backfilling: one full level under a run of halves -/

theorem validDigits_fullhalves (LE n : Nat) :
    validDigits LE (8 * 2 ^ LE :: ((List.range' (LE + 1) n).map fun t => 4 * 2 ^ t)) = true := by
  simp only [validDigits, Bool.and_eq_true, Bool.or_eq_true, beq_iff_eq]
  exact ⟨Or.inr trivial, validDigits_halves n (LE + 1)⟩

theorem validCounts_padded (ps : List Nat) (hpv : validCounts ps = true) (n : Nat) :
    validCounts (ps ++ 8 * 2 ^ ps.length ::
      ((List.range' (ps.length + 1) n).map fun t => 4 * 2 ^ t)) = true := by
  match ps, hpv with
  | [], _ =>
      simp only [List.nil_append, List.length_nil]
      simp only [validCounts, Bool.and_eq_true, decide_eq_true_eq]
      refine ⟨⟨by norm_num, by norm_num⟩, ?_⟩
      rw [Nat.zero_add]
      exact validDigits_halves n 1
  | c :: ds, hpv =>
      exact validCounts_join hpv (by simp) (validDigits_fullhalves (c :: ds).length n)

theorem qs_sum (LE n : Nat) :
    (8 * 2 ^ LE :: ((List.range' (LE + 1) n).map fun t => 4 * 2 ^ t)).sum =
      4 * 2 ^ (LE + 1 + n) := by
  rw [List.sum_cons]
  have hS := sum_halves n (LE + 1)
  have hL : (2 : Nat) ^ (LE + 1) = 2 * 2 ^ LE := by rw [pow_succ]; ring
  omega

theorem qs_drop_sum (LE n i : Nat) (hi : 1 ≤ i) (hin : i ≤ n + 1) :
    ((8 * 2 ^ LE :: ((List.range' (LE + 1) n).map fun t => 4 * 2 ^ t)).drop i).sum
      + 4 * 2 ^ (LE + i) = 4 * 2 ^ (LE + 1 + n) := by
  obtain ⟨j, rfl⟩ : ∃ j, i = j + 1 := ⟨i - 1, by omega⟩
  rw [List.drop_succ_cons, halves_drop n (LE + 1) j (by omega)]
  have hS := sum_halves (n - j) (LE + 1 + j)
  rw [show LE + 1 + j + (n - j) = LE + 1 + n by omega] at hS
  rw [show LE + (j + 1) = LE + 1 + j by omega]
  omega

theorem qs_length (LE n : Nat) :
    (8 * 2 ^ LE :: ((List.range' (LE + 1) n).map fun t => 4 * 2 ^ t)).length = n + 1 := by
  simp

theorem validCounts_get_ge1 {cs : List Nat} (hv : validCounts cs = true) {l : Nat}
    (hl : l < cs.length) (h1 : 1 ≤ l) :
    cs.get ⟨l, hl⟩ = 4 * 2 ^ l ∨ cs.get ⟨l, hl⟩ = 8 * 2 ^ l := by
  cases cs with
  | nil => simp at hl
  | cons c0 ds =>
      rw [validCounts, Bool.and_eq_true] at hv
      obtain ⟨i, rfl⟩ : ∃ i, l = i + 1 := ⟨l - 1, by omega⟩
      have hi : i < ds.length := by simpa using hl
      have := validDigits_get hv.2 i hi
      rw [show (1 : Nat) + i = i + 1 by omega] at this
      simpa using this

/-! ## Phase D of the delete path on canonical states -/

theorem removePhaseD_spec (cs : List Nat) (es : List (List Nat))
    (hv : validCounts cs = true) (h16 : ∀ e ∈ es, e.length = txEntrySize)
    (hsum : cs.sum = es.length) (M : Nat) (hM : M ≤ es.length) :
    ∀ (fuel h : Nat) (ps : List Nat) (p : Pending),
    cs.length ≤ h + fuel →
    validCounts ps = true → ps.sum + (cs.drop (h + 1)).sum = M → ps.length ≤ h →
    (∀ l, pget p l =
      if l < ps.length then
        some ((seg es ((cs.drop (h + 1)).sum + (ps.drop (l + 1)).sum)
          ((cs.drop (h + 1)).sum + (ps.drop l).sum)).flatten)
      else if l ≤ h then some []
      else none) →
    ∃ hF psF, h ≤ hF ∧ validCounts psF = true ∧
      psF.sum + (cs.drop (hF + 1)).sum = M ∧ psF.length ≤ hF + 1 ∧
      (cs.length ≤ hF + 1 ∨ psF.length = hF + 1) ∧
      (∀ l, pget (removePhaseD (canonLevels cs es) p h ps.length) l =
        if l < psF.length then
          some ((seg es ((cs.drop (hF + 1)).sum + (psF.drop (l + 1)).sum)
            ((cs.drop (hF + 1)).sum + (psF.drop l).sum)).flatten)
        else if l ≤ hF then some []
        else none) := by
  intro fuel
  induction fuel with
  | zero =>
      intro h ps p hfl hpv hpsum hpl hbind
      have hc : pgetD p h = [] := by
        rw [pgetD, hbind h, if_neg (by omega), if_pos (by omega)]
        rfl
      have hemp : getLevel (canonLevels cs es) (h + 1) = [] :=
        getLevel_canonLevels_ge cs es (by omega)
      refine ⟨h, ps, le_refl _, hpv, hpsum, by omega, Or.inl (by omega), ?_⟩
      intro l
      rw [removePhaseD, if_pos hc, dif_pos hemp]
      exact hbind l
  | succ fuel ih =>
      intro h ps p hfl hpv hpsum hpl hbind
      have hc : pgetD p h = [] := by
        rw [pgetD, hbind h, if_neg (by omega), if_pos (by omega)]
        rfl
      by_cases hemp : getLevel (canonLevels cs es) (h + 1) = []
      · have htop : cs.length ≤ h + 1 := by
          by_contra hcon
          have hlt : h + 1 < cs.length := by omega
          have hlen := length_getLevel_canonLevels cs es h16 hsum hlt
          have hpos : 0 < cs.get ⟨h + 1, hlt⟩ :=
            validCounts_pos hv _ (List.get_mem cs (h + 1) hlt)
          rw [hemp] at hlen
          simp only [List.length_nil, txEntrySize] at hlen
          omega
        refine ⟨h, ps, le_refl _, hpv, hpsum, by omega, Or.inl htop, ?_⟩
        intro l
        rw [removePhaseD, if_pos hc, dif_pos hemp]
        exact hbind l
      · -- the level above the highest loaded one still has data: pull it down
        have hlt : h + 1 < cs.length := by
          by_contra hcon
          exact hemp (getLevel_canonLevels_ge cs es (by omega))
        have hAB := sum_drop_get cs (h + 1) hlt
        have hBle : (cs.drop (h + 1)).sum ≤ es.length := hsum ▸ sum_drop_le cs (h + 1)
        have hlev := getLevel_canonLevels cs es hsum (h + 1)
        have hdlen : ((seg es ((cs.drop (h + 1 + 1)).sum)
            ((cs.drop (h + 1)).sum)).flatten).length =
            txEntrySize * ((cs.drop (h + 1)).sum - (cs.drop (h + 1 + 1)).sum) :=
          length_flatten_seg h16 hBle
        have hnum : ((seg es ((cs.drop (h + 1 + 1)).sum)
            ((cs.drop (h + 1)).sum)).flatten).length / txEntrySize =
            (cs.drop (h + 1)).sum - (cs.drop (h + 1 + 1)).sum := by
          rw [hdlen]
          exact Nat.mul_div_cancel_left _ (by simp [txEntrySize])
        have hdig := validCounts_get_ge1 hv hlt (by omega)
        have hpw : (2 : Nat) ^ (h + 1) = 2 * 2 ^ h := by rw [pow_succ]; ring
        have hTh : 0 < 2 ^ h := Nat.pos_pow_of_pos _ (by omega)
        have hmax : maxEntriesForLevel (h + 1) = 8 * 2 ^ (h + 1) := by
          simp [maxEntriesForLevel, level0MaxEntries]
        obtain ⟨n, rfl⟩ : ∃ n, h = ps.length + n := ⟨h - ps.length, by omega⟩
        rcases hdig with hhalf | hfull
        · -- the pulled level is half full: move it down one level and backfill
          have hcond : (getLevel (canonLevels cs es) (ps.length + n + 1)).length /
              txEntrySize ≠ maxEntriesForLevel (ps.length + n + 1) := by
            rw [hlev, hnum, hmax]
            omega
          have hmaxhalf : maxEntriesForLevel (ps.length + n + 1) / 2 =
              8 * 2 ^ (ps.length + n) := by
            rw [hmax]
            omega
          have hx : (cs.drop (ps.length + n + 1 + 1)).sum + 8 * 2 ^ (ps.length + n) =
              (cs.drop (ps.length + n + 1)).sum := by
            omega
          have hbf := backfillSplit_spec es h16 n ps.length
            (pset (pset (pset p (ps.length + n + 1)
                ((seg es ((cs.drop (ps.length + n + 1 + 1)).sum)
                  ((cs.drop (ps.length + n + 1)).sum)).flatten))
              (ps.length + n + 1) [])
              (ps.length + n) ((seg es ((cs.drop (ps.length + n + 1 + 1)).sum)
                ((cs.drop (ps.length + n + 1)).sum)).flatten))
            ((cs.drop (ps.length + n + 1 + 1)).sum) ((cs.drop (ps.length + n + 1)).sum)
            hBle hx
          have hunfold : removePhaseD (canonLevels cs es) p (ps.length + n) ps.length =
              removePhaseD (canonLevels cs es)
                (backfillSplit
                  (pset (pset (pset p (ps.length + n + 1)
                      ((seg es ((cs.drop (ps.length + n + 1 + 1)).sum)
                        ((cs.drop (ps.length + n + 1)).sum)).flatten))
                    (ps.length + n + 1) [])
                    (ps.length + n) ((seg es ((cs.drop (ps.length + n + 1 + 1)).sum)
                      ((cs.drop (ps.length + n + 1)).sum)).flatten))
                  ((seg es ((cs.drop (ps.length + n + 1 + 1)).sum)
                    ((cs.drop (ps.length + n + 1)).sum)).flatten)
                  (8 * 2 ^ (ps.length + n)) ps.length (ps.length + n))
                (ps.length + n + 1) (ps.length + n + 1) := by
            rw [removePhaseD, if_pos hc, dif_neg hemp, if_pos hcond, if_pos hcond,
              if_pos hcond, hmaxhalf, hlev,
              show ps.length + n + 1 - 1 = ps.length + n from rfl]
          have hlen0 : (ps ++ 8 * 2 ^ ps.length ::
              ((List.range' (ps.length + 1) n).map fun t => 4 * 2 ^ t)).length =
              ps.length + (n + 1) := by
            rw [List.length_append, qs_length]
          have hlen_new : (ps ++ 8 * 2 ^ ps.length ::
              ((List.range' (ps.length + 1) n).map fun t => 4 * 2 ^ t)).length =
              ps.length + n + 1 := by omega
          have hval_new := validCounts_padded ps hpv n
          have hqsum := qs_sum ps.length n
          have hpw2 : (2 : Nat) ^ (ps.length + 1 + n) = 2 ^ (ps.length + n + 1) := by
            rw [show ps.length + 1 + n = ps.length + n + 1 by omega]
          have hsum_new : (ps ++ 8 * 2 ^ ps.length ::
              ((List.range' (ps.length + 1) n).map fun t => 4 * 2 ^ t)).sum +
              (cs.drop (ps.length + n + 1 + 1)).sum = M := by
            rw [List.sum_append, hqsum]
            omega
          have hbind_new : ∀ l, pget (backfillSplit
              (pset (pset (pset p (ps.length + n + 1)
                  ((seg es ((cs.drop (ps.length + n + 1 + 1)).sum)
                    ((cs.drop (ps.length + n + 1)).sum)).flatten))
                (ps.length + n + 1) [])
                (ps.length + n) ((seg es ((cs.drop (ps.length + n + 1 + 1)).sum)
                  ((cs.drop (ps.length + n + 1)).sum)).flatten))
              ((seg es ((cs.drop (ps.length + n + 1 + 1)).sum)
                ((cs.drop (ps.length + n + 1)).sum)).flatten)
              (8 * 2 ^ (ps.length + n)) ps.length (ps.length + n)) l =
              if l < (ps ++ 8 * 2 ^ ps.length ::
                  ((List.range' (ps.length + 1) n).map fun t => 4 * 2 ^ t)).length then
                some ((seg es ((cs.drop (ps.length + n + 1 + 1)).sum +
                    (((ps ++ 8 * 2 ^ ps.length ::
                      ((List.range' (ps.length + 1) n).map fun t => 4 * 2 ^ t)).drop
                        (l + 1)).sum))
                  ((cs.drop (ps.length + n + 1 + 1)).sum +
                    (((ps ++ 8 * 2 ^ ps.length ::
                      ((List.range' (ps.length + 1) n).map fun t => 4 * 2 ^ t)).drop
                        l).sum))).flatten)
              else if l ≤ ps.length + n + 1 then some []
              else none := by
            intro l
            rw [hbf l]
            by_cases cA : ps.length < l ∧ l ≤ ps.length + n
            · rw [if_pos cA, if_pos (by omega)]
              obtain ⟨i1, hi1⟩ : ∃ i1, l + 1 = ps.length + i1 := ⟨l + 1 - ps.length, by omega⟩
              obtain ⟨i2, hi2⟩ : ∃ i2, l = ps.length + i2 := ⟨l - ps.length, by omega⟩
              have hd1 : ((ps ++ 8 * 2 ^ ps.length ::
                  ((List.range' (ps.length + 1) n).map fun t => 4 * 2 ^ t)).drop (l + 1)) =
                  ((8 * 2 ^ ps.length ::
                    ((List.range' (ps.length + 1) n).map fun t => 4 * 2 ^ t)).drop i1) := by
                rw [hi1, List.drop_append]
              have hd2 : ((ps ++ 8 * 2 ^ ps.length ::
                  ((List.range' (ps.length + 1) n).map fun t => 4 * 2 ^ t)).drop l) =
                  ((8 * 2 ^ ps.length ::
                    ((List.range' (ps.length + 1) n).map fun t => 4 * 2 ^ t)).drop i2) := by
                rw [hi2, List.drop_append]
              have hq1 := qs_drop_sum ps.length n i1 (by omega) (by omega)
              have hq2 := qs_drop_sum ps.length n i2 (by omega) (by omega)
              rw [show ps.length + i1 = l + 1 by omega] at hq1
              rw [show ps.length + i2 = l by omega] at hq2
              have h2l : (2 : Nat) ^ (l + 1) = 2 * 2 ^ l := by rw [pow_succ]; ring
              have hTl : 0 < 2 ^ l := Nat.pos_pow_of_pos _ (by omega)
              rw [hd1, hd2,
                show (cs.drop (ps.length + n + 1 + 1)).sum +
                    ((8 * 2 ^ ps.length ::
                      ((List.range' (ps.length + 1) n).map fun t => 4 * 2 ^ t)).drop
                        i1).sum =
                  (cs.drop (ps.length + n + 1)).sum - 8 * 2 ^ l by omega,
                show (cs.drop (ps.length + n + 1 + 1)).sum +
                    ((8 * 2 ^ ps.length ::
                      ((List.range' (ps.length + 1) n).map fun t => 4 * 2 ^ t)).drop
                        i2).sum =
                  (cs.drop (ps.length + n + 1)).sum - 4 * 2 ^ l by omega]
            · rw [if_neg cA]
              by_cases cB : l = ps.length
              · subst cB
                by_cases cn : 0 < n
                · rw [if_pos ⟨rfl, cn⟩, if_pos (by omega)]
                  have hd1 : ((ps ++ 8 * 2 ^ ps.length ::
                      ((List.range' (ps.length + 1) n).map fun t => 4 * 2 ^ t)).drop
                        (ps.length + 1)) =
                      ((8 * 2 ^ ps.length ::
                        ((List.range' (ps.length + 1) n).map fun t => 4 * 2 ^ t)).drop 1) :=
                    by rw [List.drop_append]
                  have hd2 : ((ps ++ 8 * 2 ^ ps.length ::
                      ((List.range' (ps.length + 1) n).map fun t => 4 * 2 ^ t)).drop
                        ps.length) =
                      8 * 2 ^ ps.length ::
                        ((List.range' (ps.length + 1) n).map fun t => 4 * 2 ^ t) :=
                    List.drop_left _ _
                  have hq1 := qs_drop_sum ps.length n 1 (by omega) (by omega)
                  have hLL : (2 : Nat) ^ (ps.length + 1) = 2 * 2 ^ ps.length := by
                    rw [pow_succ]; ring
                  have hTL : 0 < 2 ^ ps.length := Nat.pos_pow_of_pos _ (by omega)
                  rw [hd1, hd2,
                    show (cs.drop (ps.length + n + 1 + 1)).sum +
                        ((8 * 2 ^ ps.length ::
                          ((List.range' (ps.length + 1) n).map fun t => 4 * 2 ^ t)).drop
                            1).sum =
                      (cs.drop (ps.length + n + 1)).sum - 8 * 2 ^ ps.length by omega,
                    show (cs.drop (ps.length + n + 1 + 1)).sum +
                        (8 * 2 ^ ps.length ::
                          ((List.range' (ps.length + 1) n).map fun t => 4 * 2 ^ t)).sum =
                      (cs.drop (ps.length + n + 1)).sum by omega]
                · have hn0 : n = 0 := by omega
                  subst hn0
                  rw [if_neg (by omega), pget_pset, if_pos (by omega), if_pos (by omega)]
                  have hd1 : ((ps ++ 8 * 2 ^ ps.length ::
                      ((List.range' (ps.length + 1) 0).map fun t => 4 * 2 ^ t)).drop
                        (ps.length + 1)) = ([] : List Nat) := by
                    rw [List.drop_append]
                    rfl
                  have hd2 : ((ps ++ 8 * 2 ^ ps.length ::
                      ((List.range' (ps.length + 1) 0).map fun t => 4 * 2 ^ t)).drop
                        ps.length) =
                      8 * 2 ^ ps.length ::
                        ((List.range' (ps.length + 1) 0).map fun t => 4 * 2 ^ t) :=
                    List.drop_left _ _
                  rw [hd1, hd2,
                    show (cs.drop (ps.length + 0 + 1 + 1)).sum + (([] : List Nat)).sum =
                      (cs.drop (ps.length + 0 + 1 + 1)).sum by simp,
                    show (cs.drop (ps.length + 0 + 1 + 1)).sum +
                        (8 * 2 ^ ps.length ::
                          ((List.range' (ps.length + 1) 0).map fun t => 4 * 2 ^ t)).sum =
                      (cs.drop (ps.length + 0 + 1)).sum by rw [hqsum]; omega]
              · by_cases cLT : l < ps.length
                · rw [if_neg (by omega), pget_pset, if_neg (by omega), pget_pset,
                    if_neg (by omega), pget_pset, if_neg (by omega), hbind l,
                    if_pos cLT, if_pos (by omega)]
                  have hd1 : ((ps ++ 8 * 2 ^ ps.length ::
                      ((List.range' (ps.length + 1) n).map fun t => 4 * 2 ^ t)).drop
                        (l + 1)) =
                      ps.drop (l + 1) ++ 8 * 2 ^ ps.length ::
                        ((List.range' (ps.length + 1) n).map fun t => 4 * 2 ^ t) :=
                    List.drop_append_of_le_length (by omega)
                  have hd2 : ((ps ++ 8 * 2 ^ ps.length ::
                      ((List.range' (ps.length + 1) n).map fun t => 4 * 2 ^ t)).drop l) =
                      ps.drop l ++ 8 * 2 ^ ps.length ::
                        ((List.range' (ps.length + 1) n).map fun t => 4 * 2 ^ t) :=
                    List.drop_append_of_le_length (by omega)
                  rw [hd1, hd2, List.sum_append, List.sum_append,
                    show (cs.drop (ps.length + n + 1 + 1)).sum + ((ps.drop (l + 1)).sum +
                        (8 * 2 ^ ps.length ::
                          ((List.range' (ps.length + 1) n).map fun t => 4 * 2 ^ t)).sum) =
                      (cs.drop (ps.length + n + 1)).sum + (ps.drop (l + 1)).sum by
                        rw [hqsum]; omega,
                    show (cs.drop (ps.length + n + 1 + 1)).sum + ((ps.drop l).sum +
                        (8 * 2 ^ ps.length ::
                          ((List.range' (ps.length + 1) n).map fun t => 4 * 2 ^ t)).sum) =
                      (cs.drop (ps.length + n + 1)).sum + (ps.drop l).sum by
                        rw [hqsum]; omega]
                · by_cases cTOP : l = ps.length + n + 1
                  · rw [if_neg (by omega), pget_pset, if_neg (by omega), pget_pset,
                      if_pos cTOP, if_neg (by omega), if_pos (by omega)]
                  · rw [if_neg (by omega), pget_pset, if_neg (by omega), pget_pset,
                      if_neg (by omega), pget_pset, if_neg (by omega), hbind l,
                      if_neg (by omega), if_neg (by omega), if_neg (by omega),
                      if_neg (by omega)]
          obtain ⟨hF, psF, hhF, hvF, hsF, hlF, hdichF, hformF⟩ :=
            ih (ps.length + n + 1) (ps ++ 8 * 2 ^ ps.length ::
                ((List.range' (ps.length + 1) n).map fun t => 4 * 2 ^ t)) _
              (by omega) hval_new hsum_new (by omega) hbind_new
          rw [hlen_new] at hformF
          refine ⟨hF, psF, by omega, hvF, hsF, hlF, hdichF, ?_⟩
          intro l
          rw [hunfold]
          exact hformF l
        · -- the pulled level is completely full: keep its top half and backfill below
          have hcond : ¬ ((getLevel (canonLevels cs es) (ps.length + n + 1)).length /
              txEntrySize ≠ maxEntriesForLevel (ps.length + n + 1)) := by
            rw [hlev, hnum, hmax]
            omega
          have hT2 : 0 < 2 ^ (ps.length + n + 1) := Nat.pos_pow_of_pos _ (by omega)
          have epow : (2 : Nat) ^ (ps.length + (n + 1)) = 2 ^ (ps.length + n + 1) := by
            rw [show ps.length + (n + 1) = ps.length + n + 1 by omega]
          have hx : (cs.drop (ps.length + n + 1 + 1)).sum +
              8 * 2 ^ (ps.length + (n + 1)) = (cs.drop (ps.length + n + 1)).sum := by
            omega
          have hbf := backfillSplit_spec es h16 (n + 1) ps.length
            (pset p (ps.length + n + 1)
              ((seg es ((cs.drop (ps.length + n + 1 + 1)).sum)
                ((cs.drop (ps.length + n + 1)).sum)).flatten))
            ((cs.drop (ps.length + n + 1 + 1)).sum) ((cs.drop (ps.length + n + 1)).sum)
            hBle hx
          rw [show ps.length + (n + 1) = ps.length + n + 1 by omega] at hbf
          have hunfold : removePhaseD (canonLevels cs es) p (ps.length + n) ps.length =
              removePhaseD (canonLevels cs es)
                (backfillSplit
                  (pset p (ps.length + n + 1)
                    ((seg es ((cs.drop (ps.length + n + 1 + 1)).sum)
                      ((cs.drop (ps.length + n + 1)).sum)).flatten))
                  ((seg es ((cs.drop (ps.length + n + 1 + 1)).sum)
                    ((cs.drop (ps.length + n + 1)).sum)).flatten)
                  (8 * 2 ^ (ps.length + n + 1)) ps.length (ps.length + n + 1))
                (ps.length + n + 1) (ps.length + n + 1) := by
            rw [removePhaseD, if_pos hc, dif_neg hemp, if_neg hcond, if_neg hcond,
              if_neg hcond, hmax, hlev]
          have hYle : (cs.drop (ps.length + n + 1)).sum -
              4 * 2 ^ (ps.length + n + 1) ≤ es.length := by omega
          have hne2 : pgetD (backfillSplit
              (pset p (ps.length + n + 1)
                ((seg es ((cs.drop (ps.length + n + 1 + 1)).sum)
                  ((cs.drop (ps.length + n + 1)).sum)).flatten))
              ((seg es ((cs.drop (ps.length + n + 1 + 1)).sum)
                ((cs.drop (ps.length + n + 1)).sum)).flatten)
              (8 * 2 ^ (ps.length + n + 1)) ps.length (ps.length + n + 1))
              (ps.length + n + 1) ≠ [] := by
            rw [pgetD, hbf (ps.length + n + 1), if_pos ⟨by omega, by omega⟩,
              Option.getD_some]
            intro hcontra
            have hlenV := length_flatten_seg h16 (a := (cs.drop (ps.length + n + 1)).sum -
              8 * 2 ^ (ps.length + n + 1)) hYle
            rw [hcontra] at hlenV
            simp only [List.length_nil, txEntrySize] at hlenV
            omega
          have hstop : removePhaseD (canonLevels cs es)
              (backfillSplit
                (pset p (ps.length + n + 1)
                  ((seg es ((cs.drop (ps.length + n + 1 + 1)).sum)
                    ((cs.drop (ps.length + n + 1)).sum)).flatten))
                ((seg es ((cs.drop (ps.length + n + 1 + 1)).sum)
                  ((cs.drop (ps.length + n + 1)).sum)).flatten)
                (8 * 2 ^ (ps.length + n + 1)) ps.length (ps.length + n + 1))
              (ps.length + n + 1) (ps.length + n + 1) =
              backfillSplit
                (pset p (ps.length + n + 1)
                  ((seg es ((cs.drop (ps.length + n + 1 + 1)).sum)
                    ((cs.drop (ps.length + n + 1)).sum)).flatten))
                ((seg es ((cs.drop (ps.length + n + 1 + 1)).sum)
                  ((cs.drop (ps.length + n + 1)).sum)).flatten)
                (8 * 2 ^ (ps.length + n + 1)) ps.length (ps.length + n + 1) := by
            rw [removePhaseD, if_neg hne2]
          have hlen0 : (ps ++ 8 * 2 ^ ps.length ::
              ((List.range' (ps.length + 1) (n + 1)).map fun t => 4 * 2 ^ t)).length =
              ps.length + (n + 1 + 1) := by
            rw [List.length_append, qs_length]
          have hqsumF := qs_sum ps.length (n + 1)
          have hpw3 : (2 : Nat) ^ (ps.length + 1 + (n + 1)) = 2 * 2 ^ (ps.length + n + 1) := by
            rw [show ps.length + 1 + (n + 1) = (ps.length + n + 1) + 1 by omega, pow_succ]
            ring
          refine ⟨ps.length + n + 1, ps ++ 8 * 2 ^ ps.length ::
              ((List.range' (ps.length + 1) (n + 1)).map fun t => 4 * 2 ^ t),
            by omega, validCounts_padded ps hpv (n + 1), ?_, by omega,
            Or.inr (by omega), ?_⟩
          · rw [List.sum_append, hqsumF]
            omega
          · intro l
            rw [hunfold, hstop, hbf l]
            by_cases cA : ps.length < l ∧ l ≤ ps.length + n + 1
            · rw [if_pos cA, if_pos (by omega)]
              obtain ⟨i1, hi1⟩ : ∃ i1, l + 1 = ps.length + i1 := ⟨l + 1 - ps.length, by omega⟩
              obtain ⟨i2, hi2⟩ : ∃ i2, l = ps.length + i2 := ⟨l - ps.length, by omega⟩
              have hd1 : ((ps ++ 8 * 2 ^ ps.length ::
                  ((List.range' (ps.length + 1) (n + 1)).map fun t => 4 * 2 ^ t)).drop
                    (l + 1)) =
                  ((8 * 2 ^ ps.length ::
                    ((List.range' (ps.length + 1) (n + 1)).map fun t => 4 * 2 ^ t)).drop
                      i1) := by
                rw [hi1, List.drop_append]
              have hd2 : ((ps ++ 8 * 2 ^ ps.length ::
                  ((List.range' (ps.length + 1) (n + 1)).map fun t => 4 * 2 ^ t)).drop l) =
                  ((8 * 2 ^ ps.length ::
                    ((List.range' (ps.length + 1) (n + 1)).map fun t => 4 * 2 ^ t)).drop
                      i2) := by
                rw [hi2, List.drop_append]
              have hq1 := qs_drop_sum ps.length (n + 1) i1 (by omega) (by omega)
              have hq2 := qs_drop_sum ps.length (n + 1) i2 (by omega) (by omega)
              rw [show ps.length + i1 = l + 1 by omega] at hq1
              rw [show ps.length + i2 = l by omega] at hq2
              have h2l : (2 : Nat) ^ (l + 1) = 2 * 2 ^ l := by rw [pow_succ]; ring
              have hTl : 0 < 2 ^ l := Nat.pos_pow_of_pos _ (by omega)
              rw [hd1, hd2,
                show (cs.drop (ps.length + n + 1 + 1)).sum +
                    ((8 * 2 ^ ps.length ::
                      ((List.range' (ps.length + 1) (n + 1)).map fun t => 4 * 2 ^ t)).drop
                        i1).sum =
                  (cs.drop (ps.length + n + 1)).sum - 8 * 2 ^ l by omega,
                show (cs.drop (ps.length + n + 1 + 1)).sum +
                    ((8 * 2 ^ ps.length ::
                      ((List.range' (ps.length + 1) (n + 1)).map fun t => 4 * 2 ^ t)).drop
                        i2).sum =
                  (cs.drop (ps.length + n + 1)).sum - 4 * 2 ^ l by omega]
            · rw [if_neg cA]
              by_cases cB : l = ps.length
              · subst cB
                rw [if_pos ⟨rfl, by omega⟩, if_pos (by omega)]
                have hd1 : ((ps ++ 8 * 2 ^ ps.length ::
                    ((List.range' (ps.length + 1) (n + 1)).map fun t => 4 * 2 ^ t)).drop
                      (ps.length + 1)) =
                    ((8 * 2 ^ ps.length ::
                      ((List.range' (ps.length + 1) (n + 1)).map fun t => 4 * 2 ^ t)).drop
                        1) :=
                  by rw [List.drop_append]
                have hd2 : ((ps ++ 8 * 2 ^ ps.length ::
                    ((List.range' (ps.length + 1) (n + 1)).map fun t => 4 * 2 ^ t)).drop
                      ps.length) =
                    8 * 2 ^ ps.length ::
                      ((List.range' (ps.length + 1) (n + 1)).map fun t => 4 * 2 ^ t) :=
                  List.drop_left _ _
                have hq1 := qs_drop_sum ps.length (n + 1) 1 (by omega) (by omega)
                have hLL : (2 : Nat) ^ (ps.length + 1) = 2 * 2 ^ ps.length := by
                  rw [pow_succ]; ring
                have hTL : 0 < 2 ^ ps.length := Nat.pos_pow_of_pos _ (by omega)
                rw [hd1, hd2,
                  show (cs.drop (ps.length + n + 1 + 1)).sum +
                      ((8 * 2 ^ ps.length ::
                        ((List.range' (ps.length + 1) (n + 1)).map fun t => 4 * 2 ^ t)).drop
                          1).sum =
                    (cs.drop (ps.length + n + 1)).sum - 8 * 2 ^ ps.length by omega,
                  show (cs.drop (ps.length + n + 1 + 1)).sum +
                      (8 * 2 ^ ps.length ::
                        ((List.range' (ps.length + 1) (n + 1)).map fun t => 4 * 2 ^ t)).sum =
                    (cs.drop (ps.length + n + 1)).sum by omega]
              · by_cases cLT : l < ps.length
                · rw [if_neg (by omega), pget_pset, if_neg (by omega), hbind l,
                    if_pos cLT, if_pos (by omega)]
                  have hd1 : ((ps ++ 8 * 2 ^ ps.length ::
                      ((List.range' (ps.length + 1) (n + 1)).map fun t => 4 * 2 ^ t)).drop
                        (l + 1)) =
                      ps.drop (l + 1) ++ 8 * 2 ^ ps.length ::
                        ((List.range' (ps.length + 1) (n + 1)).map fun t => 4 * 2 ^ t) :=
                    List.drop_append_of_le_length (by omega)
                  have hd2 : ((ps ++ 8 * 2 ^ ps.length ::
                      ((List.range' (ps.length + 1) (n + 1)).map fun t => 4 * 2 ^ t)).drop
                        l) =
                      ps.drop l ++ 8 * 2 ^ ps.length ::
                        ((List.range' (ps.length + 1) (n + 1)).map fun t => 4 * 2 ^ t) :=
                    List.drop_append_of_le_length (by omega)
                  rw [hd1, hd2, List.sum_append, List.sum_append,
                    show (cs.drop (ps.length + n + 1 + 1)).sum + ((ps.drop (l + 1)).sum +
                        (8 * 2 ^ ps.length ::
                          ((List.range' (ps.length + 1) (n + 1)).map
                            fun t => 4 * 2 ^ t)).sum) =
                      (cs.drop (ps.length + n + 1)).sum + (ps.drop (l + 1)).sum by
                        rw [hqsumF]; omega,
                    show (cs.drop (ps.length + n + 1 + 1)).sum + ((ps.drop l).sum +
                        (8 * 2 ^ ps.length ::
                          ((List.range' (ps.length + 1) (n + 1)).map
                            fun t => 4 * 2 ^ t)).sum) =
                      (cs.drop (ps.length + n + 1)).sum + (ps.drop l).sum by
                        rw [hqsumF]; omega]
                · rw [if_neg (by omega), pget_pset, if_neg (by omega), hbind l,
                    if_neg (by omega), if_neg (by omega), if_neg (by omega),
                    if_neg (by omega)]
/-! ## Flushing the pending updates of a delete back to the bucket -/

theorem getLevel_applyPending_some {s : AddrLevels} {p : Pending} {l : Nat} {v : List Nat}
    (h : pget p l = some v) : getLevel (applyPending s p) l = v := by
  rw [getLevel_applyPending, h]

theorem getLevel_applyPending_none {s : AddrLevels} {p : Pending} {l : Nat}
    (h : pget p l = none) : getLevel (applyPending s p) l = getLevel s l := by
  rw [getLevel_applyPending, h]

theorem validCounts_drop {cs : List Nat} (hv : validCounts cs = true) (k : Nat)
    (hk : 1 ≤ k) : validDigits k (cs.drop k) = true := by
  cases cs with
  | nil => rw [List.drop_nil]; rfl
  | cons c0 ds =>
      rw [validCounts, Bool.and_eq_true] at hv
      obtain ⟨i, rfl⟩ : ∃ i, k = i + 1 := ⟨k - 1, by omega⟩
      rw [List.drop_succ_cons]
      have := validDigits_drop_tail hv.2 i
      rw [show (1 : Nat) + i = i + 1 by omega] at this
      exact this

theorem validCounts_get_le {cs : List Nat} (hv : validCounts cs = true) {l : Nat}
    (hl : l < cs.length) : cs.get ⟨l, hl⟩ ≤ 8 * 2 ^ l := by
  cases cs with
  | nil => simp at hl
  | cons c0 ds =>
      cases l with
      | zero =>
          rw [validCounts, Bool.and_eq_true, Bool.and_eq_true] at hv
          have := of_decide_eq_true hv.1.2
          simpa using this
      | succ l =>
          rcases validCounts_get_ge1 hv hl (by omega) with h | h
          · rw [h]
            have : 0 < 2 ^ (l + 1) := Nat.pos_pow_of_pos _ (by omega)
            omega
          · rw [h]

theorem applyPending_canon (cs : List Nat) (es : List (List Nat))
    (hv : validCounts cs = true) (h16 : ∀ e ∈ es, e.length = txEntrySize)
    (hsum : cs.sum = es.length) (M : Nat) (hM : M ≤ es.length)
    (p : Pending) (hF : Nat) (psF : List Nat)
    (hvF : validCounts psF = true)
    (hsF : psF.sum + (cs.drop (hF + 1)).sum = M)
    (hlF : psF.length ≤ hF + 1)
    (hdich : cs.length ≤ hF + 1 ∨ psF.length = hF + 1)
    (hbind : ∀ l, pget p l =
      if l < psF.length then
        some ((seg es ((cs.drop (hF + 1)).sum + (psF.drop (l + 1)).sum)
          ((cs.drop (hF + 1)).sum + (psF.drop l).sum)).flatten)
      else if l ≤ hF then some []
      else none) :
    applyPending (canonLevels cs es) p =
      canonLevels (psF ++ cs.drop (hF + 1)) (es.take M) := by
  have h16t : ∀ e ∈ es.take M, e.length = txEntrySize :=
    fun e he => h16 e (List.mem_of_mem_take he)
  have hMlen : (es.take M).length = M := by
    rw [List.length_take]
    omega
  have hsum2 : (psF ++ cs.drop (hF + 1)).sum = (es.take M).length := by
    rw [List.sum_append, hMlen]
    omega
  have hposF : ∀ x ∈ psF ++ cs.drop (hF + 1), 0 < x := by
    intro x hx
    rcases List.mem_append.mp hx with h | h
    · exact validCounts_pos hvF x h
    · exact validCounts_pos hv x (List.mem_of_mem_drop h)
  apply trimmed_ext
    (trimmed_applyPending _ _ (trimmed_canonLevels cs es (validCounts_pos hv) h16 hsum))
    (trimmed_canonLevels _ _ hposF h16t hsum2)
  intro l
  have hb := hbind l
  by_cases c1 : l < psF.length
  · rw [if_pos c1] at hb
    rw [getLevel_applyPending_some hb,
      getLevel_canonLevels (psF ++ cs.drop (hF + 1)) (es.take M) hsum2 l]
    have hd1 : (psF ++ cs.drop (hF + 1)).drop (l + 1) =
        psF.drop (l + 1) ++ cs.drop (hF + 1) :=
      List.drop_append_of_le_length (by omega)
    have hd2 : (psF ++ cs.drop (hF + 1)).drop l = psF.drop l ++ cs.drop (hF + 1) :=
      List.drop_append_of_le_length (by omega)
    have hup : (psF.drop l).sum ≤ psF.sum := sum_drop_le psF l
    rw [hd1, hd2, List.sum_append, List.sum_append,
      seg_take_left es (by omega),
      show (psF.drop (l + 1)).sum + (cs.drop (hF + 1)).sum =
        (cs.drop (hF + 1)).sum + (psF.drop (l + 1)).sum by omega,
      show (psF.drop l).sum + (cs.drop (hF + 1)).sum =
        (cs.drop (hF + 1)).sum + (psF.drop l).sum by omega]
  · rw [if_neg c1] at hb
    by_cases c2 : l ≤ hF
    · rw [if_pos c2] at hb
      rcases hdich with hd | hd
      · have hnil : cs.drop (hF + 1) = [] := List.drop_eq_nil_of_le (by omega)
        rw [getLevel_applyPending_some hb, hnil, List.append_nil,
          getLevel_canonLevels_ge psF (es.take M) (by omega)]
      · omega
    · rw [if_neg c2] at hb
      rw [getLevel_applyPending_none hb,
        getLevel_canonLevels cs es hsum l,
        getLevel_canonLevels (psF ++ cs.drop (hF + 1)) (es.take M) hsum2 l]
      rcases hdich with hd | hd
      · have hnil1 : cs.drop (l + 1) = [] := List.drop_eq_nil_of_le (by omega)
        have hnil2 : cs.drop l = [] := List.drop_eq_nil_of_le (by omega)
        have hnil3 : (psF ++ cs.drop (hF + 1)).drop (l + 1) = [] :=
          List.drop_eq_nil_of_le (by
            rw [List.length_append]
            have := List.length_drop (hF + 1) cs
            omega)
        have hnil4 : (psF ++ cs.drop (hF + 1)).drop l = [] :=
          List.drop_eq_nil_of_le (by
            rw [List.length_append]
            have := List.length_drop (hF + 1) cs
            omega)
        rw [hnil1, hnil2, hnil3, hnil4, seg_eq_nil es (le_refl _),
          seg_eq_nil (es.take M) (le_refl _)]
      · have hdropc : ∀ i, hF + 1 ≤ i → (psF ++ cs.drop (hF + 1)).drop i = cs.drop i := by
          intro i hi
          obtain ⟨k, rfl⟩ : ∃ k, i = psF.length + k := ⟨i - psF.length, by omega⟩
          rw [List.drop_append, List.drop_drop]
          rw [show hF + 1 + k = psF.length + k by omega]
        rw [hdropc (l + 1) (by omega), hdropc l (by omega),
          seg_take_left es (by
            have h1 : (cs.drop l).sum ≤ (cs.drop (hF + 1)).sum :=
              sum_drop_le_of_le cs (by omega)
            omega)]
/-! ## The delete operation on canonical states -/

theorem remove_canon (cs : List Nat) (es : List (List Nat))
    (hv : validCounts cs = true) (h16 : ∀ e ∈ es, e.length = txEntrySize)
    (hsum : cs.sum = es.length) (c : Int) (hc : 0 < c) (hcN : c.toNat ≤ es.length) :
    ∃ cs2, validCounts cs2 = true ∧ cs2.sum + c.toNat = es.length ∧
      dbRemoveAddrIndexEntries (canonLevels cs es) c =
        .ok (canonLevels cs2 (es.take (es.length - c.toNat))) := by
  obtain ⟨M, hMdef⟩ : ∃ M, es.length - c.toNat = M := ⟨_, rfl⟩
  rw [hMdef]
  have hctpos : 1 ≤ c.toNat := by omega
  have hMlt : M < es.length := by omega
  have hMle : M ≤ es.length := by omega
  have hMcs : M < cs.sum := by omega
  obtain ⟨j, hj, hlo, hhi⟩ := exists_boundary cs M hMcs
  obtain ⟨pA, hrunA, hformA⟩ := removePhaseA_ok cs es hv h16 hsum M j 0 []
    (by omega) (by rw [Nat.zero_add]; exact hlo) (by rw [Nat.zero_add]; exact hhi)
  have hrun2 : removePhaseA (canonLevels cs es) 0 c.toNat [] = .ok (pA, j) := by
    rw [show c.toNat = (cs.drop 0).sum - M by rw [List.drop_zero]; omega, hrunA,
      Nat.zero_add]
  have hform2 : ∀ l, pget pA l =
      if l < j then some []
      else if l = j then some ((seg es ((cs.drop (j + 1)).sum) M).flatten)
      else none := by
    intro l
    have hthis := hformA l
    simp only [Nat.zero_add, Nat.zero_le, true_and, pget_nil] at hthis
    exact hthis
  have hD : dbRemoveAddrIndexEntries (canonLevels cs es) c =
      (if pgetD pA 0 ≠ [] then Except.ok (applyPending (canonLevels cs es) pA)
       else Except.ok (applyPending (canonLevels cs es)
        (removePhaseD (canonLevels cs es)
          (pset (removePhaseC pA (pgetD pA j) (maxEntriesForLevel j) 255 j).1 0
            (removePhaseC pA (pgetD pA j) (maxEntriesForLevel j) 255 j).2.1)
          j
          (if (removePhaseC pA (pgetD pA j) (maxEntriesForLevel j) 255 j).2.1 = [] then 0
           else (removePhaseC pA (pgetD pA j) (maxEntriesForLevel j) 255 j).2.2)))) := by
    rw [dbRemoveAddrIndexEntries, if_neg (by omega), hrun2]
  have hkeep : pgetD pA j = (seg es ((cs.drop (j + 1)).sum) M).flatten := by
    rw [pgetD, hform2 j, if_neg (by omega), if_pos rfl]
    rfl
  have hmaxj : maxEntriesForLevel j = 8 * 2 ^ j := by
    simp [maxEntriesForLevel, level0MaxEntries]
  have hgets := sum_drop_get cs j hj
  have hgetle := validCounts_get_le hv hj
  have hTj : 0 < 2 ^ j := Nat.pos_pow_of_pos _ (by omega)
  have hKb : M - (cs.drop (j + 1)).sum < 16 * 2 ^ j - 7 := by omega
  have hlenK : ((seg es ((cs.drop (j + 1)).sum) M).flatten).length =
      txEntrySize * (M - (cs.drop (j + 1)).sum) := length_flatten_seg h16 hMle
  by_cases hsc : pgetD pA 0 = []
  · -- level 0 was completely emptied: squash the keeper level downward, then backfill
    obtain ⟨cs2, hv2, hsum2C, hlen2, hreach2, hrem2, hle2, hpget2⟩ :=
      removePhaseC_spec es h16 M hMle j ((cs.drop (j + 1)).sum) pA 255 (by omega) hKb
    by_cases hII : cs2.length = j + 1
    · -- the keeper level stays populated: no backfill needed
      have hj1 : 1 ≤ j := by
        by_contra hne
        have hj0 : j = 0 := by omega
        subst hj0
        have hc2pos : 0 < cs2.sum := by
          cases hcs2 : cs2 with
          | nil => rw [hcs2] at hII; simp at hII
          | cons x t =>
              have := validCounts_pos hv2 x (by rw [hcs2]; simp)
              simp only [List.sum_cons]
              omega
        rw [hkeep] at hsc
        rw [hsc] at hlenK
        simp only [List.length_nil, txEntrySize] at hlenK
        omega
      have hpj := hpget2 j
      rw [if_pos ⟨hj1, by omega⟩] at hpj
      have hub : (cs.drop (j + 1)).sum + (cs2.drop j).sum ≤ es.length := by
        have := sum_drop_le cs2 j
        omega
      have hslice_ne : (seg es ((cs.drop (j + 1)).sum + (cs2.drop (j + 1)).sum)
          ((cs.drop (j + 1)).sum + (cs2.drop j).sum)).flatten ≠ [] := by
        have hlenS := length_flatten_seg h16
          (a := (cs.drop (j + 1)).sum + (cs2.drop (j + 1)).sum) hub
        have hgap := sum_drop_get cs2 j (by omega)
        have hposg : 0 < cs2.get ⟨j, by omega⟩ :=
          validCounts_pos hv2 _ (List.get_mem _ _ _)
        intro hcon
        rw [hcon] at hlenS
        simp only [List.length_nil, txEntrySize] at hlenS
        omega
      have hpd : ¬ (pgetD (pset (removePhaseC pA ((seg es ((cs.drop (j + 1)).sum)
          M).flatten) (8 * 2 ^ j) 255 j).1 0
          (removePhaseC pA ((seg es ((cs.drop (j + 1)).sum) M).flatten)
            (8 * 2 ^ j) 255 j).2.1) j = []) := by
        rw [pgetD, pget_pset, if_neg (by omega), hpj, Option.getD_some]
        exact hslice_ne
      have hbindII : ∀ l, pget (pset (removePhaseC pA ((seg es ((cs.drop (j + 1)).sum)
          M).flatten) (8 * 2 ^ j) 255 j).1 0
          (removePhaseC pA ((seg es ((cs.drop (j + 1)).sum) M).flatten)
            (8 * 2 ^ j) 255 j).2.1) l =
          if l < cs2.length then
            some ((seg es ((cs.drop (j + 1)).sum + (cs2.drop (l + 1)).sum)
              ((cs.drop (j + 1)).sum + (cs2.drop l).sum)).flatten)
          else if l ≤ j then some []
          else none := by
        intro l
        rw [pget_pset]
        by_cases hl0 : l = 0
        · subst hl0
          rw [if_pos rfl, if_pos (by omega), hrem2,
            show (cs.drop (j + 1)).sum + (cs2.drop 0).sum = M by
              rw [List.drop_zero]; omega,
            show (0 : Nat) + 1 = 1 from rfl]
        · rw [if_neg hl0, hpget2 l]
          by_cases hl1 : 1 ≤ l ∧ l < cs2.length
          · rw [if_pos hl1, if_pos (by omega)]
          · rw [if_neg hl1]
            by_cases hl2 : 1 ≤ l ∧ l ≤ j
            · exact absurd ⟨hl2.1, by omega⟩ hl1
            · rw [if_neg hl2, hform2 l, if_neg (by omega), if_neg (by omega),
                if_neg (by omega), if_neg (by omega)]
      refine ⟨cs2 ++ cs.drop (j + 1), ?_, ?_, ?_⟩
      · refine validCounts_join hv2 ?_ ?_
        · intro hcon
          rw [hcon] at hII
          simp at hII
        · rw [hII]
          exact validCounts_drop hv (j + 1) (by omega)
      · rw [List.sum_append]
        omega
      · rw [hD, if_neg (fun hcon => hcon hsc), hkeep, hmaxj, removePhaseD, if_neg hpd]
        exact congrArg Except.ok (applyPending_canon cs es hv h16 hsum M hMle _ j cs2
          hv2 (by omega) (by omega) (Or.inr hII) hbindII)
    · -- the keeper level was cleared as well: the level above backfills everything
      have hIII : cs2.length ≤ j := by omega
      have hcs2_of_aM : (cs.drop (j + 1)).sum = M → cs2 = [] := by
        intro haM
        cases hcs2 : cs2 with
        | nil => rfl
        | cons x t =>
            exfalso
            have := validCounts_pos hv2 x (by rw [hcs2]; simp)
            rw [hcs2] at hsum2C
            simp only [List.sum_cons] at hsum2C
            omega
      have hrem_nil_iff : ((removePhaseC pA ((seg es ((cs.drop (j + 1)).sum) M).flatten)
          (8 * 2 ^ j) 255 j).2.1 = []) ↔ cs2 = [] := by
        rw [hrem2]
        constructor
        · intro hcon
          cases hcs2 : cs2 with
          | nil => rfl
          | cons x t =>
              exfalso
              have hx : 0 < x := validCounts_pos hv2 x (by rw [hcs2]; simp)
              have hlenS := length_flatten_seg h16
                (a := (cs.drop (j + 1)).sum + (cs2.drop 1).sum) hMle
              rw [hcon] at hlenS
              simp only [List.length_nil, txEntrySize] at hlenS
              rw [hcs2] at hsum2C hlenS
              simp only [List.sum_cons, List.drop_succ_cons, List.drop_zero] at hsum2C hlenS
              omega
        · intro hcon
          rw [hcon]
          simp only [List.drop_nil, List.sum_nil, Nat.add_zero]
          rw [hcon] at hsum2C
          simp only [List.sum_nil] at hsum2C
          rw [show (cs.drop (j + 1)).sum = M by omega, seg_eq_nil es (le_refl M)]
          rfl
      have hLE : (if (removePhaseC pA ((seg es ((cs.drop (j + 1)).sum) M).flatten)
            (8 * 2 ^ j) 255 j).2.1 = [] then 0
          else (removePhaseC pA ((seg es ((cs.drop (j + 1)).sum) M).flatten)
            (8 * 2 ^ j) 255 j).2.2) = cs2.length := by
        by_cases hre : (removePhaseC pA ((seg es ((cs.drop (j + 1)).sum) M).flatten)
            (8 * 2 ^ j) 255 j).2.1 = []
        · rw [if_pos hre, hrem_nil_iff.mp hre]
          rfl
        · have hane : (cs.drop (j + 1)).sum ≠ M := by
            intro haM
            exact hre (hrem_nil_iff.mpr (hcs2_of_aM haM))
          rw [if_neg hre, hle2 hane, if_neg (by omega)]
      have hbindD : ∀ l, pget (pset (removePhaseC pA ((seg es ((cs.drop (j + 1)).sum)
          M).flatten) (8 * 2 ^ j) 255 j).1 0
          (removePhaseC pA ((seg es ((cs.drop (j + 1)).sum) M).flatten)
            (8 * 2 ^ j) 255 j).2.1) l =
          if l < cs2.length then
            some ((seg es ((cs.drop (j + 1)).sum + (cs2.drop (l + 1)).sum)
              ((cs.drop (j + 1)).sum + (cs2.drop l).sum)).flatten)
          else if l ≤ j then some []
          else none := by
        intro l
        rw [pget_pset]
        by_cases hl0 : l = 0
        · subst hl0
          by_cases hcs2 : cs2 = []
          · rw [if_pos rfl, if_neg (by rw [hcs2]; simp), if_pos (by omega),
              hrem_nil_iff.mpr hcs2]
          · rw [if_pos rfl,
              if_pos (by have : 0 < cs2.length := List.length_pos.mpr hcs2; omega),
              hrem2,
              show (cs.drop (j + 1)).sum + (cs2.drop 0).sum = M by
                rw [List.drop_zero]; omega,
              show (0 : Nat) + 1 = 1 from rfl]
        · rw [if_neg hl0, hpget2 l]
          by_cases hl1 : 1 ≤ l ∧ l < cs2.length
          · rw [if_pos hl1, if_pos (by omega)]
          · rw [if_neg hl1]
            by_cases hl2 : 1 ≤ l ∧ l ≤ j
            · rw [if_pos hl2, if_neg (by omega), if_pos (by omega)]
            · rw [if_neg hl2, hform2 l, if_neg (by omega), if_neg (by omega),
                if_neg (by omega), if_neg (by omega)]
      obtain ⟨hF, psF, hhF, hvF, hsF, hlF, hdichF, hformF⟩ :=
        removePhaseD_spec cs es hv h16 hsum M hMle cs.length j cs2
          (pset (removePhaseC pA ((seg es ((cs.drop (j + 1)).sum) M).flatten)
            (8 * 2 ^ j) 255 j).1 0
            (removePhaseC pA ((seg es ((cs.drop (j + 1)).sum) M).flatten)
              (8 * 2 ^ j) 255 j).2.1)
          (by omega) hv2 hsum2C hIII hbindD
      refine ⟨psF ++ cs.drop (hF + 1), ?_, ?_, ?_⟩
      · rcases hdichF with hdF | hdF
        · rw [List.drop_eq_nil_of_le (by omega), List.append_nil]
          exact hvF
        · refine validCounts_join hvF ?_ ?_
          · intro hcon
            rw [hcon] at hdF
            simp at hdF
          · rw [hdF]
            exact validCounts_drop hv (hF + 1) (by omega)
      · rw [List.sum_append]
        omega
      · rw [hD, if_neg (fun hcon => hcon hsc), hkeep, hmaxj, hLE]
        exact congrArg Except.ok (applyPending_canon cs es hv h16 hsum M hMle _ hF psF
          hvF hsF hlF hdichF hformF)
  · -- level 0 still holds entries: only level 0 is rewritten
    have hj0 : j = 0 := by
      by_contra hne
      apply hsc
      rw [pgetD, hform2 0, if_pos (by omega)]
      rfl
    subst hj0
    have hane : (cs.drop (0 + 1)).sum < M := by
      by_contra hge
      apply hsc
      rw [hkeep, show (cs.drop (0 + 1)).sum = M by omega, seg_eq_nil es (le_refl M)]
      rfl
    have h20 : (2 : Nat) ^ 0 = 1 := rfl
    have hvK : validCounts [M - (cs.drop (0 + 1)).sum] = true := by
      simp only [validCounts, validDigits, Bool.and_eq_true, decide_eq_true_eq]
      exact ⟨⟨by omega, by omega⟩, trivial⟩
    have hbindSC : ∀ l, pget pA l =
        if l < ([M - (cs.drop (0 + 1)).sum] : List Nat).length then
          some ((seg es ((cs.drop (0 + 1)).sum +
              (([M - (cs.drop (0 + 1)).sum] : List Nat).drop (l + 1)).sum)
            ((cs.drop (0 + 1)).sum +
              (([M - (cs.drop (0 + 1)).sum] : List Nat).drop l).sum)).flatten)
        else if l ≤ 0 then some []
        else none := by
      intro l
      rw [hform2 l]
      by_cases hl0 : l = 0
      · subst hl0
        rw [if_neg (by omega), if_pos rfl,
          if_pos (by simp only [List.length_singleton]; omega),
          show (cs.drop (0 + 1)).sum +
              (([M - (cs.drop (0 + 1)).sum] : List Nat).drop (0 + 1)).sum =
            (cs.drop (0 + 1)).sum by simp,
          show (cs.drop (0 + 1)).sum +
              (([M - (cs.drop (0 + 1)).sum] : List Nat).drop 0).sum = M by
            simp only [List.drop_zero, List.sum_cons, List.sum_nil]
            omega]
      · rw [if_neg (by omega), if_neg hl0,
          if_neg (by simp only [List.length_singleton]; omega), if_neg (by omega)]
    refine ⟨[M - (cs.drop (0 + 1)).sum] ++ cs.drop (0 + 1), ?_, ?_, ?_⟩
    · refine validCounts_join hvK (by simp) ?_
      exact validCounts_drop hv 1 (by omega)
    · rw [List.sum_append]
      simp only [List.sum_cons, List.sum_nil]
      omega
    · rw [hD, if_pos hsc]
      exact congrArg Except.ok (applyPending_canon cs es hv h16 hsum M hMle pA 0
        [M - (cs.drop (0 + 1)).sum] hvK
        (by simp only [List.sum_cons, List.sum_nil]; omega)
        (by simp) (Or.inr rfl) hbindSC)

theorem remove_insufficient (cs : List Nat) (es : List (List Nat))
    (hv : validCounts cs = true) (h16 : ∀ e ∈ es, e.length = txEntrySize)
    (hsum : cs.sum = es.length) (c : Int) (hc : 0 < c) (hbig : es.length < c.toNat) :
    dbRemoveAddrIndexEntries (canonLevels cs es) c =
      .error (.assertError "dbRemoveAddrIndexEntries not enough entries to delete") := by
  rw [dbRemoveAddrIndexEntries, if_neg (by omega),
    removePhaseA_err cs es hv h16 hsum cs.length 0 [] c.toNat (by omega)
      (by rw [List.drop_zero]; omega)]
/-! ## Canonicity of every reachable state -/

theorem entriesAtLevel_canon (cs : List Nat) (es : List (List Nat))
    (h16 : ∀ e ∈ es, e.length = txEntrySize) (hsum : cs.sum = es.length) (l : Nat) :
    entriesAtLevel (canonLevels cs es) l =
      if hl : l < cs.length then cs.get ⟨l, hl⟩ else 0 := by
  by_cases hl : l < cs.length
  · rw [dif_pos hl, entriesAtLevel, length_getLevel_canonLevels cs es h16 hsum hl]
    exact Nat.mul_div_cancel_left _ (by simp [txEntrySize])
  · rw [dif_neg hl, entriesAtLevel, getLevel_canonLevels_ge cs es (by omega)]
    rfl

theorem canon_LevelInv (cs : List Nat) (es : List (List Nat))
    (hv : validCounts cs = true) (h16 : ∀ e ∈ es, e.length = txEntrySize)
    (hsum : cs.sum = es.length) : LevelInv (canonLevels cs es) := by
  have hent := entriesAtLevel_canon cs es h16 hsum
  refine ⟨?_, ?_, ?_⟩
  · rw [hent 0]
    by_cases h0 : 0 < cs.length
    · rw [dif_pos h0]
      have := validCounts_get_le hv h0
      simpa using this
    · rw [dif_neg h0]
      omega
  · intro L hL
    rw [hent L]
    by_cases hl : L < cs.length
    · rw [dif_pos hl]
      rcases validCounts_get_ge1 hv hl hL with h | h
      · exact Or.inr (Or.inl h)
      · exact Or.inr (Or.inr h)
    · rw [dif_neg hl]
      exact Or.inl rfl
  · intro L hL hpos
    rw [hent L] at hpos
    by_cases hl : L < cs.length
    · constructor
      · intro K hK1 hK2
        rw [hent K, dif_pos (by omega)]
        rcases validCounts_get_ge1 hv (by omega : K < cs.length) hK1 with h | h
        · rw [h]
        · rw [h]
          have : 0 < 2 ^ K := Nat.pos_pow_of_pos _ (by omega)
          omega
      · rw [hent 0, dif_pos (by omega)]
        exact validCounts_pos hv _ (List.get_mem cs 0 (by omega))
    · rw [dif_neg hl] at hpos
      omega

theorem runOps_canon (ops : List AddrOp) : ∀ (cs : List Nat) (es : List (List Nat)),
    validCounts cs = true → (∀ e ∈ es, e.length = txEntrySize) → cs.sum = es.length →
    validSeq es.length ops = true →
    ∃ cs2 es2, validCounts cs2 = true ∧ (∀ e ∈ es2, e.length = txEntrySize) ∧
      cs2.sum = es2.length ∧
      runOps (canonLevels cs es) ops = .ok (canonLevels cs2 es2) := by
  induction ops with
  | nil =>
      intro cs es hv h16 hsum hvalid
      exact ⟨cs, es, hv, h16, hsum, rfl⟩
  | cons op rest ih =>
      intro cs es hv h16 hsum hvalid
      cases op with
      | putOp blockID txStart txLen blockIndex =>
          obtain ⟨cs1, hv1, hsum1, heq1⟩ := put_canon cs es hv h16 hsum
            blockID txStart txLen blockIndex
          have h161 : ∀ e ∈ es ++ [serializeAddrIndexEntry blockID txStart txLen
              blockIndex], e.length = txEntrySize := by
            intro e he
            rcases List.mem_append.mp he with h | h
            · exact h16 e h
            · simp only [List.mem_singleton] at h
              subst h
              exact length_serializeAddrIndexEntry ..
          rw [validSeq] at hvalid
          obtain ⟨cs2, es2, hv2, h162, hsum2, heq2⟩ := ih cs1 _ hv1 h161
            (by simpa using hsum1) (by simpa using hvalid)
          refine ⟨cs2, es2, hv2, h162, hsum2, ?_⟩
          rw [runOps]
          show (match applyOp (canonLevels cs es)
            (.putOp blockID txStart txLen blockIndex) with
            | .ok s2 => runOps s2 rest
            | .error e => .error e) = _
          rw [applyOp, heq1]
          exact heq2
      | removeOp c =>
          rw [validSeq, Bool.and_eq_true, decide_eq_true_eq] at hvalid
          by_cases hc : c ≤ 0
          · have hc0 : c.toNat = 0 := by omega
            obtain ⟨cs2, es2, hv2, h162, hsum2, heq2⟩ := ih cs es hv h16 hsum
              (by rw [hc0] at hvalid; simpa using hvalid.2)
            refine ⟨cs2, es2, hv2, h162, hsum2, ?_⟩
            rw [runOps]
            show (match applyOp (canonLevels cs es) (.removeOp c) with
              | .ok s2 => runOps s2 rest
              | .error e => .error e) = _
            rw [applyOp, dbRemoveAddrIndexEntries, if_pos hc]
            exact heq2
          · obtain ⟨cs1, hv1, hsum1, heq1⟩ := remove_canon cs es hv h16 hsum c
              (by omega) (by omega)
            have h161 : ∀ e ∈ es.take (es.length - c.toNat), e.length = txEntrySize :=
              fun e he => h16 e (List.mem_of_mem_take he)
            have hlentake : (es.take (es.length - c.toNat)).length = es.length - c.toNat := by
              rw [List.length_take]
              omega
            obtain ⟨cs2, es2, hv2, h162, hsum2, heq2⟩ := ih cs1 _ hv1 h161
              (by rw [hlentake]; omega) (by rw [hlentake]; exact hvalid.2)
            refine ⟨cs2, es2, hv2, h162, hsum2, ?_⟩
            rw [runOps]
            show (match applyOp (canonLevels cs es) (.removeOp c) with
              | .ok s2 => runOps s2 rest
              | .error e => .error e) = _
            rw [applyOp, heq1]
            exact heq2

theorem totalEntries_canon (cs : List Nat) (es : List (List Nat))
    (h16 : ∀ e ∈ es, e.length = txEntrySize) (hsum : cs.sum = es.length) :
    totalEntries (canonLevels cs es) = es.length := by
  rw [totalEntries, flattenLevels_canonLevels cs es hsum, flatten_length_all16 h16]
  exact Nat.mul_div_cancel_left _ (by simp [txEntrySize])
/-! ## The per-block indexer records no duplicate ordinals (C8) -/

theorem idxBounded_mono {κ : Type} {B B2 : Nat} {d : κ → List Nat}
    (h : IdxBounded B d) (hB : B ≤ B2) : IdxBounded B2 d := by
  intro k
  exact ⟨(h k).1, fun x hx => le_trans ((h k).2 x hx) hB⟩

theorem idxBounded_pkScript {κ : Type} [DecidableEq κ]
    (extract : Nat → List Nat → Bool → Bool → List κ) (sv : Nat) (pk : List Nat)
    (txIdx : Nat) (st te : Bool) {d : κ → List Nat} (hd : IdxBounded txIdx d) :
    IdxBounded txIdx (indexPkScript extract d sv pk txIdx st te) := by
  rw [indexPkScript]
  generalize extract sv pk st te = L
  induction L generalizing d with
  | nil => exact hd
  | cons a L ih =>
      rw [List.foldl_cons]
      apply ih
      intro k
      by_cases hguard : 0 < (d a).length ∧ (d a).getLast? = some txIdx
      · simp only [if_pos hguard]
        exact hd k
      · simp only [if_neg hguard]
        by_cases hk : k = a
        · rw [if_pos hk]
          constructor
          · rw [List.chain'_append]
            refine ⟨(hd a).1, List.chain'_singleton _, ?_⟩
            intro x hx y hy
            simp only [List.head?_cons, Option.mem_def, Option.some.injEq] at hy
            subst hy
            obtain ⟨hnenil, hx2⟩ := List.mem_getLast?_eq_getLast hx
            have hxmem : x ∈ d a := by
              rw [hx2]
              exact List.getLast_mem hnenil
            have hxle : x ≤ txIdx := (hd a).2 x hxmem
            have hxne : x ≠ txIdx := by
              intro hcon
              refine hguard ⟨List.length_pos.mpr hnenil, ?_⟩
              rw [← hcon]
              exact Option.mem_def.mp hx
            omega
          · intro x hx
            rcases List.mem_append.mp hx with h | h
            · exact (hd a).2 x h
            · simp only [List.mem_singleton] at h
              omega
        · rw [if_neg hk]
          exact hd k

theorem idxBounded_foldl_opt {κ : Type} [DecidableEq κ]
    (extract : Nat → List Nat → Bool → Bool → List κ) (te : Bool) (txIdx : Nat) :
    ∀ (L : List (Option (Nat × List Nat))) (d : κ → List Nat), IdxBounded txIdx d →
    IdxBounded txIdx (L.foldl (fun d sc =>
      match sc with
      | none => d
      | some sc => indexPkScript extract d sc.1 sc.2 txIdx false te) d) := by
  intro L
  induction L with
  | nil => intro d hd; exact hd
  | cons sc L ih =>
      intro d hd
      rw [List.foldl_cons]
      apply ih
      cases sc with
      | none => exact hd
      | some sc => exact idxBounded_pkScript extract sc.1 sc.2 txIdx false te hd

theorem idxBounded_foldl_out {κ : Type} [DecidableEq κ]
    (extract : Nat → List Nat → Bool → Bool → List κ) (te : Bool) (txIdx : Nat)
    (st : Bool) :
    ∀ (L : List (Nat × List Nat)) (d : κ → List Nat), IdxBounded txIdx d →
    IdxBounded txIdx (L.foldl (fun d sc =>
      indexPkScript extract d sc.1 sc.2 txIdx st te) d) := by
  intro L
  induction L with
  | nil => intro d hd; exact hd
  | cons sc L ih =>
      intro d hd
      rw [List.foldl_cons]
      exact ih _ (idxBounded_pkScript extract sc.1 sc.2 txIdx st te hd)

theorem idxBounded_foldl_stakein {κ : Type} [DecidableEq κ]
    (extract : Nat → List Nat → Bool → Bool → List κ) (te : Bool) (txIdx : Nat)
    (b1 b2 b3 : Bool) :
    ∀ (L : List (Nat × Option (Nat × List Nat))) (d : κ → List Nat), IdxBounded txIdx d →
    IdxBounded txIdx (L.foldl (fun d pr =>
      if b1 && pr.1 == 0 then d
      else if b2 || b3 then d
      else
        match pr.2 with
        | none => d
        | some sc => indexPkScript extract d sc.1 sc.2 txIdx false te) d) := by
  intro L
  induction L with
  | nil => intro d hd; exact hd
  | cons pr L ih =>
      intro d hd
      rw [List.foldl_cons]
      apply ih
      by_cases h1 : b1 && pr.1 == 0
      · simp only [if_pos h1]
        exact hd
      · simp only [if_neg h1]
        by_cases h2 : (b2 || b3) = true
        · simp only [if_pos h2]
          exact hd
        · simp only [if_neg h2]
          cases hpr : pr.2 with
          | none => exact hd
          | some sc => exact idxBounded_pkScript extract sc.1 sc.2 txIdx false te hd

theorem idxBounded_regularTx {κ : Type} [DecidableEq κ]
    (extract : Nat → List Nat → Bool → Bool → List κ) (te : Bool) (txIdx : Nat)
    (tx : ModelTx κ) {d : κ → List Nat} (hd : IdxBounded txIdx d) :
    IdxBounded txIdx (indexRegularTx extract te d txIdx tx) := by
  rw [indexRegularTx]
  apply idxBounded_foldl_out extract te txIdx false tx.outScripts
  by_cases h0 : txIdx ≠ 0
  · simp only [if_pos h0]
    exact idxBounded_foldl_opt extract te txIdx tx.inScripts d hd
  · simp only [if_neg h0]
    exact hd

theorem idxBounded_stakeTx {κ : Type} [DecidableEq κ]
    (extract : Nat → List Nat → Bool → Bool → List κ) (te : Bool) (txIdx : Nat)
    (tx : ModelTx κ) {d : κ → List Nat} (hd : IdxBounded txIdx d) :
    IdxBounded txIdx (indexStakeTx extract te d txIdx tx) := by
  rw [indexStakeTx]
  apply idxBounded_foldl_out extract te txIdx tx.isSStx tx.outScripts
  exact idxBounded_foldl_stakein extract te txIdx _ _ _ tx.inScripts.enum d hd

theorem idxBounded_enumFrom_regular {κ : Type} [DecidableEq κ]
    (extract : Nat → List Nat → Bool → Bool → List κ) (te : Bool) :
    ∀ (ts : List (ModelTx κ)) (i0 : Nat) (d : κ → List Nat), IdxBounded i0 d →
    IdxBounded (i0 + ts.length) ((List.enumFrom i0 ts).foldl
      (fun d pr => indexRegularTx extract te d pr.1 pr.2) d) := by
  intro ts
  induction ts with
  | nil =>
      intro i0 d hd
      simpa using hd
  | cons t ts ih =>
      intro i0 d hd
      rw [List.enumFrom, List.foldl_cons]
      have hstep := idxBounded_regularTx extract te i0 t hd
      have := ih (i0 + 1) _ (idxBounded_mono hstep (by omega))
      rw [show i0 + 1 + ts.length = i0 + (ts.length + 1) by omega] at this
      simpa using this

theorem idxBounded_enumFrom_stake {κ : Type} [DecidableEq κ]
    (extract : Nat → List Nat → Bool → Bool → List κ) (te : Bool) (off : Nat) :
    ∀ (ts : List (ModelTx κ)) (i0 : Nat) (d : κ → List Nat), IdxBounded (i0 + off) d →
    IdxBounded (i0 + off + ts.length) ((List.enumFrom i0 ts).foldl
      (fun d pr => indexStakeTx extract te d (pr.1 + off) pr.2) d) := by
  intro ts
  induction ts with
  | nil =>
      intro i0 d hd
      simpa using hd
  | cons t ts ih =>
      intro i0 d hd
      rw [List.enumFrom, List.foldl_cons]
      have hstep := idxBounded_stakeTx extract te (i0 + off) t hd
      have := ih (i0 + 1) _ (idxBounded_mono hstep (by omega))
      rw [show i0 + 1 + off + ts.length = i0 + off + (ts.length + 1) by omega] at this
      simpa using this

/-- C8 (confirmed): the per-block indexer never records the same
(address key, transaction ordinal) pair twice: starting from the empty
per-block map, for every address key the ordinal list `indexBlock`
produces is duplicate-free.  The adjacent-duplicate check in
`indexPkScript` suffices because every address's ordinals are appended
in strictly increasing positions. -/
theorem claim_C8 {κ : Type} [DecidableEq κ]
    (extract : Nat → List Nat → Bool → Bool → List κ) (te : Bool)
    (block : ModelBlock κ) :
    ∀ k, ((indexBlock extract te (fun _ => []) block) k).Nodup := by
  have h0 : IdxBounded 0 (fun _ : κ => ([] : List Nat)) := by
    intro k
    exact ⟨List.chain'_nil, by simp⟩
  have h1 := idxBounded_enumFrom_regular extract te block.regularTxns 0 _ h0
  have h2 := idxBounded_enumFrom_stake extract te block.regularTxns.length
    block.stakeTxns 0 _ (idxBounded_mono h1 (by omega))
  intro k
  have hchain := (h2 k).1
  have hpair : ((indexBlock extract te (fun _ => []) block) k).Pairwise (· < ·) := by
    rw [← List.chain'_iff_pairwise]
    exact hchain
  exact hpair.imp Nat.ne_of_lt
/-! ## Mirror invariant preservation -/

theorem filterTx_idem {η : Type} [DecidableEq η] (t : η) (o : Option (List η)) :
    filterTx t (filterTx t o) = filterTx t o := by
  cases o with
  | none => rfl
  | some l =>
    simp only [filterTx]
    by_cases h : l.filter (fun x => decide (x ≠ t)) = []
    · rw [if_pos h]
    · rw [if_neg h]
      simp only [filterTx, List.filter_filter]
      have he : (fun x => decide (x ≠ t) && decide (x ≠ t)) = fun x => decide (x ≠ t) := by
        funext x
        rw [Bool.and_self]
      rw [he, if_neg h]

theorem filterTx_ne_nil {η : Type} [DecidableEq η] (t : η) (o : Option (List η)) :
    filterTx t o ≠ some [] := by
  cases o with
  | none => simp [filterTx]
  | some l =>
    simp only [filterTx]
    by_cases h : l.filter (fun x => decide (x ≠ t)) = []
    · rw [if_pos h]
      simp
    · rw [if_neg h]
      intro hcon
      exact h (Option.some_inj.mp hcon)

theorem not_mem_filterTx {η : Type} [DecidableEq η] (t : η) (o : Option (List η)) (l : List η)
    (h : filterTx t o = some l) : t ∉ l := by
  cases o with
  | none => simp [filterTx] at h
  | some l0 =>
    simp only [filterTx] at h
    by_cases h2 : l0.filter (fun x => decide (x ≠ t)) = []
    · rw [if_pos h2] at h
      exact absurd h (by simp)
    · rw [if_neg h2] at h
      intro hm
      have := (List.mem_filter.mp ((Option.some_inj.mp h) ▸ hm)).2
      simp at this

theorem mem_filterTx {η : Type} [DecidableEq η] (t h : η) (o : Option (List η)) (hne : h ≠ t) :
    (∃ l, filterTx t o = some l ∧ h ∈ l) ↔ (∃ l, o = some l ∧ h ∈ l) := by
  cases o with
  | none => simp [filterTx]
  | some l0 =>
    have hmem : h ∈ l0.filter (fun x => decide (x ≠ t)) ↔ h ∈ l0 := by
      rw [List.mem_filter]
      simp [hne]
    simp only [filterTx]
    by_cases h2 : l0.filter (fun x => decide (x ≠ t)) = []
    · rw [if_pos h2]
      simp only [reduceCtorEq, false_and, exists_false, false_iff, not_exists, not_and]
      intro l hl
      rw [Option.some_inj] at hl
      subst hl
      intro hm
      rw [← hmem, h2] at hm
      exact absurd hm (List.not_mem_nil h)
    · rw [if_neg h2]
      constructor
      · rintro ⟨l, hl, hm⟩
        rw [Option.some_inj] at hl
        subst hl
        exact ⟨l0, rfl, hmem.mp hm⟩
      · rintro ⟨l, hl, hm⟩
        rw [Option.some_inj] at hl
        subst hl
        exact ⟨_, rfl, hmem.mpr hm⟩

theorem removeTxForAddr_txns {κ η : Type} [DecidableEq κ] [DecidableEq η] (t : η)
    (st : MirrorState κ η) (a k : κ) :
    (removeTxForAddr t st a).txnsByAddr k =
      if k = a then filterTx t (st.txnsByAddr a) else st.txnsByAddr k := by
  by_cases h : k = a
  · rw [if_pos h]
    cases h2 : st.txnsByAddr a with
    | none => simp [removeTxForAddr, filterTx, h, h2]
    | some l => simp [removeTxForAddr, filterTx, h, h2]
  · simp [removeTxForAddr, h]

theorem removeTxForAddr_addrs {κ η : Type} [DecidableEq κ] [DecidableEq η] (t : η)
    (st : MirrorState κ η) (a : κ) :
    (removeTxForAddr t st a).addrsByTx = st.addrsByTx := rfl

theorem removeFold_txns {κ η : Type} [DecidableEq κ] [DecidableEq η] (t : η) :
    ∀ (ks : List κ) (st : MirrorState κ η) (k : κ),
      (ks.foldl (removeTxForAddr t) st).txnsByAddr k =
        if k ∈ ks then filterTx t (st.txnsByAddr k) else st.txnsByAddr k := by
  intro ks
  induction ks with
  | nil => intro st k; simp
  | cons a ks ih =>
    intro st k
    rw [List.foldl_cons, ih]
    by_cases h1 : k ∈ ks
    · rw [if_pos h1, if_pos (List.mem_cons_of_mem a h1), removeTxForAddr_txns]
      by_cases h2 : k = a
      · rw [if_pos h2, h2, filterTx_idem]
      · rw [if_neg h2]
    · rw [if_neg h1, removeTxForAddr_txns]
      by_cases h2 : k = a
      · rw [if_pos h2, if_pos (by rw [h2]; exact List.mem_cons_self a ks), h2]
      · rw [if_neg h2, if_neg (by simp [h1, h2])]

theorem removeFold_addrs {κ η : Type} [DecidableEq κ] [DecidableEq η] (t : η) :
    ∀ (ks : List κ) (st : MirrorState κ η),
      (ks.foldl (removeTxForAddr t) st).addrsByTx = st.addrsByTx := by
  intro ks
  induction ks with
  | nil => intro st; rfl
  | cons a ks ih =>
    intro st
    rw [List.foldl_cons, ih, removeTxForAddr_addrs]

theorem mirrorInv_empty {κ η : Type} : MirrorInv (emptyMirror (κ := κ) (η := η)) := by
  constructor
  · intro a h
    simp [emptyMirror]
  · intro a
    simp [emptyMirror]

theorem addKeyTx_txns {κ η : Type} [DecidableEq κ] [DecidableEq η]
    (st : MirrorState κ η) (a0 : κ) (t0 : η) (k : κ) :
    (addKeyTx st a0 t0).txnsByAddr k =
      if k = a0 then
        some (if t0 ∈ (st.txnsByAddr a0).getD [] then (st.txnsByAddr a0).getD []
              else t0 :: (st.txnsByAddr a0).getD [])
      else st.txnsByAddr k := rfl

theorem addKeyTx_addrs {κ η : Type} [DecidableEq κ] [DecidableEq η]
    (st : MirrorState κ η) (a0 : κ) (t0 : η) (h : η) :
    (addKeyTx st a0 t0).addrsByTx h =
      if h = t0 then
        (if a0 ∈ st.addrsByTx t0 then st.addrsByTx t0 else a0 :: st.addrsByTx t0)
      else st.addrsByTx h := rfl

theorem mirrorInv_addKeyTx {κ η : Type} [DecidableEq κ] [DecidableEq η]
    (st : MirrorState κ η) (a0 : κ) (t0 : η) (hinv : MirrorInv st) :
    MirrorInv (addKeyTx st a0 t0) := by
  obtain ⟨h1, h2⟩ := hinv
  have hinner : ∀ h : η, h ∈ (st.txnsByAddr a0).getD [] ↔ ∃ l, st.txnsByAddr a0 = some l ∧ h ∈ l := by
    intro h
    cases hc : st.txnsByAddr a0 with
    | none => simp [hc]
    | some l => simp [hc]
  have hinner2 : ∀ h : η,
      (h ∈ (if t0 ∈ (st.txnsByAddr a0).getD [] then (st.txnsByAddr a0).getD []
            else t0 :: (st.txnsByAddr a0).getD [])) ↔
      (h = t0 ∨ h ∈ (st.txnsByAddr a0).getD []) := by
    intro h
    by_cases hc : t0 ∈ (st.txnsByAddr a0).getD []
    · rw [if_pos hc]
      constructor
      · intro hm; exact Or.inr hm
      · rintro (rfl | hm)
        · exact hc
        · exact hm
    · rw [if_neg hc, List.mem_cons]
  constructor
  · intro a h
    rw [addKeyTx_txns, addKeyTx_addrs]
    by_cases ha : a = a0
    · subst ha
      rw [if_pos rfl]
      by_cases hh : h = t0
      · subst hh
        rw [if_pos rfl]
        constructor
        · intro _
          by_cases hc : a ∈ st.addrsByTx h
          · rw [if_pos hc]; exact hc
          · rw [if_neg hc]; exact List.mem_cons_self a _
        · intro _
          exact ⟨_, rfl, (hinner2 h).mpr (Or.inl rfl)⟩
      · rw [if_neg hh]
        constructor
        · rintro ⟨l, hl, hm⟩
          rw [Option.some_inj] at hl
          subst hl
          rcases (hinner2 h).mp hm with hc | hc
          · exact absurd hc hh
          · exact (h1 a h).mp ((hinner h).mp hc)
        · intro hm
          exact ⟨_, rfl, (hinner2 h).mpr (Or.inr ((hinner h).mpr ((h1 a h).mpr hm)))⟩
    · rw [if_neg ha]
      by_cases hh : h = t0
      · subst hh
        rw [if_pos rfl]
        by_cases hc : a0 ∈ st.addrsByTx h
        · rw [if_pos hc]
          exact h1 a h
        · rw [if_neg hc, h1 a h, List.mem_cons]
          constructor
          · intro hm; exact Or.inr hm
          · rintro (rfl | hm)
            · exact absurd rfl ha
            · exact hm
      · rw [if_neg hh]
        exact h1 a h
  · intro a
    rw [addKeyTx_txns]
    by_cases ha : a = a0
    · rw [if_pos ha]
      intro hcon
      rw [Option.some_inj] at hcon
      by_cases hc : t0 ∈ (st.txnsByAddr a0).getD []
      · rw [if_pos hc] at hcon
        rw [hcon] at hc
        exact List.not_mem_nil t0 hc
      · rw [if_neg hc] at hcon
        exact List.cons_ne_nil _ _ hcon
    · rw [if_neg ha]
      exact h2 a

theorem mirrorInv_foldl {α κ η : Type} [DecidableEq κ] [DecidableEq η]
    (f : MirrorState κ η → α → MirrorState κ η)
    (hf : ∀ st x, MirrorInv st → MirrorInv (f st x)) :
    ∀ (xs : List α) (st : MirrorState κ η), MirrorInv st → MirrorInv (xs.foldl f st) := by
  intro xs
  induction xs with
  | nil => intro st h; exact h
  | cons x xs ih =>
    intro st h
    rw [List.foldl_cons]
    exact ih _ (hf st x h)

theorem mirrorInv_indexUnconfirmed {κ η : Type} [DecidableEq κ] [DecidableEq η]
    (st : MirrorState κ η) (addrs : List κ) (t : η) (hinv : MirrorInv st) :
    MirrorInv (indexUnconfirmedAddresses st addrs t) :=
  mirrorInv_foldl _ (fun st a h => mirrorInv_addKeyTx st a t h) addrs st hinv

theorem mirrorInv_addUnconfirmedTx {κ η : Type} [DecidableEq κ] [DecidableEq η]
    (st : MirrorState κ η) (t : η) (scriptAddrs : List (List κ)) (hinv : MirrorInv st) :
    MirrorInv (addUnconfirmedTx st t scriptAddrs) :=
  mirrorInv_foldl _ (fun st addrs h => mirrorInv_indexUnconfirmed st addrs t h) scriptAddrs st hinv

theorem mirrorInv_removeUnconfirmedTx {κ η : Type} [DecidableEq κ] [DecidableEq η]
    (st : MirrorState κ η) (t : η) (hinv : MirrorInv st) :
    MirrorInv (removeUnconfirmedTx st t) := by
  obtain ⟨h1, h2⟩ := hinv
  have htx : ∀ k, (removeUnconfirmedTx st t).txnsByAddr k =
      if k ∈ st.addrsByTx t then filterTx t (st.txnsByAddr k) else st.txnsByAddr k := by
    intro k
    simp only [removeUnconfirmedTx]
    exact removeFold_txns t (st.addrsByTx t) st k
  have hax : ∀ h, (removeUnconfirmedTx st t).addrsByTx h =
      if h = t then [] else st.addrsByTx h := by
    intro h
    simp only [removeUnconfirmedTx]
    rw [removeFold_addrs]
  constructor
  · intro a h
    rw [htx, hax]
    by_cases hh : h = t
    · subst hh
      rw [if_pos rfl]
      simp only [List.not_mem_nil, iff_false, not_exists, not_and]
      intro l hl hm
      by_cases hk : a ∈ st.addrsByTx h
      · rw [if_pos hk] at hl
        exact not_mem_filterTx h _ l hl hm
      · rw [if_neg hk] at hl
        exact hk ((h1 a h).mp ⟨l, hl, hm⟩)
    · rw [if_neg hh]
      by_cases hk : a ∈ st.addrsByTx t
      · rw [if_pos hk, mem_filterTx t h _ hh]
        exact h1 a h
      · rw [if_neg hk]
        exact h1 a h
  · intro a
    rw [htx]
    by_cases hk : a ∈ st.addrsByTx t
    · rw [if_pos hk]
      exact filterTx_ne_nil t _
    · rw [if_neg hk]
      exact h2 a

theorem mirrorInv_runMirrorOps {κ η : Type} [DecidableEq κ] [DecidableEq η] :
    ∀ (ops : List (MirrorOp κ η)) (st : MirrorState κ η),
      MirrorInv st → MirrorInv (runMirrorOps st ops) := by
  intro ops
  induction ops with
  | nil => intro st h; exact h
  | cons op rest ih =>
    intro st h
    cases op with
    | add t sa => exact ih _ (mirrorInv_addUnconfirmedTx st t sa h)
    | remove t => exact ih _ (mirrorInv_removeUnconfirmedTx st t h)

/-! ## Round-trip decoding toolkit -/

theorem uint32BE_putUint32 (n : Nat) : uint32BE (putUint32 n) = n % 2 ^ 32 := by
  have h8 : (2 : Nat) ^ 8 = 256 := by norm_num
  have h16 : (2 : Nat) ^ 16 = 65536 := by norm_num
  have h24 : (2 : Nat) ^ 24 = 16777216 := by norm_num
  have h32 : (2 : Nat) ^ 32 = 4294967296 := by norm_num
  have hu : uint32BE (putUint32 n) =
      n % 2 ^ 32 / 2 ^ 24 * 2 ^ 24 + n % 2 ^ 32 / 2 ^ 16 % 2 ^ 8 * 2 ^ 16 +
      n % 2 ^ 32 / 2 ^ 8 % 2 ^ 8 * 2 ^ 8 + n % 2 ^ 32 % 2 ^ 8 := rfl
  rw [hu, h8, h16, h24, h32]
  omega

theorem entryAt_of_drop (bs : List Nat) (f : List Nat → Nat) (j : Nat)
    (a : Nat × Nat × Nat × Nat) (rest : List Nat)
    (heq : bs.drop (j * txEntrySize) = serTuple a ++ rest) :
    entryAt bs f j = expectedEntry f a.1 a.2.1 a.2.2.1 a.2.2.2 := by
  have hlen : (serTuple a).length = txEntrySize := length_serializeAddrIndexEntry ..
  have h4 : bs.drop (j * txEntrySize + 4) = (serTuple a).drop 4 ++ rest := by
    rw [← List.drop_drop, heq,
      List.drop_append_of_le_length (by rw [hlen]; simp [txEntrySize])]
  have h8 : bs.drop (j * txEntrySize + 8) = (serTuple a).drop 8 ++ rest := by
    rw [← List.drop_drop, heq,
      List.drop_append_of_le_length (by rw [hlen]; simp [txEntrySize])]
  have h12 : bs.drop (j * txEntrySize + 12) = (serTuple a).drop 12 ++ rest := by
    rw [← List.drop_drop, heq,
      List.drop_append_of_le_length (by rw [hlen]; simp [txEntrySize])]
  have t1 : (serTuple a ++ rest).take 4 = putUint32 a.1 := rfl
  have t2 : ((serTuple a).drop 4 ++ rest).take 4 = putUint32 a.2.1 := rfl
  have t3 : ((serTuple a).drop 8 ++ rest).take 4 = putUint32 a.2.2.1 := rfl
  have t4 : ((serTuple a).drop 12 ++ rest).take 4 = putUint32 a.2.2.2 := rfl
  rw [entryAt, expectedEntry, heq, h4, h8, h12, t1, t2, t3, t4,
    uint32BE_putUint32, uint32BE_putUint32, uint32BE_putUint32]

theorem entryAt_map_serTuple (args : List (Nat × Nat × Nat × Nat)) (f : List Nat → Nat)
    (j : Nat) (hj : j < args.length) :
    entryAt ((args.map serTuple).flatten) f j = decTuple f (args.get ⟨j, hj⟩) := by
  have h16 : ∀ e ∈ args.map serTuple, e.length = txEntrySize := by
    intro e he
    obtain ⟨a, _, rfl⟩ := List.mem_map.mp he
    exact length_serializeAddrIndexEntry ..
  refine entryAt_of_drop _ f j (args.get ⟨j, hj⟩)
    (((args.drop (j + 1)).map serTuple).flatten) ?_
  rw [flatten_drop_entries h16 j, ← List.map_drop, List.drop_eq_getElem_cons hj,
    List.map_cons, List.flatten_cons]
  rfl

theorem range_map_rev {β : Type} (g : Nat → β) (n : Nat) :
    (List.range n).map (fun i => g (n - 1 - i)) = ((List.range n).map g).reverse := by
  have hrev : (List.range n).reverse = (List.range n).map (fun i => n - 1 - i) := by
    conv_lhs => rw [List.range_eq_range']
    rw [List.reverse_range']
    simp
  rw [← List.map_reverse, hrev, List.map_map]
  rfl

theorem dbFetch_eval (s : AddrLevels) (skip want : Nat) (rev : Bool)
    (g : List Nat → Except AddrIdxErr Nat) (ser : List Nat)
    (hser : fetchLevels s rev ((skip + want) % 2 ^ 32 * txEntrySize) 0 [] = ser) :
    dbFetchAddrIndexEntries s skip want rev g =
      if ser.length / txEntrySize ≤ skip then .ok ([], ser.length / txEntrySize)
      else if want = 0 then .ok ([], skip)
      else match fetchDecode ser (ser.length / txEntrySize) skip
          (min (ser.length / txEntrySize - skip) want) rev g with
        | .ok results => .ok (results, skip)
        | .error e => .error (if isDeserializeErr e then
            .corruption "failed to deserialized address index" else e) := by
  simp only [dbFetchAddrIndexEntries, hser]

/-! ## The claims -/

/-- C1 (corrected): the spec's third level invariant ("every level `K`
strictly below a populated level holds exactly its maximum") fails on
reachable states; the invariant the code maintains allows half-full
intermediate levels.  This amended statement holds: every valid
operation sequence from an empty address succeeds and lands in a state
satisfying `LevelInv` (level 0 holds 1..8 entries whenever some higher
level is populated, every higher level is empty, half-full or full, and
intermediate levels hold at least their half). -/
theorem claim_C1 (ops : List AddrOp) (hvalid : validSeq 0 ops = true) :
    ∃ s2, runOps [] ops = .ok s2 ∧ LevelInv s2 := by
  obtain ⟨cs2, es2, hv2, h16, hsum2, heq⟩ :=
    runOps_canon ops [] [] rfl (by simp) rfl hvalid
  exact ⟨canonLevels cs2 es2, heq, canon_LevelInv cs2 es2 hv2 h16 hsum2⟩

theorem claim_C1_witness :
    ∃ s2, runOps [] [AddrOp.putOp 1 2 3 4, AddrOp.removeOp 1] = .ok s2 ∧ LevelInv s2 :=
  claim_C1 [AddrOp.putOp 1 2 3 4, AddrOp.removeOp 1] (by decide)

/-- C1 counterexample: after 25 appends to an empty address the level
profile is `[1, 8, 16]` — level 2 is populated while level 1 holds 8
entries, not its maximum 16 — so the spec's "no gaps, all lower levels
exactly full" invariant is violated by a reachable state. -/
theorem claim_C1_cex :
    ¬ SpecLevelInv (applyPuts [] (List.replicate 25 (0, 0, 0, 0))) := by
  intro hinv
  obtain ⟨cs2, hv2, hsum2, heq⟩ :=
    puts_canon (List.replicate 25 (0, 0, 0, 0)) [] [] rfl (by simp) rfl
  have hma : applyPuts [] (List.replicate 25 (0, 0, 0, 0)) =
      canonLevels cs2 ((List.replicate 25 ((0, 0, 0, 0) : Nat × Nat × Nat × Nat)).map serTuple) := by
    show applyPuts (canonLevels [] []) _ = _
    rw [heq, List.nil_append]
  have hcs : cs2 = [1, 8, 16] := validCounts_unique hv2 (by decide) (by rw [hsum2]; decide)
  subst hcs
  rw [hma] at hinv
  have h16 : ∀ e ∈ (List.replicate 25 ((0, 0, 0, 0) : Nat × Nat × Nat × Nat)).map serTuple,
      e.length = txEntrySize := by
    intro e he
    obtain ⟨a, _, rfl⟩ := List.mem_map.mp he
    exact length_serializeAddrIndexEntry ..
  have hsum' : ([1, 8, 16] : List Nat).sum =
      ((List.replicate 25 ((0, 0, 0, 0) : Nat × Nat × Nat × Nat)).map serTuple).length := by
    simp
  have hent := entriesAtLevel_canon [1, 8, 16]
    ((List.replicate 25 ((0, 0, 0, 0) : Nat × Nat × Nat × Nat)).map serTuple) h16 hsum'
  have h2pos : 0 < entriesAtLevel (canonLevels [1, 8, 16]
      ((List.replicate 25 ((0, 0, 0, 0) : Nat × Nat × Nat × Nat)).map serTuple)) 2 := by
    rw [hent 2, dif_pos (by norm_num)]
    decide
  have hK := hinv.2.2 2 (by norm_num) h2pos 1 (by norm_num)
  rw [hent 1, dif_pos (by norm_num)] at hK
  exact absurd hK (by decide)

/-- C2 (confirmed): appending `N ≥ 1` entries to an empty address and
fetching with `skip = 0`, `want = N` returns exactly the `N` decoded
entries in insertion order when `reverse = false` and in reverse order
when `reverse = true` (the uint32 arguments bound `N` below `2^32`). -/
theorem claim_C2 (args : List (Nat × Nat × Nat × Nat)) (f : List Nat → Nat)
    (hN : 1 ≤ args.length) (h32 : args.length < 2 ^ 32) :
    dbFetchAddrIndexEntries (applyPuts [] args) 0 args.length false (okHash f) =
      .ok (args.map (decTuple f), 0) ∧
    dbFetchAddrIndexEntries (applyPuts [] args) 0 args.length true (okHash f) =
      .ok ((args.map (decTuple f)).reverse, 0) := by
  obtain ⟨cs2, hv2, hsum2, heq⟩ := puts_canon args [] [] rfl (by simp) rfl
  have hma : applyPuts [] args = canonLevels cs2 (args.map serTuple) := by
    show applyPuts (canonLevels [] []) args = _
    rw [heq, List.nil_append]
  have h16 : ∀ e ∈ args.map serTuple, e.length = txEntrySize := by
    intro e he
    obtain ⟨a, _, rfl⟩ := List.mem_map.mp he
    exact length_serializeAddrIndexEntry ..
  have hsum' : cs2.sum = (args.map serTuple).length := by
    rw [List.length_map]
    simpa using hsum2
  have hWF := fetchWF_canonLevels cs2 (args.map serTuple) hv2 h16 hsum'
  have hTE : totalEntries (canonLevels cs2 (args.map serTuple)) = args.length := by
    rw [totalEntries_canon cs2 (args.map serTuple) h16 hsum', List.length_map]
  have hflat : flattenLevels (canonLevels cs2 (args.map serTuple)) =
      (args.map serTuple).flatten :=
    flattenLevels_canonLevels cs2 (args.map serTuple) hsum'
  have hfwd : (List.range args.length).map
      (fun i => entryAt ((args.map serTuple).flatten) f i) = args.map (decTuple f) := by
    apply List.ext_getElem (by simp)
    intro n h1 h2
    have hn : n < args.length := by simpa using h2
    rw [List.getElem_map, List.getElem_map, List.getElem_range]
    exact entryAt_map_serTuple args f n hn
  constructor
  · rw [hma, fetch_spec _ 0 args.length false f hWF (fun h => Bool.noConfusion h), hTE,
      if_neg (by omega), if_neg (by omega), hflat]
    have hmin : min (args.length - 0) args.length = args.length := by omega
    rw [hmin]
    simp only [Bool.false_eq_true, if_false, Nat.zero_add]
    rw [hfwd]
  · rw [hma, fetch_spec _ 0 args.length true f hWF (fun _ => by omega), hTE,
      if_neg (by omega), if_neg (by omega), hflat]
    have hmin : min (args.length - 0) args.length = args.length := by omega
    rw [hmin]
    simp only [eq_self_iff_true, if_true, Nat.sub_zero]
    have hsw : ∀ i : Nat, args.length - i - 1 = args.length - 1 - i := fun i => by omega
    simp only [hsw]
    rw [show (List.range args.length).map
        (fun i => entryAt ((args.map serTuple).flatten) f (args.length - 1 - i)) =
        ((List.range args.length).map
          (fun i => entryAt ((args.map serTuple).flatten) f i)).reverse
      from range_map_rev _ _, hfwd]

theorem claim_C2_witness :
    dbFetchAddrIndexEntries
        (applyPuts [] [(1, 2, 3, 4), (5, 6, 7, 8)]) 0 2 false (okHash fun _ => 0) =
      .ok (([(1, 2, 3, 4), (5, 6, 7, 8)] : List (Nat × Nat × Nat × Nat)).map
        (decTuple fun _ => 0), 0) ∧
    dbFetchAddrIndexEntries
        (applyPuts [] [(1, 2, 3, 4), (5, 6, 7, 8)]) 0 2 true (okHash fun _ => 0) =
      .ok ((([(1, 2, 3, 4), (5, 6, 7, 8)] : List (Nat × Nat × Nat × Nat)).map
        (decTuple fun _ => 0)).reverse, 0) :=
  claim_C2 [(1, 2, 3, 4), (5, 6, 7, 8)] (fun _ => 0) (by decide) (by norm_num)

/-- C3 (confirmed): from any reachable (canonical) state, appending any
`k` entries and then removing with `count = k` restores the exact
previous per-level state, byte for byte. -/
theorem claim_C3 (s : AddrLevels) (hs : IsCanonical s)
    (args : List (Nat × Nat × Nat × Nat)) :
    dbRemoveAddrIndexEntries (applyPuts s args) (args.length : Int) = .ok s := by
  obtain ⟨cs, es, hv, h16, hsum, rfl⟩ := hs
  by_cases h0 : args = []
  · subst h0
    simp only [applyPuts, List.foldl_nil, List.length_nil, Nat.cast_zero]
    rw [dbRemoveAddrIndexEntries, if_pos le_rfl]
  · have hlen : 1 ≤ args.length := List.length_pos.mpr h0
    obtain ⟨cs2, hv2, hsum2, heq⟩ := puts_canon args cs es hv h16 hsum
    rw [heq]
    have h16x : ∀ e ∈ es ++ args.map serTuple, e.length = txEntrySize := by
      intro e he
      rcases List.mem_append.mp he with h | h
      · exact h16 e h
      · obtain ⟨a, _, rfl⟩ := List.mem_map.mp h
        exact length_serializeAddrIndexEntry ..
    have hsum2' : cs2.sum = (es ++ args.map serTuple).length := by
      rw [List.length_append, List.length_map]
      exact hsum2
    obtain ⟨cs3, hv3, hsum3, heq3⟩ := remove_canon cs2 (es ++ args.map serTuple) hv2 h16x
      hsum2' (args.length : Int) (by omega) (by simp)
    rw [heq3]
    have htake : (es ++ args.map serTuple).take
        ((es ++ args.map serTuple).length - (args.length : Int).toNat) = es := by
      rw [show (es ++ args.map serTuple).length - (args.length : Int).toNat = es.length from by
        simp, List.take_left]
    have hcs3 : cs3 = cs := by
      refine validCounts_unique hv3 hv ?_
      have h1 : cs3.sum + args.length = es.length + args.length := by
        have h2 := hsum3
        simpa using h2
      rw [hsum]
      omega
    rw [htake, hcs3]

theorem claim_C3_witness :
    dbRemoveAddrIndexEntries (applyPuts [] [((0 : Nat), (0 : Nat), (0 : Nat), (0 : Nat))])
      (([((0 : Nat), (0 : Nat), (0 : Nat), (0 : Nat))] :
        List (Nat × Nat × Nat × Nat)).length : Int) = .ok [] :=
  claim_C3 [] ⟨[], [], rfl, by simp, rfl, rfl⟩ [(0, 0, 0, 0)]

/-- C4 (confirmed): appending nine entries to an empty address triggers
the first cascade: level 0 ends with exactly the single newest entry
(one entry) and level 1 holds the first eight entries in order. -/
theorem claim_C4 (args : List (Nat × Nat × Nat × Nat)) (h9 : args.length = 9) :
    entriesAtLevel (applyPuts [] args) 0 = 1 ∧
    entriesAtLevel (applyPuts [] args) 1 = 8 ∧
    getLevel (applyPuts [] args) 0 = ((args.drop 8).map serTuple).flatten ∧
    getLevel (applyPuts [] args) 1 = ((args.take 8).map serTuple).flatten := by
  obtain ⟨cs2, hv2, hsum2, heq⟩ := puts_canon args [] [] rfl (by simp) rfl
  have hma : applyPuts [] args = canonLevels cs2 (args.map serTuple) := by
    show applyPuts (canonLevels [] []) args = _
    rw [heq, List.nil_append]
  have hcs : cs2 = [1, 8] := validCounts_unique hv2 (by decide) (by rw [hsum2, h9]; rfl)
  subst hcs
  have h16 : ∀ e ∈ args.map serTuple, e.length = txEntrySize := by
    intro e he
    obtain ⟨a, _, rfl⟩ := List.mem_map.mp he
    exact length_serializeAddrIndexEntry ..
  have hsum' : ([1, 8] : List Nat).sum = (args.map serTuple).length := by
    simp [h9]
  refine ⟨?_, ?_, ?_, ?_⟩
  · rw [hma, entriesAtLevel_canon [1, 8] _ h16 hsum' 0, dif_pos (by norm_num)]
    rfl
  · rw [hma, entriesAtLevel_canon [1, 8] _ h16 hsum' 1, dif_pos (by norm_num)]
    rfl
  · rw [hma, getLevel_canonLevels [1, 8] _ hsum' 0]
    have e1 : (([1, 8] : List Nat).drop (0 + 1)).sum = 8 := rfl
    have e2 : (([1, 8] : List Nat).drop 0).sum = 9 := rfl
    rw [e1, e2]
    congr 1
    rw [seg, show (9 : Nat) = (args.map serTuple).length from by simp [h9], List.take_length,
      ← List.map_drop]
  · rw [hma, getLevel_canonLevels [1, 8] _ hsum' 1]
    have e1 : (([1, 8] : List Nat).drop (1 + 1)).sum = 0 := rfl
    have e2 : (([1, 8] : List Nat).drop 1).sum = 8 := rfl
    rw [e1, e2]
    congr 1
    rw [seg, List.drop_zero, ← List.map_take]

theorem claim_C4_witness :
    entriesAtLevel (applyPuts [] [((1 : Nat), (0 : Nat), (0 : Nat), (0 : Nat)), (2, 0, 0, 0),
      (3, 0, 0, 0), (4, 0, 0, 0), (5, 0, 0, 0), (6, 0, 0, 0), (7, 0, 0, 0), (8, 0, 0, 0),
      (9, 0, 0, 0)]) 0 = 1 ∧
    entriesAtLevel (applyPuts [] [((1 : Nat), (0 : Nat), (0 : Nat), (0 : Nat)), (2, 0, 0, 0),
      (3, 0, 0, 0), (4, 0, 0, 0), (5, 0, 0, 0), (6, 0, 0, 0), (7, 0, 0, 0), (8, 0, 0, 0),
      (9, 0, 0, 0)]) 1 = 8 ∧
    getLevel (applyPuts [] [((1 : Nat), (0 : Nat), (0 : Nat), (0 : Nat)), (2, 0, 0, 0),
      (3, 0, 0, 0), (4, 0, 0, 0), (5, 0, 0, 0), (6, 0, 0, 0), (7, 0, 0, 0), (8, 0, 0, 0),
      (9, 0, 0, 0)]) 0 =
      ((([((1 : Nat), (0 : Nat), (0 : Nat), (0 : Nat)), (2, 0, 0, 0), (3, 0, 0, 0),
        (4, 0, 0, 0), (5, 0, 0, 0), (6, 0, 0, 0), (7, 0, 0, 0), (8, 0, 0, 0),
        (9, 0, 0, 0)] : List (Nat × Nat × Nat × Nat)).drop 8).map serTuple).flatten ∧
    getLevel (applyPuts [] [((1 : Nat), (0 : Nat), (0 : Nat), (0 : Nat)), (2, 0, 0, 0),
      (3, 0, 0, 0), (4, 0, 0, 0), (5, 0, 0, 0), (6, 0, 0, 0), (7, 0, 0, 0), (8, 0, 0, 0),
      (9, 0, 0, 0)]) 1 =
      ((([((1 : Nat), (0 : Nat), (0 : Nat), (0 : Nat)), (2, 0, 0, 0), (3, 0, 0, 0),
        (4, 0, 0, 0), (5, 0, 0, 0), (6, 0, 0, 0), (7, 0, 0, 0), (8, 0, 0, 0),
        (9, 0, 0, 0)] : List (Nat × Nat × Nat × Nat)).take 8).map serTuple).flatten :=
  claim_C4 [(1, 0, 0, 0), (2, 0, 0, 0), (3, 0, 0, 0), (4, 0, 0, 0), (5, 0, 0, 0),
    (6, 0, 0, 0), (7, 0, 0, 0), (8, 0, 0, 0), (9, 0, 0, 0)] rfl

/-- C5 (corrected): the windowing formula holds — `(∅, N)` when
`skip ≥ N`, `(∅, skip)` when `want = 0`, otherwise `min(want, N−skip)`
entries decoded at offsets `skip+i` (forward) or `N−skip−i−1`
(reverse) with `actuallySkipped = skip` — but for `reverse = true` only
under the side condition `skip + want < 2^32`: the Go loop threshold
`(numToSkip+numRequested)*txEntrySize` is computed in `uint32` and an
overflowing sum makes the reverse fetch load nothing and return an
empty result with a wrong skip count. -/
theorem claim_C5 (s : AddrLevels) (skip want : Nat) (rev : Bool) (f : List Nat → Nat)
    (hWF : fetchWF s = true) (hover : rev = true → skip + want < 2 ^ 32) :
    dbFetchAddrIndexEntries s skip want rev (okHash f) =
      if totalEntries s ≤ skip then .ok ([], totalEntries s)
      else if want = 0 then .ok ([], skip)
      else .ok ((List.range (min (totalEntries s - skip) want)).map fun i =>
        entryAt (flattenLevels s) f
          (if rev then totalEntries s - skip - i - 1 else skip + i), skip) :=
  fetch_spec s skip want rev f hWF hover

theorem claim_C5_witness :
    dbFetchAddrIndexEntries [serTuple (0, 0, 0, 0)] 0 1 false (okHash fun _ => 0) =
      .ok ([entryAt (flattenLevels [serTuple (0, 0, 0, 0)]) (fun _ => 0) 0], 0) := by
  rw [claim_C5 [serTuple (0, 0, 0, 0)] 0 1 false (fun _ => 0) rfl
    (fun h => Bool.noConfusion h)]
  rfl

/-- C5 counterexample: a state holding `N = 2` entries in level 0, with
`skip = 1 < N`, `want = 2^32 − 1 > 0` and `reverse = true`: the claim
predicts `min(want, N−skip) = 1` entry and `actuallySkipped = 1`, but
the uint32 sum `skip + want` wraps to `0`, the level-loading loop exits
immediately, and the call returns `(∅, 0)`. -/
theorem claim_C5_cex :
    dbFetchAddrIndexEntries [serTuple (0, 0, 0, 0) ++ serTuple (1, 1, 1, 1)] 1 (2 ^ 32 - 1)
        true (okHash fun _ => 0) = .ok ([], 0) ∧
    totalEntries [serTuple (0, 0, 0, 0) ++ serTuple (1, 1, 1, 1)] = 2 ∧
    fetchWF [serTuple (0, 0, 0, 0) ++ serTuple (1, 1, 1, 1)] = true ∧
    (.ok ([], 0) : Except AddrIdxErr (List TxIndexEntry × Nat)) ≠
      .ok ([entryAt (flattenLevels [serTuple (0, 0, 0, 0) ++ serTuple (1, 1, 1, 1)])
        (fun _ => 0) 0], 1) := by
  have hser : fetchLevels [serTuple (0, 0, 0, 0) ++ serTuple (1, 1, 1, 1)] true
      ((1 + (2 ^ 32 - 1)) % 2 ^ 32 * txEntrySize) 0 [] = [] := by
    rw [fetchLevels, if_neg (by decide)]
  refine ⟨?_, rfl, rfl, ?_⟩
  · rw [dbFetch_eval _ 1 (2 ^ 32 - 1) true _ [] hser]
    rfl
  · intro h
    have h2 : ([] : List TxIndexEntry) =
        [entryAt (flattenLevels [serTuple (0, 0, 0, 0) ++ serTuple (1, 1, 1, 1)])
          (fun _ => 0) 0] := congrArg Prod.fst (Except.ok.inj h)
    exact List.cons_ne_nil _ _ h2.symm

/-- C6 (confirmed): for a reachable (canonical) state and a positive
count, the remove fails with the "not enough entries" assertion exactly
when the count exceeds the total number of stored entries, and succeeds
otherwise. -/
theorem claim_C6 (s : AddrLevels) (hs : IsCanonical s) (c : Int) (hc : 0 < c) :
    (totalEntries s < c.toNat →
      dbRemoveAddrIndexEntries s c =
        .error (.assertError "dbRemoveAddrIndexEntries not enough entries to delete")) ∧
    (c.toNat ≤ totalEntries s → ∃ s2, dbRemoveAddrIndexEntries s c = .ok s2) := by
  obtain ⟨cs, es, hv, h16, hsum, rfl⟩ := hs
  rw [totalEntries_canon cs es h16 hsum]
  constructor
  · intro hlt
    exact remove_insufficient cs es hv h16 hsum c hc hlt
  · intro hle
    obtain ⟨cs2, _, _, heq⟩ := remove_canon cs es hv h16 hsum c hc hle
    exact ⟨_, heq⟩

theorem claim_C6_witness :
    (totalEntries ([] : AddrLevels) < (1 : Int).toNat →
      dbRemoveAddrIndexEntries ([] : AddrLevels) 1 =
        .error (.assertError "dbRemoveAddrIndexEntries not enough entries to delete")) ∧
    ((1 : Int).toNat ≤ totalEntries ([] : AddrLevels) →
      ∃ s2, dbRemoveAddrIndexEntries ([] : AddrLevels) 1 = .ok s2) :=
  claim_C6 [] ⟨[], [], rfl, by simp, rfl, rfl⟩ 1 (by decide)

/-- C7 (corrected): the decoder does fail on short input — any buffer
of fewer than 16 bytes yields the "unexpected end of data"
deserialization error — but a 15-byte level-0 value does NOT surface a
Corruption error through the fetch path (see the counterexample): the
fetch computes the entry count by integer division, so a trailing
partial entry is silently ignored, never decoded. -/
theorem claim_C7 (bs : List Nat) (g : List Nat → Except AddrIdxErr Nat)
    (hshort : bs.length < txEntrySize) :
    deserializeAddrIndexEntry bs g = .error (.errDeserialize "unexpected end of data") := by
  rw [deserializeAddrIndexEntry, if_pos hshort]

theorem claim_C7_witness :
    deserializeAddrIndexEntry (List.replicate 15 0) (okHash fun _ => 0) =
      .error (.errDeserialize "unexpected end of data") :=
  claim_C7 (List.replicate 15 0) (okHash fun _ => 0) (by decide)

/-- C7 counterexample: with a 15-byte value stored under the level-0
key, fetching returns success with no entries (`numEntries = 15 / 16 =
0`), not a Corruption error, for either direction flag. -/
theorem claim_C7_cex :
    dbFetchAddrIndexEntries [List.replicate 15 0] 0 1 false (okHash fun _ => 0) =
      .ok ([], 0) ∧
    dbFetchAddrIndexEntries [List.replicate 15 0] 0 1 true (okHash fun _ => 0) =
      .ok ([], 0) := by
  have hserF : fetchLevels [List.replicate 15 0] false ((0 + 1) % 2 ^ 32 * txEntrySize) 0 [] =
      List.replicate 15 0 := by
    rw [fetchLevels, if_pos (by decide), dif_neg (by decide), fetchLevels,
      if_pos (by decide), dif_pos (by decide)]
    decide
  have hserT : fetchLevels [List.replicate 15 0] true ((0 + 1) % 2 ^ 32 * txEntrySize) 0 [] =
      List.replicate 15 0 := by
    rw [fetchLevels, if_pos (by decide), dif_neg (by decide), fetchLevels,
      if_pos (by decide), dif_pos (by decide)]
    decide
  constructor
  · rw [dbFetch_eval _ 0 1 false _ _ hserF]
    rfl
  · rw [dbFetch_eval _ 0 1 true _ _ hserT]
    rfl

/-- C9 (confirmed): a non-positive count (zero or negative) makes
`dbRemoveAddrIndexEntries` return success immediately with the state
untouched, so no assertion can fire and no key changes. -/
theorem claim_C9 (s : AddrLevels) (c : Int) (hc : c ≤ 0) :
    dbRemoveAddrIndexEntries s c = .ok s := by
  rw [dbRemoveAddrIndexEntries, if_pos hc]

theorem claim_C9_witness :
    dbRemoveAddrIndexEntries [serTuple (0, 0, 0, 0)] (-1) = .ok [serTuple (0, 0, 0, 0)] :=
  claim_C9 [serTuple (0, 0, 0, 0)] (-1) (by decide)

/-- C10 (confirmed): after any sequence of add/remove operations on the
unconfirmed mirror starting from the empty index, the two maps are
mutually consistent — a hash lies under an address in `txnsByAddr`
exactly when the address lies under the hash in `addrsByTx` — and no
`txnsByAddr` entry is an empty map. -/
theorem claim_C10 {κ η : Type} [DecidableEq κ] [DecidableEq η]
    (ops : List (MirrorOp κ η)) :
    MirrorInv (runMirrorOps emptyMirror ops) :=
  mirrorInv_runMirrorOps ops emptyMirror mirrorInv_empty

end Addrindex
